import Mathlib

/-!
Cubical homology: chain complex construction, reduction and matrix assembly

A shallow embedding of `src/cubesystem.cpp` (class `CubeSystem`) and a
verification of its specification.

Conventions of the embedding.

* `std::unordered_map<Cube, V>` is an association list `CubeMap V`.  Lookup
  takes the first entry with the key; the operations below keep keys distinct.
  A key that is new is placed at the end.  The iteration order of the C++
  container is unspecified, so statements about maps are made through lookup
  (`mapFind`, `mapCoeff`) and key lists, not through positions.
* `std::vector<T>` is `List T`; an index outside the vector is the fault
  `Outcome.outOfRange`.
* `int` is `Int` (overflow of coefficients is not modelled); the two loop
  tests of the reducer that mix `int` with `size_t` are computed modulo `2^64`.
* loops that have no syntactic bound take a fuel argument and end in
  `Outcome.outOfFuel` when it is used up.
-/

namespace CubeSystem

/-! ## Results of fallible code -/

/-- Result of a run: a value, an access outside a vector, or fuel used up. -/
inductive Outcome (α : Type) where
  | ok : α → Outcome α
  | outOfRange : Outcome α
  | outOfFuel : Outcome α
deriving DecidableEq, Repr

/-- Sequencing of fallible steps. -/
def Outcome.bind {α β : Type} (x : Outcome α) (f : α → Outcome β) : Outcome β :=
  match x with
  | .ok a => f a
  | .outOfRange => .outOfRange
  | .outOfFuel => .outOfFuel

/-- Read `v[i]` for an `int` index. -/
def vecGet {α : Type} (v : List α) (i : Int) : Outcome α :=
  if 0 ≤ i then
    match v[i.toNat]? with
    | some x => .ok x
    | none => .outOfRange
  else .outOfRange

/-- Write `v[i] = x` for an `int` index. -/
def vecSet {α : Type} (v : List α) (i : Int) (x : α) : Outcome (List α) :=
  if 0 ≤ i ∧ i.toNat < v.length then .ok (v.set i.toNat x) else .outOfRange

/-- The value of an integer expression as a 64-bit `size_t`. -/
def sizeT (x : Int) : Int := x % 2 ^ 64

/-- The value of a `size_t` expression converted to a 32-bit `int`. -/
def toInt32 (x : Int) : Int := (x + 2 ^ 31) % 2 ^ 32 - 2 ^ 31

/-! ## Intervals and cubes -/

/-- Modelled from the spec: class `Interval` (its header is not part of the
sources): an interval with integer end points `left` and `right`. -/
structure Interval where
  left : Int
  right : Int
deriving DecidableEq, Repr

/-- Modelled from the spec: `Interval(n)` is the non-degenerate interval `[n, n+1]`. -/
def Interval.unit (n : Int) : Interval := ⟨n, n + 1⟩

/-- Modelled from the spec: the degenerate interval `[n, n]`. -/
def Interval.point (n : Int) : Interval := ⟨n, n⟩

/-- Modelled from the spec: `Interval::isDegenerate`, the interval is a point. -/
def Interval.isDegenerate (I : Interval) : Bool := decide (I.left = I.right)

/-- Accessor `Interval::getLeft`. -/
def Interval.getLeft (I : Interval) : Int := I.left

/-- Accessor `Interval::getRight`. -/
def Interval.getRight (I : Interval) : Int := I.right

/-- Modelled from the spec: class `Cube`, an ordered tuple of intervals with
structural equality. -/
abbrev Cube := List Interval

/-- Modelled from the spec: `Cube::EmbeddingNumber`, the number of interval factors. -/
def EmbeddingNumber (Q : Cube) : Nat := Q.length

/-- Modelled from the spec: `Cube::Dimension`, the count of non-degenerate factors. -/
def Dimension (Q : Cube) : Nat := (Q.filter (fun I => !I.isDegenerate)).length

/-- Read `Q[i]`. -/
def cubeAt (Q : Cube) (i : Nat) : Interval := Q.getD i ⟨0, 0⟩

/-- The statement `R[i].setLeft(x)`. -/
def setLeft (R : Cube) (i : Nat) (x : Int) : Cube := R.set i { cubeAt R i with left := x }

/-- The statement `R[i].setRight(x)`. -/
def setRight (R : Cube) (i : Nat) (x : Int) : Cube := R.set i { cubeAt R i with right := x }

/-! ## Hash maps keyed by cubes -/

/-- Association list standing for `std::unordered_map<Cube, V, KeyHasher>`. -/
abbrev CubeMap (V : Type) := List (Cube × V)

/-- Lookup `m.find(k)`: the stored value, or `none` for `m.end()`. -/
def mapFind {V : Type} : CubeMap V → Cube → Option V
  | [], _ => none
  | (k', v) :: rest, k => if k' = k then some v else mapFind rest k

/-- The keys of a map, in the order of the association list. -/
def mapKeys {V : Type} (m : CubeMap V) : List Cube := m.map Prod.fst

/-- Statement `m[k] = v`: overwrite the value of `k`, or add the entry. -/
def mapAssign {V : Type} : CubeMap V → Cube → V → CubeMap V
  | [], k, v => [(k, v)]
  | (k', v') :: rest, k, v =>
    if k' = k then (k, v) :: rest else (k', v') :: mapAssign rest k v

/-- Call `m.insert({k, v})`: add the entry unless the key is present. -/
def mapInsert {V : Type} (m : CubeMap V) (k : Cube) (v : V) : CubeMap V :=
  match mapFind m k with
  | some _ => m
  | none => m ++ [(k, v)]

/-- Call `m.insert(L.begin(), L.end())`. -/
def mapInsertAll {V : Type} (m : CubeMap V) (L : CubeMap V) : CubeMap V :=
  L.foldl (fun acc p => mapInsert acc p.1 p.2) m

/-- Call `m.erase(k)`. -/
def mapErase {V : Type} (m : CubeMap V) (k : Cube) : CubeMap V :=
  m.filter (fun p => decide (p.1 ≠ k))

/-- Expression `m[k]` read as a value: `operator[]` adds `k` with the default
value `d` when it is absent and yields the stored value. -/
def mapIndex {V : Type} (m : CubeMap V) (k : Cube) (d : V) : V × CubeMap V :=
  match mapFind m k with
  | some v => (v, m)
  | none => (d, m ++ [(k, d)])

/-- A chain: `typedef std::unordered_map<Cube, int, KeyHasher> Chain`. -/
abbrev Chain := CubeMap Int

/-- The coefficient of a cube in a chain: the stored value, 0 for an absent key. -/
def mapCoeff (c : Chain) (Q : Cube) : Int := (mapFind c Q).getD 0

/-- The bases `E[0..d]`: `typedef std::vector<std::vector<Cube>> ChainComplex`. -/
abbrev ChainComplex := List (List Cube)

/-- The boundary maps: `std::vector<std::unordered_map<Cube, Chain, KeyHasher>>`. -/
abbrev BoundaryMap := List (CubeMap Chain)

/-! ## Canonical coordinates -/

/-- Loop of `CanonicalCoordinates`: `i` runs over the positions of `cubes`;
the state is the vector `v` and the chain `c` (passed by reference). -/
def CanonicalCoordinatesLoop : List Cube → List Int × Chain → List Int × Chain
  | [], st => st
  | Q :: cubes, (v, c) =>
    match mapFind c Q with
    | none => CanonicalCoordinatesLoop cubes (v ++ [0], c)
    | some x => CanonicalCoordinatesLoop cubes (v ++ [x], c)

/-- Function `CubeSystem::CanonicalCoordinates(c, cubes)`: the returned vector and the
final state of `c`. -/
def CanonicalCoordinatesSt (c : Chain) (cubes : List Cube) : List Int × Chain :=
  CanonicalCoordinatesLoop cubes ([], c)

/-- Function `CubeSystem::CanonicalCoordinates(c, cubes)`: the returned vector. -/
def CanonicalCoordinates (c : Chain) (cubes : List Cube) : List Int :=
  (CanonicalCoordinatesSt c cubes).1

/-- Loop of `ChainFromCanonicalCoordinates`: `i` runs over the positions of
`cubes` and reads `v[i]`; the first argument is `v` from position `i` on. -/
def ChainFromCanonicalCoordinatesLoop : List Int → List Cube → Chain → Outcome Chain
  | _, [], c => .ok c
  | [], _ :: _, _ => .outOfRange
  | x :: v, Q :: cubes, c =>
    ChainFromCanonicalCoordinatesLoop v cubes (if x ≠ 0 then mapAssign c Q x else c)

/-- Function `CubeSystem::ChainFromCanonicalCoordinates(v, cubes)`. -/
def ChainFromCanonicalCoordinates (v : List Int) (cubes : List Cube) : Outcome Chain :=
  ChainFromCanonicalCoordinatesLoop v cubes []

/-! ## Primary faces and the boundary of a cube -/

/-- Body of the loop of `PrimaryFaces` for the coordinate `i`. -/
def PrimaryFacesStep (Q : Cube) (faces : CubeMap Int) (i : Nat) : CubeMap Int :=
  if !(cubeAt Q i).isDegenerate then
    let R := Q
    let R := setLeft R i (cubeAt Q i).getLeft
    let R := setRight R i (cubeAt Q i).getLeft
    let faces := mapAssign faces R (Dimension R)
    let R := setLeft R i (cubeAt Q i).getRight
    let R := setRight R i (cubeAt Q i).getRight
    mapAssign faces R (Dimension R)
  else faces

/-- Function `CubeSystem::PrimaryFaces(Q)`. -/
def PrimaryFaces (Q : Cube) : CubeMap Int :=
  (List.range (EmbeddingNumber Q)).foldl (PrimaryFacesStep Q) []

/-- Function `CubeSystem::GetCoordinates(map)`: the keys in iteration order. -/
def GetCoordinates (map : CubeMap Int) : List Cube :=
  map.foldl (fun cubes it => cubes ++ [it.1]) []

/-- Body of the loop of `BoundaryOperator` for the coordinate `i`; the state is
`(sign, c)`. -/
def BoundaryOperatorStep (Q : Cube) (st : Int × Chain) (i : Nat) : Int × Chain :=
  if !(cubeAt Q i).isDegenerate then
    let R := Q
    let R := setLeft R i (cubeAt Q i).getLeft
    let R := setRight R i (cubeAt Q i).getLeft
    let c := mapAssign st.2 R (-st.1)
    let R := setLeft R i (cubeAt Q i).getRight
    let R := setRight R i (cubeAt Q i).getRight
    let c := mapAssign c R st.1
    (-st.1, c)
  else st

/-- Function `CubeSystem::BoundaryOperator(Q)`. -/
def BoundaryOperator (Q : Cube) : Chain :=
  ((List.range Q.length).foldl (BoundaryOperatorStep Q) (1, [])).2

/-! ## Chain groups: closure of the cubical set under primary faces -/

/-- Modelled from the spec: class `CubicalSet` (its header is not part of the
sources): the member `cubes`, a hash map keyed by cubes, and the value that
`K.Dimension()` returns. -/
structure CubicalSet where
  cubes : CubeMap Int
  dimension : Nat
deriving DecidableEq, Repr

/-- Modelled from the spec: `CubicalSet::isEmpty`. -/
def CubicalSet.isEmpty (K : CubicalSet) : Bool := K.cubes.isEmpty

/-- Modelled from the spec: `CubicalSet::Pop` removes one cube of `K` and
returns it.  Which cube is taken is not specified; `pick` chooses its position
in the current contents. -/
def CubicalSet.Pop (pick : CubeMap Int → Nat) (K : CubicalSet) : Cube × CubicalSet :=
  let Q := (K.cubes.getD (pick K.cubes % K.cubes.length) ([], 0)).1
  (Q, { K with cubes := mapErase K.cubes Q })

/-- Body of the `while (!K.isEmpty())` loop of `CubicalChainGroups`; the state
is `K` and `E`. -/
def CubicalChainGroupsBody (pick : CubeMap Int → Nat) (K : CubicalSet) (E : List (CubeMap Int)) :
    Outcome (CubicalSet × List (CubeMap Int)) :=
  let Q := (K.Pop pick).1
  let K := (K.Pop pick).2
  let k : Int := Dimension Q
  if k > 0 then
    let L := PrimaryFaces Q
    let K := { K with cubes := mapInsertAll K.cubes L }
    (vecGet E (k - 1)).bind fun Ek1 =>
    (vecSet E (k - 1) (mapInsertAll Ek1 L)).bind fun E =>
    (vecGet E k).bind fun Ek =>
    (vecSet E k (mapInsert Ek Q (Dimension Q))).bind fun E =>
    .ok (K, E)
  else
    (vecGet E k).bind fun Ek =>
    (vecSet E k (mapInsert Ek Q (Dimension Q))).bind fun E =>
    .ok (K, E)

/-- The `while (!K.isEmpty())` loop of `CubicalChainGroups`. -/
def CubicalChainGroupsLoop (pick : CubeMap Int → Nat) :
    Nat → CubicalSet → List (CubeMap Int) → Outcome (List (CubeMap Int))
  | fuel, K, E =>
    if K.isEmpty then .ok E
    else
      match fuel with
      | 0 => .outOfFuel
      | fuel + 1 =>
        (CubicalChainGroupsBody pick K E).bind fun st =>
        CubicalChainGroupsLoop pick fuel st.1 st.2

/-- Function `CubeSystem::CubicalChainGroups(K)`. -/
def CubicalChainGroups (pick : CubeMap Int → Nat) (fuel : Nat) (K : CubicalSet) :
    Outcome (List (CubeMap Int)) :=
  CubicalChainGroupsLoop pick fuel K (List.replicate (K.dimension + 1) [])

/-! ## Boundary maps and boundary matrices -/

/-- Inner loop of `Boundaries` for one level: `bd[k-1][e] = BoundaryOperator(e)`
for every `e = E[k][j]`. -/
def BoundariesLevel : List Cube → CubeMap Chain → CubeMap Chain
  | [], m => m
  | e :: rest, m => BoundariesLevel rest (mapAssign m e (BoundaryOperator e))

/-- Function `CubeSystem::Boundaries(E)`.  The vector `bd` gets `E.size() - 1` levels;
for an empty `E` that size wraps around and the allocation fails. -/
def Boundaries (E : ChainComplex) : Outcome BoundaryMap :=
  match E with
  | [] => .outOfRange
  | _ :: upper => .ok (upper.map fun Ek => BoundariesLevel Ek [])

/-- Modelled from the spec: class `IntMat` (its header is not part of the
sources): an integer matrix with `rows` rows and `cols` columns, kept as the
list of its columns. -/
structure IntMat where
  rows : Nat
  cols : Nat
  columns : List (List Int)
deriving DecidableEq, Repr

/-- Modelled from the spec: the constructor `IntMat(rows, cols)`, all entries 0. -/
def IntMat.zero (rows cols : Nat) : IntMat :=
  ⟨rows, cols, List.replicate cols (List.replicate rows 0)⟩

/-- Modelled from the spec: `IntMat::setColumn(j, column)`. -/
def IntMat.setColumn (M : IntMat) (j : Nat) (column : List Int) : IntMat :=
  { M with columns := M.columns.set j column }

/-- Modelled from the spec: the entry in row `i` and column `j`. -/
def IntMat.getEntry (M : IntMat) (i j : Nat) : Int := (M.columns.getD j []).getD i 0

/-- Column loop of `BoundaryOperatorMatrix(E, bd)`: `j` is the position of `e`
in `E[k]`; `bd[k-1][e]` is read with `operator[]`, an absent key giving the
empty chain. -/
def BoundaryOperatorMatrixColumns (bdk : CubeMap Chain) (Ek1 : List Cube) :
    List Cube → Nat → IntMat → IntMat
  | [], _, matrix => matrix
  | e :: rest, j, matrix =>
    let c := (mapIndex bdk e []).1
    let column := CanonicalCoordinates c Ek1
    BoundaryOperatorMatrixColumns bdk Ek1 rest (j + 1) (matrix.setColumn j column)

/-- The `k` loop of `BoundaryOperatorMatrix(E, bd)`; the list argument is `E`
from position `k - 1` on. -/
def BoundaryOperatorMatrixLoop (bd : BoundaryMap) : Nat → List (List Cube) → Outcome (List IntMat)
  | k, Ek1 :: Ek :: rest =>
    (vecGet bd ((k : Int) - 1)).bind fun bdk =>
    let matrix := IntMat.zero Ek1.length Ek.length
    let matrix := BoundaryOperatorMatrixColumns bdk Ek1 Ek 0 matrix
    (BoundaryOperatorMatrixLoop bd (k + 1) (Ek :: rest)).bind fun matrices =>
    .ok (matrix :: matrices)
  | _, _ => .ok []

/-- Function `CubeSystem::BoundaryOperatorMatrix(E, bd)`. -/
def BoundaryOperatorMatrix (E : ChainComplex) (bd : BoundaryMap) : Outcome (List IntMat) :=
  BoundaryOperatorMatrixLoop bd 1 E

/-- Column loop of `BoundaryOperatorMatrix(E)`. -/
def BoundaryOperatorMatrixColumnsE (Ek1 : List Cube) : List Cube → Nat → IntMat → IntMat
  | [], _, matrix => matrix
  | e :: rest, j, matrix =>
    let c := BoundaryOperator e
    let column := CanonicalCoordinates c Ek1
    BoundaryOperatorMatrixColumnsE Ek1 rest (j + 1) (matrix.setColumn j column)

/-- Function `CubeSystem::BoundaryOperatorMatrix(E)`, the overload without boundary map. -/
def BoundaryOperatorMatrixE : List (List Cube) → List IntMat
  | Ek1 :: Ek :: rest =>
    let matrix := IntMat.zero Ek1.length Ek.length
    let matrix := BoundaryOperatorMatrixColumnsE Ek1 Ek 0 matrix
    matrix :: BoundaryOperatorMatrixE (Ek :: rest)
  | _ => []

/-! ## Reduction of the chain complex -/

/-- Expression `m[cube][key]` read as a value; both `operator[]` calls add a
default entry when the key is absent. -/
def nestedIndex (m : CubeMap Chain) (cube key : Cube) : Int × CubeMap Chain :=
  let ch := (mapIndex m cube []).1
  let m := (mapIndex m cube []).2
  let x := (mapIndex ch key 0).1
  let ch := (mapIndex ch key 0).2
  (x, mapAssign m cube ch)

/-- Statement `m[cube][key] = x`. -/
def nestedAssign (m : CubeMap Chain) (cube key : Cube) (x : Int) : CubeMap Chain :=
  let ch := (mapIndex m cube []).1
  let m := (mapIndex m cube []).2
  mapAssign m cube (mapAssign ch key x)

/-- First loop of `Reduce`, over the cubes of `E[i+1]`, acting on `bd[i]`:
erase `b` from the boundary of every cube that has it. -/
def ReduceEraseAbove (b : Cube) : List Cube → CubeMap Chain → CubeMap Chain
  | [], m => m
  | cube :: rest, m =>
    let ch := (mapIndex m cube []).1
    let m := (mapIndex m cube []).2
    match mapFind ch b with
    | some _ => ReduceEraseAbove b rest (mapAssign m cube (mapErase ch b))
    | none => ReduceEraseAbove b rest m

/-- Innermost statement of `Reduce`, acting on `bd[i-1]`:
`bd[i-1][cube][c] -= bd[i-1][cube][a] * bd[i-1][b][a] * bd[i-1][b][c]`.
The three factors are read at this moment. -/
def ReduceUpdateEntry (a b cube c : Cube) (m : CubeMap Chain) : CubeMap Chain :=
  let x := (nestedIndex m cube a).1
  let m := (nestedIndex m cube a).2
  let y := (nestedIndex m b a).1
  let m := (nestedIndex m b a).2
  let z := (nestedIndex m b c).1
  let m := (nestedIndex m b c).2
  let old := (nestedIndex m cube c).1
  let m := (nestedIndex m cube c).2
  nestedAssign m cube c (old - x * y * z)

/-- Loop `for (auto it : bd[i-1][b])` of `Reduce`; the list holds the keys of
`bd[i-1][b]` in the order they are visited. -/
def ReduceUpdateCube (a b cube : Cube) : List Cube → CubeMap Chain → CubeMap Chain
  | [], m => m
  | c :: rest, m => ReduceUpdateCube a b cube rest (ReduceUpdateEntry a b cube c m)

/-- Second loop of `Reduce`, over the cubes of `E[i]`, acting on `bd[i-1]`.
The keys of `bd[i-1][b]` are taken in the order of the association list when
the loop over them starts (`a` is one of them at every call that
`ReduceChainComplex` makes, so the loop adds no key to that chain). -/
def ReduceUpdateSiblings (a b : Cube) : List Cube → CubeMap Chain → CubeMap Chain
  | [], m => m
  | cube :: rest, m =>
    if cube = b then ReduceUpdateSiblings a b rest m
    else
      let ch := (mapIndex m cube []).1
      let m := (mapIndex m cube []).2
      match mapFind ch a with
      | some _ =>
        let chb := (mapIndex m b []).1
        let m := (mapIndex m b []).2
        ReduceUpdateSiblings a b rest (ReduceUpdateCube a b cube (mapKeys chb) m)
      | none => ReduceUpdateSiblings a b rest m

/-- Function `CubeSystem::RemoveElementFromVector(v, e)`: the first occurrence of `e`
is overwritten by the last element and the last position is dropped. -/
def RemoveElementFromVector (v : List Cube) (e : Cube) : List Cube :=
  if v.indexOf e < v.length then (v.set (v.indexOf e) (v.getLastD [])).dropLast else v

/-- Function `CubeSystem::Reduce(E, bd, i, a, b)`; the result is the final state of `E`
and `bd`.  The vector `bd[i]` is read only when `E[i+1]` has a cube. -/
def Reduce (E : ChainComplex) (bd : BoundaryMap) (i : Int) (a b : Cube) :
    Outcome (ChainComplex × BoundaryMap) :=
  (if sizeT i < sizeT ((E.length : Int) - 1) then
      (vecGet E (i + 1)).bind fun Eup =>
      if Eup.isEmpty then .ok bd
      else (vecGet bd i).bind fun m => vecSet bd i (ReduceEraseAbove b Eup m)
    else .ok bd).bind fun bd =>
  (vecGet E i).bind fun Ei =>
  (vecGet bd (i - 1)).bind fun m =>
  (vecSet bd (i - 1) (ReduceUpdateSiblings a b Ei m)).bind fun bd =>
  (vecSet E i (RemoveElementFromVector Ei b)).bind fun E =>
  (vecGet E (i - 1)).bind fun Ei1 =>
  (vecSet E (i - 1) (RemoveElementFromVector Ei1 a)).bind fun E =>
  (vecGet bd (i - 1)).bind fun m =>
  (vecSet bd (i - 1) (mapErase m b)).bind fun bd =>
  (vecGet bd (i - 2)).bind fun m =>
  (vecSet bd (i - 2) (mapErase m a)).bind fun bd =>
  .ok (E, bd)

/-- Loop `for (Cube a : E[i-1])` of `ReduceChainComplex` for a fixed `b`,
acting on `bd[i-1]`: the first `a` that is a key of `bd[i-1][b]` with
coefficient `1` or `-1`. -/
def ReduceScanFaces (b : Cube) : List Cube → CubeMap Chain → CubeMap Chain × Option Cube
  | [], m => (m, none)
  | a :: rest, m =>
    let ch := (mapIndex m b []).1
    let m := (mapIndex m b []).2
    match mapFind ch a with
    | some x => if x.natAbs = 1 then (m, some a) else ReduceScanFaces b rest m
    | none => ReduceScanFaces b rest m

/-- Loop `for (Cube b : E[i])` of `ReduceChainComplex`: the first pair `(a, b)`
in scan order, if there is one. -/
def ReduceScanCubes (Ei1 : List Cube) : List Cube → CubeMap Chain →
    CubeMap Chain × Option (Cube × Cube)
  | [], m => (m, none)
  | b :: rest, m =>
    match ReduceScanFaces b Ei1 m with
    | (m, some a) => (m, some (a, b))
    | (m, none) => ReduceScanCubes Ei1 rest m

/-- State of `ReduceChainComplex`: the arguments `E` and `bd`, the flag
`reductionPairs`, and the number of calls of `Reduce` made so far. -/
structure ReduceState where
  E : ChainComplex
  bd : BoundaryMap
  reductionPairs : Bool
  calls : Nat
deriving DecidableEq, Repr

/-- Body of the loop over `i` in `ReduceChainComplex`.  The inner
`while (!found)` runs once: `found` is true at its end on either path.  The
vectors `E[i-1]` and `bd[i-1]` are read only when the enclosing loops have an
element to visit.

After the call of `Reduce` the `break` leaves the loop over `E[i-1]` only.  The
range-for over `E[i]` then advances its iterator, compares it with the end it
saved before the loop, and copies the next element into `b` before it tests
`found`.  By then `Reduce` has removed one element of `E[i]` by swap and pop.
The scan stops at the first cube that has a pair, so the iterator stands at the
first occurrence of `b`, position `p` of the `n` cubes the vector had: with
`p + 1 = n` the loop ends, with `p + 1 < n - 1` the copied element is in the
vector, and with `p + 1 = n - 1` the copy reads the popped slot, outside the
vector. -/
def ReduceChainComplexBody (i : Int) (st : ReduceState) : Outcome ReduceState :=
  (vecGet st.E i).bind fun Ei =>
  if Ei.isEmpty then .ok { st with reductionPairs := false }
  else
    (vecGet st.E (i - 1)).bind fun Ei1 =>
    if Ei1.isEmpty then .ok { st with reductionPairs := false }
    else
      (vecGet st.bd (i - 1)).bind fun m =>
      (vecSet st.bd (i - 1) (ReduceScanCubes Ei1 Ei m).1).bind fun bd =>
      match (ReduceScanCubes Ei1 Ei m).2 with
      | some (a, b) =>
        (Reduce st.E bd i a b).bind fun r =>
        if Ei.indexOf b + 2 = Ei.length then .outOfRange
        else
          .ok { E := r.1, bd := r.2, reductionPairs := st.reductionPairs, calls := st.calls + 1 }
      | none => .ok { st with bd := bd, reductionPairs := false }

/-- Loop `for (int i = E.size() - 1; i > E.size() - 2; --i)`; the test compares
as `size_t`. -/
def ReduceChainComplexFor : Nat → Int → ReduceState → Outcome ReduceState
  | fuel, i, st =>
    if sizeT i > sizeT ((st.E.length : Int) - 2) then
      match fuel with
      | 0 => .outOfFuel
      | fuel + 1 =>
        (ReduceChainComplexBody i st).bind fun st => ReduceChainComplexFor fuel (i - 1) st
    else .ok st

/-- Loop `while (reductionPairs)`. -/
def ReduceChainComplexWhile : Nat → ReduceState → Outcome ReduceState
  | fuel, st =>
    if st.reductionPairs then
      match fuel with
      | 0 => .outOfFuel
      | fuel + 1 =>
        (ReduceChainComplexFor (fuel + 1) (toInt32 (sizeT ((st.E.length : Int) - 1))) st).bind
          fun st => ReduceChainComplexWhile fuel st
    else .ok st

/-- Function `CubeSystem::ReduceChainComplex(E, bd)`: the final state. -/
def ReduceChainComplex (fuel : Nat) (E : ChainComplex) (bd : BoundaryMap) : Outcome ReduceState :=
  ReduceChainComplexWhile fuel { E := E, bd := bd, reductionPairs := true, calls := 0 }

/-! ## The entry point -/

/-- Function `CubeSystem::GetHomology(K, CCR)`.  The routine `Homology::GetHomology`
that turns the matrices into invariant factors is not part of the sources; it
is the parameter `solver`. -/
def GetHomology (pick : CubeMap Int → Nat) (solver : List IntMat → List (List Int))
    (fuel : Nat) (K : CubicalSet) (CCR : Bool) : Outcome (List (List Int)) :=
  (CubicalChainGroups pick fuel K).bind fun chainGroups =>
  let E : ChainComplex := chainGroups.map GetCoordinates
  (if CCR then
      (Boundaries E).bind fun bd =>
      (ReduceChainComplex fuel E bd).bind fun st =>
      BoundaryOperatorMatrix st.E st.bd
    else .ok (BoundaryOperatorMatrixE E)).bind fun D =>
  .ok (solver D)

/-! ## Definitions used in the proofs -/

/-- Closed form of the matrix built for one level. -/
def levelMatrix (bdk : CubeMap Chain) (Ek1 Ek : List Cube) : IntMat :=
  ⟨Ek1.length, Ek.length, Ek.map (fun e => CanonicalCoordinates (mapIndex bdk e []).1 Ek1)⟩

/-- The cube `Q` with coordinate `i` replaced by the degenerate interval `[x, x]`. -/
def collapse (Q : Cube) (i : Nat) (x : Int) : Cube := Q.set i ⟨x, x⟩

/-- Closed form of the boundary of a cube, by recursion on its intervals. -/
def signedFaces : Cube → List (Cube × Int)
  | [] => []
  | I :: S =>
    if !I.isDegenerate then
      (⟨I.left, I.left⟩ :: S, -1) :: (⟨I.right, I.right⟩ :: S, 1) ::
        (signedFaces S).map (fun p => (I :: p.1, -p.2))
    else (signedFaces S).map (fun p => (I :: p.1, p.2))

/-- Statement `c[k] = v` for each entry of a list, in order. -/
def assignAll {V : Type} (c : CubeMap V) (L : List (Cube × V)) : CubeMap V :=
  L.foldl (fun acc p => mapAssign acc p.1 p.2) c

/-- The non-degenerate coordinates of a cube, in ascending order. -/
def nondegIndices (Q : Cube) : List Nat :=
  (List.range Q.length).filter (fun i => !(cubeAt Q i).isDegenerate)

/-- The value of a chain on a function of cubes: the sum over the entries
`(F, s)` of `s * g F`. -/
def chainApply (L : List (Cube × Int)) (g : Cube → Int) : Int :=
  (L.map (fun p => p.2 * g p.1)).sum

/-- The coefficient of the cube `R` in the boundary of the chain `c`, with
`BoundaryOperator` extended linearly over the entries of `c`. -/
def boundaryOfChain (c : Chain) (R : Cube) : Int :=
  chainApply c (fun F => mapCoeff (BoundaryOperator F) R)

/-- The entry `(i, j)` of the matrix product `A * B`. -/
def IntMat.mulEntry (A B : IntMat) (i j : Nat) : Int :=
  ((List.range A.cols).map (fun l => A.getEntry i l * B.getEntry l j)).sum

/-- A cube is reachable from the cubes of `init` by zero or more primary-face
steps. -/
inductive Reach (init : List Cube) : Cube → Prop where
  | base {Q : Cube} : Q ∈ init → Reach init Q
  | face {Q F : Cube} : Reach init Q → F ∈ mapKeys (PrimaryFaces Q) → Reach init F

/-- Weight of a cube of dimension `k` in the termination measure of
`CubicalChainGroups`: one more than the total weight of its primary faces. -/
def faceWeight : Nat → Nat
  | 0 => 1
  | k + 1 => 1 + 2 * (k + 1) * faceWeight k

/-- Termination measure of `CubicalChainGroups`: the total weight of the
cubes waiting in `K`; it bounds the number of iterations of the loop. -/
def closureWeight (m : CubeMap Int) : Nat :=
  (m.map (fun p => faceWeight (Dimension p.1))).sum

/-- Loop invariant of `CubicalChainGroups`, for the initial cubes `init` and
`d = K.Dimension()`. -/
structure ClosureInv (init : List Cube) (d : Nat) (K : CubicalSet) (E : List (CubeMap Int)) :
    Prop where
  len : E.length = d + 1
  kdim : ∀ Q, Q ∈ mapKeys K.cubes → Dimension Q ≤ d
  kreach : ∀ Q, Q ∈ mapKeys K.cubes → Reach init Q
  sound : ∀ k Q, Q ∈ mapKeys (E.getD k []) → Reach init Q ∧ Dimension Q = k
  start : ∀ Q, Q ∈ init → Q ∈ mapKeys K.cubes ∨ Q ∈ mapKeys (E.getD (Dimension Q) [])
  closed : ∀ Q, Q ∈ mapKeys (E.getD (Dimension Q) []) →
    Q ∈ mapKeys K.cubes ∨
      ∀ F, F ∈ mapKeys (PrimaryFaces Q) → F ∈ mapKeys (E.getD (Dimension F) [])
  nodup : ∀ k, (mapKeys (E.getD k [])).Nodup

/-- Closed form of the matrix that `BoundaryOperatorMatrix(E)` builds for one level. -/
def levelMatrixE (Ek1 Ek : List Cube) : IntMat :=
  ⟨Ek1.length, Ek.length, Ek.map (fun e => CanonicalCoordinates (BoundaryOperator e) Ek1)⟩

/-- The cubical set that holds the unit square `[0, 1] x [0, 1]`. -/
def unitSquareSet : CubicalSet := ⟨[([⟨0, 1⟩, ⟨0, 1⟩], 2)], 2⟩

/-- The cubical set that holds the single point `[0] x [0]`; its dimension is 0. -/
def pointSet : CubicalSet := ⟨[([⟨0, 0⟩, ⟨0, 0⟩], 0)], 0⟩

/-- The cubical set that holds the single edge `[0, 1]`; its dimension is 1. -/
def edgeSet : CubicalSet := ⟨[([⟨0, 1⟩], 1)], 1⟩

/-- The effect of `RemoveElementFromVector(v, e)` on positions, `w` being the
vector after the call: nothing changes when `e` is absent; otherwise the
vector is one shorter, every element other than `e` that is not the last one
keeps its position, and the last element takes the position of the first `e`
unless that `e` was the last element itself. -/
def SwapPopped (v : List Cube) (e : Cube) (w : List Cube) : Prop :=
  (e ∉ v → w = v) ∧
  (e ∈ v → w.length + 1 = v.length ∧
    (∀ (j : Nat) (x : Cube), v[j]? = some x → x ≠ e → j + 1 < v.length → w[j]? = some x) ∧
    (v.indexOf e + 1 < v.length → w[v.indexOf e]? = v[v.length - 1]?))

/-- The bases of the two unit squares `[0,1] x [0,1]` and `[1,2] x [0,1]`:
six vertices, seven edges, two squares. -/
def twoSquaresE : ChainComplex :=
  [[[⟨0, 0⟩, ⟨0, 0⟩], [⟨0, 0⟩, ⟨1, 1⟩], [⟨1, 1⟩, ⟨0, 0⟩], [⟨1, 1⟩, ⟨1, 1⟩],
    [⟨2, 2⟩, ⟨0, 0⟩], [⟨2, 2⟩, ⟨1, 1⟩]],
   [[⟨0, 0⟩, ⟨0, 1⟩], [⟨1, 1⟩, ⟨0, 1⟩], [⟨0, 1⟩, ⟨0, 0⟩], [⟨0, 1⟩, ⟨1, 1⟩],
    [⟨2, 2⟩, ⟨0, 1⟩], [⟨1, 2⟩, ⟨0, 0⟩], [⟨1, 2⟩, ⟨1, 1⟩]],
   [[⟨0, 1⟩, ⟨0, 1⟩], [⟨1, 2⟩, ⟨0, 1⟩]]]

/-- The boundary map that `Boundaries` builds for `twoSquaresE`. -/
def twoSquaresBd : BoundaryMap :=
  (twoSquaresE.drop 1).map fun Ek => BoundariesLevel Ek []

/-- Lookup of the coefficient stored for `x` in the chain stored for `c`:
`none` when `c` is not a key of the map or `x` is not a key of the chain. -/
def mapFind2 (m : CubeMap Chain) (c x : Cube) : Option Int :=
  (mapFind m c).bind fun ch => mapFind ch x

/-- Lookup of the coefficient stored for `x` in the chain `bd[j][c]`. -/
def bdFind (bd : BoundaryMap) (j : Nat) (c x : Cube) : Option Int :=
  mapFind2 (bd.getD j []) c x

/-- No chain stored in `bd` has a key whose coefficient is 0. -/
def NoZero (bd : BoundaryMap) : Prop :=
  ∀ (j : Nat) (c x : Cube), bdFind bd j c x ≠ some 0

/-- Whether every coefficient stored in `bd` is different from `0`. -/
def noZeroEntries (bd : BoundaryMap) : Bool :=
  bd.all fun m => m.all fun p => p.2.all fun e => e.2 != 0

/-- Coefficient of `x` in the chain `bd[j][c]`, `0` when `c` or `x` is not a key. -/
def bdCoeff (bd : BoundaryMap) (j : Nat) (c x : Cube) : Int :=
  mapCoeff ((mapFind (bd.getD j []) c).getD []) x

/-- Coefficient of `y` in the boundary of the boundary of the `k`-cube `c`:
the sum over the keys `x` of `bd[k-1][c]` of its coefficient times the
coefficient of `y` in `bd[k-2][x]`. -/
def boundaryOfBoundaryAt (bd : BoundaryMap) (k : Nat) (c y : Cube) : Int :=
  chainApply ((mapFind (bd.getD (k - 1) []) c).getD []) (fun x => bdCoeff bd (k - 2) x y)

/-- Lexicographic order on intervals: by left end, then by right end. -/
def Interval.lexLt (I J : Interval) : Bool :=
  decide (I.left < J.left) || (decide (I.left = J.left) && decide (I.right < J.right))

/-- Lexicographic order on the interval tuples of two cubes. -/
def cubeLexLt : Cube → Cube → Bool
  | [], [] => false
  | [], _ :: _ => true
  | _ :: _, [] => false
  | I :: Q, J :: R => I.lexLt J || (decide (I = J) && cubeLexLt Q R)

/-- Whether a basis is sorted lexicographically: each cube is below the next one. -/
def sortedLex : List Cube → Bool
  | [] => true
  | [_] => true
  | Q :: R :: rest => cubeLexLt Q R && sortedLex (R :: rest)

/-- The cubical set that holds the two points `[0]` and `[1]` of the line. -/
def twoPointsSet : CubicalSet := ⟨[([⟨0, 0⟩], 0), ([⟨1, 1⟩], 0)], 0⟩

/-- Sum over `k` of the number of cubes in `E[k]`. -/
def totalSize (E : ChainComplex) : Nat := (E.map List.length).sum

/-- A reduction pair at level `d`: `b` is in `E[d]`, `a` is in `E[d-1]` and `a` is a
key of `bd[d-1][b]` with coefficient `1` or `-1`. -/
def UnitPair (E : ChainComplex) (bd : BoundaryMap) (d : Nat) (a b : Cube) : Prop :=
  b ∈ E.getD d [] ∧ a ∈ E.getD (d - 1) [] ∧
    ∃ x : Int, bdFind bd (d - 1) b a = some x ∧ x.natAbs = 1

/-- The state `st1` comes from `st` by a sequence of calls of `Reduce` at
level `d`, each one on a pair that is a reduction pair in the state it is
applied to; around the calls `bd` changes only by the default entries that the
scan inserts, which leave every lookup as it is. -/
inductive ReductionRun (d : Nat) : ReduceState → ReduceState → Prop where
  | stop (st st1 : ReduceState) : st1.E = st.E → st1.calls = st.calls →
      (∀ j c x, bdFind st1.bd j c x = bdFind st.bd j c x) → ReductionRun d st st1
  | step (st st1 : ReduceState) (a b : Cube) (bd1 : BoundaryMap)
      (r : ChainComplex × BoundaryMap) : UnitPair st.E st.bd d a b →
      (∀ j c x, bdFind bd1 j c x = bdFind st.bd j c x) →
      Reduce st.E bd1 (d : Int) a b = .ok r →
      ReductionRun d ⟨r.1, r.2, st.reductionPairs, st.calls + 1⟩ st1 → ReductionRun d st st1

/-- The cubical set that holds the two adjacent unit squares `[0,1] x [0,1]`
and `[1,2] x [0,1]`. -/
def twoSquaresSet : CubicalSet := ⟨[([⟨0, 1⟩, ⟨0, 1⟩], 2), ([⟨1, 2⟩, ⟨0, 1⟩], 2)], 2⟩

/-- The bases of the unit square `[0,1] x [0,1]`: four vertices, four edges,
one square. -/
def unitSquareE : ChainComplex :=
  [[[⟨0, 0⟩, ⟨0, 0⟩], [⟨0, 0⟩, ⟨1, 1⟩], [⟨1, 1⟩, ⟨0, 0⟩], [⟨1, 1⟩, ⟨1, 1⟩]],
   [[⟨0, 0⟩, ⟨0, 1⟩], [⟨1, 1⟩, ⟨0, 1⟩], [⟨0, 1⟩, ⟨0, 0⟩], [⟨0, 1⟩, ⟨1, 1⟩]],
   [[⟨0, 1⟩, ⟨0, 1⟩]]]

/-- The boundary map that `Boundaries` builds for `unitSquareE`. -/
def unitSquareBd : BoundaryMap :=
  (unitSquareE.drop 1).map fun Ek => BoundariesLevel Ek []

/-! # Verification -/

/-! ## Lookup in maps -/

theorem mapFind_mapAssign {V : Type} (m : CubeMap V) (k q : Cube) (v : V) :
    mapFind (mapAssign m k v) q = if k = q then some v else mapFind m q := by
  induction m with
  | nil => simp [mapAssign, mapFind]
  | cons p rest ih =>
    obtain ⟨k1, v1⟩ := p
    by_cases h : k1 = k
    · subst h
      by_cases hq : k1 = q <;> simp [mapAssign, mapFind, hq]
    · by_cases hq : k1 = q
      · subst hq
        simp [mapAssign, mapFind, h, Ne.symm h]
      · simp [mapAssign, mapFind, h, hq, ih]

theorem mapFind_isSome_iff {V : Type} (m : CubeMap V) (q : Cube) :
    (mapFind m q).isSome = true ↔ q ∈ mapKeys m := by
  induction m with
  | nil => simp [mapFind, mapKeys]
  | cons p rest ih =>
    obtain ⟨k1, v1⟩ := p
    by_cases hq : k1 = q
    · simp [mapFind, mapKeys, hq]
    · have : ¬ q = k1 := fun h => hq h.symm
      simpa [mapFind, mapKeys, hq, this] using ih

theorem mapFind_eq_none_iff {V : Type} (m : CubeMap V) (q : Cube) :
    mapFind m q = none ↔ q ∉ mapKeys m := by
  rw [← mapFind_isSome_iff]
  cases mapFind m q <;> simp

theorem CanonicalCoordinatesLoop_eq (c : Chain) (cubes : List Cube) (v : List Int) :
    CanonicalCoordinatesLoop cubes (v, c) = (v ++ cubes.map (mapCoeff c), c) := by
  induction cubes generalizing v with
  | nil => simp [CanonicalCoordinatesLoop]
  | cons Q rest ih =>
    unfold CanonicalCoordinatesLoop
    cases h : mapFind c Q with
    | none => simp [ih, mapCoeff, h]
    | some x => simp [ih, mapCoeff, h]

theorem CanonicalCoordinates_eq_map (c : Chain) (cubes : List Cube) :
    CanonicalCoordinates c cubes = cubes.map (mapCoeff c) := by
  simp [CanonicalCoordinates, CanonicalCoordinatesSt, CanonicalCoordinatesLoop_eq]

/-- C7: `CanonicalCoordinates(c, E)` returns a vector of length `|E|` whose entry `i`
is the coefficient stored for `E[i]` in `c`, or 0 when `E[i]` is not a key of
`c`, and the chain `c` is left unchanged. -/
theorem CanonicalCoordinates_spec (c : Chain) (E : List Cube) :
    (CanonicalCoordinatesSt c E).2 = c ∧
    (CanonicalCoordinates c E).length = E.length ∧
    ∀ (i : Nat) (Q : Cube), E[i]? = some Q →
      (CanonicalCoordinates c E)[i]? =
        some (match mapFind c Q with
              | some x => x
              | none => 0) := by
  refine ⟨?_, ?_, ?_⟩
  · simp [CanonicalCoordinatesSt, CanonicalCoordinatesLoop_eq]
  · simp [CanonicalCoordinates_eq_map]
  · intro i Q h
    rw [CanonicalCoordinates_eq_map]
    simp only [List.getElem?_map, h, Option.map_some']
    congr 1
    unfold mapCoeff
    cases mapFind c Q <;> rfl

theorem ChainFromCanonicalCoordinatesLoop_map (f : Cube → Int) (cubes : List Cube) (acc : Chain) :
    ∃ r, ChainFromCanonicalCoordinatesLoop (cubes.map f) cubes acc = .ok r ∧
      ∀ Q, mapFind r Q = if Q ∈ cubes ∧ f Q ≠ 0 then some (f Q) else mapFind acc Q := by
  induction cubes generalizing acc with
  | nil => exact ⟨acc, by simp [ChainFromCanonicalCoordinatesLoop]⟩
  | cons Q0 rest ih =>
    obtain ⟨r, hr, hfind⟩ := ih (if f Q0 ≠ 0 then mapAssign acc Q0 (f Q0) else acc)
    refine ⟨r, by simpa [ChainFromCanonicalCoordinatesLoop] using hr, ?_⟩
    intro Q
    rw [hfind Q]
    by_cases h1 : Q ∈ rest ∧ f Q ≠ 0
    · have : (Q ∈ Q0 :: rest ∧ f Q ≠ 0) := ⟨List.mem_cons_of_mem _ h1.1, h1.2⟩
      rw [if_pos h1, if_pos this]
    · rw [if_neg h1]
      by_cases h0 : f Q0 ≠ 0
      · rw [if_pos h0, mapFind_mapAssign]
        by_cases hq : Q0 = Q
        · subst hq
          simp [h0]
        · have hq2 : ¬ Q = Q0 := fun h => hq h.symm
          have : ¬ (Q ∈ Q0 :: rest ∧ f Q ≠ 0) := by
            intro h
            rcases List.mem_cons.1 h.1 with h2 | h2
            · exact hq2 h2
            · exact h1 ⟨h2, h.2⟩
          rw [if_neg hq, if_neg this]
      · rw [if_neg h0]
        have : ¬ (Q ∈ Q0 :: rest ∧ f Q ≠ 0) := by
          intro h
          rcases List.mem_cons.1 h.1 with h2 | h2
          · subst h2; exact h0 h.2
          · exact h1 ⟨h2, h.2⟩
        rw [if_neg this]

/-- C8: for a chain `c` whose keys all occur in `E`, the chain rebuilt by
`ChainFromCanonicalCoordinates` from `CanonicalCoordinates(c, E)` has the same
coefficient as `c` on every cube; when `c` stores no zero coefficient it also
has the same keys. -/
theorem ChainFromCanonicalCoordinates_roundtrip (c : Chain) (E : List Cube)
    (hsupp : ∀ Q, Q ∈ mapKeys c → Q ∈ E) :
    ∃ r, ChainFromCanonicalCoordinates (CanonicalCoordinates c E) E = .ok r ∧
      (∀ Q, mapCoeff r Q = mapCoeff c Q) ∧
      ((∀ Q, mapFind c Q ≠ some 0) → ∀ Q, mapFind r Q = mapFind c Q) := by
  obtain ⟨r, hr, hfind⟩ := ChainFromCanonicalCoordinatesLoop_map (mapCoeff c) E []
  refine ⟨r, by simpa [ChainFromCanonicalCoordinates, CanonicalCoordinates_eq_map] using hr, ?_, ?_⟩
  · intro Q
    unfold mapCoeff at *
    rw [hfind Q]
    by_cases h : Q ∈ E ∧ (mapFind c Q).getD 0 ≠ 0
    · rw [if_pos h]; rfl
    · rw [if_neg h]
      by_cases hQ : Q ∈ E
      · have : (mapFind c Q).getD 0 = 0 := by
          by_contra h0
          exact h ⟨hQ, h0⟩
        simp [mapFind, this]
      · have : mapFind c Q = none := (mapFind_eq_none_iff c Q).2 (fun hk => hQ (hsupp Q hk))
        simp [mapFind, this]
  · intro hnz Q
    rw [hfind Q]
    unfold mapCoeff
    cases hc : mapFind c Q with
    | none => simp [mapFind]
    | some x =>
      have hx : x ≠ 0 := by
        intro h0
        subst h0
        exact hnz Q hc
      have hQ : Q ∈ E := hsupp Q ((mapFind_isSome_iff c Q).1 (by simp [hc]))
      simp [hQ, hx]

/-! ## Matrix assembly -/

theorem vecGet_ofNat {α : Type} (v : List α) (n : Nat) (x : α) (h : v[n]? = some x) :
    vecGet v (n : Int) = .ok x := by
  simp [vecGet, h]

theorem BoundaryOperatorMatrixColumns_eq (bdk : CubeMap Chain) (Ek1 : List Cube)
    (rest : List Cube) (pre post : List (List Int)) (M : IntMat)
    (hM : M.columns = pre ++ post) (hlen : rest.length ≤ post.length) :
    BoundaryOperatorMatrixColumns bdk Ek1 rest pre.length M =
      { M with columns := pre ++ rest.map (fun e => CanonicalCoordinates (mapIndex bdk e []).1 Ek1)
                            ++ post.drop rest.length } := by
  induction rest generalizing pre post M with
  | nil =>
    simp [BoundaryOperatorMatrixColumns, ← hM]
  | cons e rest ih =>
    cases post with
    | nil => simp at hlen
    | cons p post =>
      simp only [BoundaryOperatorMatrixColumns]
      have h1 : (M.setColumn pre.length (CanonicalCoordinates (mapIndex bdk e []).1 Ek1)).columns
          = (pre ++ [CanonicalCoordinates (mapIndex bdk e []).1 Ek1]) ++ post := by
        simp [IntMat.setColumn, hM]
      have h2 := ih (pre ++ [CanonicalCoordinates (mapIndex bdk e []).1 Ek1]) post
        (M.setColumn pre.length (CanonicalCoordinates (mapIndex bdk e []).1 Ek1)) h1
        (by simpa using hlen)
      simp only [List.length_append, List.length_singleton] at h2
      rw [h2]
      simp [IntMat.setColumn]

theorem BoundaryOperatorMatrixColumns_zero (bdk : CubeMap Chain) (Ek1 Ek : List Cube) :
    BoundaryOperatorMatrixColumns bdk Ek1 Ek 0 (IntMat.zero Ek1.length Ek.length) =
      levelMatrix bdk Ek1 Ek := by
  have h := BoundaryOperatorMatrixColumns_eq bdk Ek1 Ek [] (IntMat.zero Ek1.length Ek.length).columns
    (IntMat.zero Ek1.length Ek.length) (by simp) (by simp [IntMat.zero])
  simp only [List.length_nil] at h
  rw [h]
  simp [IntMat.zero, levelMatrix]

theorem levelMatrix_getEntry (bdk : CubeMap Chain) (Ek1 Ek : List Cube) (i j : Nat)
    (a e : Cube) (ha : Ek1[i]? = some a) (he : Ek[j]? = some e) :
    (levelMatrix bdk Ek1 Ek).getEntry i j = mapCoeff (mapIndex bdk e []).1 a := by
    simp [levelMatrix, IntMat.getEntry, List.getD_eq_getElem?_getD, he, ha,
    CanonicalCoordinates_eq_map]

theorem BoundaryOperatorMatrixLoop_spec (bd : BoundaryMap) (E : List (List Cube)) (k : Nat)
    (hk : 1 ≤ k) (hbd : (k - 1) + (E.length - 1) ≤ bd.length) :
    ∃ Ms, BoundaryOperatorMatrixLoop bd k E = .ok Ms ∧ Ms.length = E.length - 1 ∧
      ∀ n, n + 1 < E.length →
        Ms[n]? = some (levelMatrix (bd.getD (k - 1 + n) []) (E.getD n []) (E.getD (n + 1) [])) := by
  induction E generalizing k with
  | nil => exact ⟨[], by simp [BoundaryOperatorMatrixLoop]⟩
  | cons Ek1 tail ih =>
    cases tail with
    | nil => exact ⟨[], by simp [BoundaryOperatorMatrixLoop]⟩
    | cons Ek rest =>
      have hlt : k - 1 < bd.length := by simp at hbd; omega
      obtain ⟨Ms, hMs, hlen, hget⟩ := ih (k + 1) (by omega) (by simp at hbd ⊢; omega)
      have hcast : ((k : Int) - 1) = ((k - 1 : Nat) : Int) := by omega
      have hg : vecGet bd ((k : Int) - 1) = .ok (bd.getD (k - 1) []) := by
        rw [hcast]
        apply vecGet_ofNat
        simp [List.getD_eq_getElem?_getD, List.getElem?_eq_getElem hlt]
      refine ⟨levelMatrix (bd.getD (k - 1) []) Ek1 Ek :: Ms, ?_, ?_, ?_⟩
      · simp only [BoundaryOperatorMatrixLoop, hg, Outcome.bind, hMs,
          BoundaryOperatorMatrixColumns_zero]
      · simp [hlen]
      · intro n hn
        cases n with
        | zero => simp
        | succ n =>
          have := hget n (by simpa using hn)
          simp only [List.getElem?_cons_succ, List.getD_cons_succ]
          rw [this]
          have : k + 1 - 1 + n = k - 1 + (n + 1) := by omega
          rw [this]
          simp

/-- C9: for bases `E[0..d]` and a boundary map with a level for each `k` in
`1..d`, `BoundaryOperatorMatrix(E, bd)` returns `d` matrices; the matrix for
`k` has `|E[k-1]|` rows and `|E[k]|` columns and its entry `(i, j)` is the
coefficient of `E[k-1][i]` in the chain `bd[k-1][E[k][j]]`, 0 when the cube is
not a key of the chain. -/
theorem BoundaryOperatorMatrix_spec (E : ChainComplex) (bd : BoundaryMap)
    (hbd : E.length - 1 ≤ bd.length) :
    ∃ Ms, BoundaryOperatorMatrix E bd = .ok Ms ∧ Ms.length = E.length - 1 ∧
      ∀ k, 1 ≤ k → k < E.length →
        ∃ M Ek1 Ek bdk, Ms[k - 1]? = some M ∧ E[k - 1]? = some Ek1 ∧
          E[k]? = some Ek ∧ bd[k - 1]? = some bdk ∧
          M.rows = Ek1.length ∧ M.cols = Ek.length ∧
          ∀ i j a e, Ek1[i]? = some a → Ek[j]? = some e →
            M.getEntry i j =
              match mapFind bdk e with
              | some c => (match mapFind c a with
                           | some x => x
                           | none => 0)
              | none => 0 := by
  obtain ⟨Ms, hMs, hlen, hget⟩ := BoundaryOperatorMatrixLoop_spec bd E 1 (le_refl 1) (by simpa using hbd)
  refine ⟨Ms, hMs, hlen, ?_⟩
  intro k hk1 hk
  have h := hget (k - 1) (by omega)
  have e1 : k - 1 + 1 = k := by omega
  have hk1lt : k - 1 < E.length := by omega
  have hbdlt : k - 1 < bd.length := by omega
  simp only [Nat.sub_self, Nat.zero_add, e1] at h
  refine ⟨_, E.getD (k - 1) [], E.getD k [], bd.getD (k - 1) [], h, ?_, ?_, ?_, rfl, rfl, ?_⟩
  · simp [List.getD_eq_getElem?_getD, List.getElem?_eq_getElem hk1lt]
  · simp [List.getD_eq_getElem?_getD, List.getElem?_eq_getElem hk]
  · simp [List.getD_eq_getElem?_getD, List.getElem?_eq_getElem hbdlt]
  · intro i j a e ha he
    rw [levelMatrix_getEntry _ _ _ i j a e ha he]
    unfold mapIndex mapCoeff
    cases hf : mapFind (bd.getD (k - 1) []) e with
    | none => simp [mapFind]
    | some c => cases hc : mapFind c a <;> simp [hc]

/-! ## The boundary of a cube in closed form -/

theorem setRight_setLeft (Q : Cube) (i : Nat) (x : Int) :
    setRight (setLeft Q i x) i x = collapse Q i x := by
  unfold setRight setLeft collapse cubeAt
  by_cases h : i < Q.length
  · simp [List.getD_eq_getElem?_getD, h]
  · have h2 : Q.length ≤ i := Nat.le_of_not_lt h
    simp [List.set_eq_of_length_le, h2]

theorem collapse_collapse (Q : Cube) (i : Nat) (x y : Int) :
    collapse (collapse Q i x) i y = collapse Q i y := by
  simp [collapse]

theorem BoundaryOperatorStep_eq (Q : Cube) (st : Int × Chain) (i : Nat) :
    BoundaryOperatorStep Q st i =
      if !(cubeAt Q i).isDegenerate then
        (-st.1, mapAssign (mapAssign st.2 (collapse Q i (cubeAt Q i).left) (-st.1))
          (collapse Q i (cubeAt Q i).right) st.1)
      else st := by
  unfold BoundaryOperatorStep
  simp only [setRight_setLeft, collapse_collapse, Interval.getLeft, Interval.getRight]

theorem PrimaryFacesStep_eq (Q : Cube) (faces : CubeMap Int) (i : Nat) :
    PrimaryFacesStep Q faces i =
      if !(cubeAt Q i).isDegenerate then
        mapAssign (mapAssign faces (collapse Q i (cubeAt Q i).left)
            (Dimension (collapse Q i (cubeAt Q i).left)))
          (collapse Q i (cubeAt Q i).right) (Dimension (collapse Q i (cubeAt Q i).right))
      else faces := by
  unfold PrimaryFacesStep
  simp only [setRight_setLeft, collapse_collapse, Interval.getLeft, Interval.getRight]

theorem cubeAt_append (P S : Cube) (I : Interval) : cubeAt (P ++ I :: S) P.length = I := by
  unfold cubeAt
  rw [List.getD_eq_getElem?_getD, List.getElem?_append_right (le_refl _)]
  simp

theorem collapse_append (P S : Cube) (I : Interval) (x : Int) :
    collapse (P ++ I :: S) P.length x = P ++ ⟨x, x⟩ :: S := by
  simp [collapse]

theorem assignAll_cons {V : Type} (c : CubeMap V) (p : Cube × V) (L : List (Cube × V)) :
    assignAll c (p :: L) = assignAll (mapAssign c p.1 p.2) L := rfl

theorem BoundaryOperator_fold (S : Cube) : ∀ (P : Cube) (s : Int) (c : Chain),
    ((List.range' P.length S.length).foldl (BoundaryOperatorStep (P ++ S)) (s, c)).2 =
      assignAll c ((signedFaces S).map (fun p => (P ++ p.1, s * p.2))) := by
  induction S with
  | nil => intro P s c; simp [assignAll, signedFaces]
  | cons I S ih =>
    intro P s c
    have hQ : P ++ I :: S = (P ++ [I]) ++ S := by simp
    simp only [List.length_cons, List.range'_succ, List.foldl_cons]
    rw [BoundaryOperatorStep_eq, cubeAt_append, collapse_append, collapse_append]
    have hlen : P.length + 1 = (P ++ [I]).length := by simp
    rw [hlen, hQ]
    by_cases hI : I.isDegenerate = true
    · simp only [hI, Bool.not_true, Bool.false_eq_true, if_false]
      rw [ih (P ++ [I]) s c]
      simp [signedFaces, hI, Function.comp_def]
    · simp only [Bool.not_eq_true] at hI
      simp only [hI, Bool.not_false, if_true]
      rw [ih (P ++ [I]) (-s)]
      simp [signedFaces, hI, Function.comp_def, assignAll_cons]

theorem PrimaryFaces_fold (S : Cube) : ∀ (P : Cube) (c : CubeMap Int),
    (List.range' P.length S.length).foldl (PrimaryFacesStep (P ++ S)) c =
      assignAll c ((signedFaces S).map (fun p => (P ++ p.1, ((Dimension (P ++ p.1) : Nat) : Int)))) := by
  induction S with
  | nil => intro P c; simp [assignAll, signedFaces]
  | cons I S ih =>
    intro P c
    have hQ : P ++ I :: S = (P ++ [I]) ++ S := by simp
    simp only [List.length_cons, List.range'_succ, List.foldl_cons]
    rw [PrimaryFacesStep_eq, cubeAt_append, collapse_append, collapse_append]
    have hlen : P.length + 1 = (P ++ [I]).length := by simp
    rw [hlen, hQ]
    by_cases hI : I.isDegenerate = true
    · simp only [hI, Bool.not_true, Bool.false_eq_true, if_false]
      rw [ih (P ++ [I]) c]
      simp [signedFaces, hI, Function.comp_def]
    · simp only [Bool.not_eq_true] at hI
      simp only [hI, Bool.not_false, if_true]
      rw [ih (P ++ [I])]
      simp [signedFaces, hI, Function.comp_def, assignAll_cons]

theorem mapAssign_of_not_mem {V : Type} (m : CubeMap V) (k : Cube) (v : V)
    (h : k ∉ mapKeys m) : mapAssign m k v = m ++ [(k, v)] := by
  induction m with
  | nil => rfl
  | cons p rest ih =>
    obtain ⟨k1, v1⟩ := p
    have h1 : k1 ≠ k := by
      intro e; apply h; simp [mapKeys, e]
    have h2 : k ∉ mapKeys rest := by
      intro e; apply h; simp only [mapKeys, List.map_cons, List.mem_cons]; right; exact e
    simp [mapAssign, h1, ih h2]

theorem assignAll_of_nodup {V : Type} (L : List (Cube × V)) : ∀ (c : CubeMap V),
    (mapKeys (c ++ L)).Nodup → assignAll c L = c ++ L := by
  induction L with
  | nil => intro c _; simp [assignAll]
  | cons p L ih =>
    intro c h
    have hp : p.1 ∉ mapKeys c := by
      simp only [mapKeys, List.map_append, List.map_cons] at h
      rw [List.nodup_append] at h
      intro hm
      exact h.2.2 hm (List.mem_cons_self _ _)
    rw [assignAll_cons, mapAssign_of_not_mem c p.1 p.2 hp, ih]
    · simp
    · simpa using h

theorem degenerate_ne_of_not {I : Interval} (h : I.isDegenerate = false) (x : Int) :
    (⟨x, x⟩ : Interval) ≠ I := by
  intro e
  subst e
  simp [Interval.isDegenerate] at h

theorem left_ne_right_of_not {I : Interval} (h : I.isDegenerate = false) :
    I.left ≠ I.right := by
  simpa [Interval.isDegenerate] using h

theorem mapKeys_signedFaces_cons_deg (I : Interval) (S : Cube) (h : I.isDegenerate = true) :
    mapKeys (signedFaces (I :: S)) = (mapKeys (signedFaces S)).map (fun F => I :: F) := by
  simp [signedFaces, h, mapKeys, Function.comp_def]

theorem mapKeys_signedFaces_cons_nondeg (I : Interval) (S : Cube) (h : I.isDegenerate = false) :
    mapKeys (signedFaces (I :: S)) =
      (⟨I.left, I.left⟩ :: S) :: (⟨I.right, I.right⟩ :: S) ::
        (mapKeys (signedFaces S)).map (fun F => I :: F) := by
  simp [signedFaces, h, mapKeys, Function.comp_def]

theorem signedFaces_nodup (Q : Cube) : (mapKeys (signedFaces Q)).Nodup := by
  induction Q with
  | nil => simp [signedFaces, mapKeys]
  | cons I S ih =>
    have hinj : Function.Injective (fun F : Cube => I :: F) := fun a b h => by simpa using h
    by_cases hI : I.isDegenerate = true
    · rw [mapKeys_signedFaces_cons_deg I S hI]
      exact ih.map hinj
    · simp only [Bool.not_eq_true] at hI
      rw [mapKeys_signedFaces_cons_nondeg I S hI]
      have hl := degenerate_ne_of_not hI I.left
      have hr := degenerate_ne_of_not hI I.right
      have hlr := left_ne_right_of_not hI
      refine List.nodup_cons.2 ⟨?_, List.nodup_cons.2 ⟨?_, ih.map hinj⟩⟩
      · simp only [List.mem_cons, List.mem_map, List.cons.injEq, not_or]
        refine ⟨?_, ?_⟩
        · intro h
          apply hlr
          have := congrArg Interval.left h.1
          have := congrArg Interval.right h.1
          simp_all
        · rintro ⟨F, _, h1, _⟩
          exact hl h1.symm
      · simp only [List.mem_map, List.cons.injEq]
        rintro ⟨F, _, h1, _⟩
        exact hr h1.symm

theorem signedFaces_length (Q : Cube) : (signedFaces Q).length = 2 * Dimension Q := by
  induction Q with
  | nil => simp [signedFaces, Dimension]
  | cons I S ih =>
    by_cases hI : I.isDegenerate = true
    · simp [signedFaces, hI, Dimension] at ih ⊢
      exact ih
    · simp only [Bool.not_eq_true] at hI
      simp [signedFaces, hI, Dimension] at ih ⊢
      omega

theorem BoundaryOperator_eq_signedFaces (Q : Cube) : BoundaryOperator Q = signedFaces Q := by
  have h := BoundaryOperator_fold Q [] 1 []
  simp only [List.length_nil, List.nil_append, one_mul] at h
  unfold BoundaryOperator
  rw [List.range_eq_range', h]
  have : (signedFaces Q).map (fun p => (p.1, p.2)) = signedFaces Q := by simp
  rw [this, assignAll_of_nodup]
  · simp
  · simpa using signedFaces_nodup Q

theorem PrimaryFaces_eq_signedFaces (Q : Cube) :
    PrimaryFaces Q = (signedFaces Q).map (fun p => (p.1, ((Dimension p.1 : Nat) : Int))) := by
  have h := PrimaryFaces_fold Q [] []
  simp only [List.length_nil, List.nil_append] at h
  unfold PrimaryFaces EmbeddingNumber
  rw [List.range_eq_range', h, assignAll_of_nodup]
  · simp
  · have := signedFaces_nodup Q
    simpa [mapKeys, Function.comp_def] using this

theorem BoundaryOperator_nodup (Q : Cube) : (mapKeys (BoundaryOperator Q)).Nodup := by
  rw [BoundaryOperator_eq_signedFaces]
  exact signedFaces_nodup Q

theorem PrimaryFaces_of_dim_zero (Q : Cube) (h0 : Dimension Q = 0) : PrimaryFaces Q = [] := by
  have hl : (PrimaryFaces Q).length = 0 := by
    rw [PrimaryFaces_eq_signedFaces]; simp [signedFaces_length, h0]
  exact List.eq_nil_of_length_eq_zero hl

theorem mapKeys_PrimaryFaces (Q : Cube) : mapKeys (PrimaryFaces Q) = mapKeys (signedFaces Q) := by
  rw [PrimaryFaces_eq_signedFaces]
  simp [mapKeys, Function.comp_def]

theorem cubeAt_cons_succ (I : Interval) (S : Cube) (i : Nat) :
    cubeAt (I :: S) (i + 1) = cubeAt S i := by
  simp [cubeAt]

theorem cubeAt_cons_zero (I : Interval) (S : Cube) : cubeAt (I :: S) 0 = I := by
  simp [cubeAt]

theorem mem_signedFaces_iff (Q : Cube) : ∀ F : Cube,
    F ∈ mapKeys (signedFaces Q) ↔
      ∃ i, i < Q.length ∧ (cubeAt Q i).isDegenerate = false ∧
        (F = Q.set i ⟨(cubeAt Q i).left, (cubeAt Q i).left⟩ ∨
         F = Q.set i ⟨(cubeAt Q i).right, (cubeAt Q i).right⟩) := by
  induction Q with
  | nil => intro F; simp [signedFaces, mapKeys]
  | cons I S ih =>
    intro F
    have key : (∃ G, G ∈ mapKeys (signedFaces S) ∧ I :: G = F) ↔
        ∃ i, i + 1 < (I :: S).length ∧ (cubeAt (I :: S) (i + 1)).isDegenerate = false ∧
          (F = (I :: S).set (i + 1) ⟨(cubeAt (I :: S) (i + 1)).left, (cubeAt (I :: S) (i + 1)).left⟩ ∨
           F = (I :: S).set (i + 1) ⟨(cubeAt (I :: S) (i + 1)).right, (cubeAt (I :: S) (i + 1)).right⟩) := by
      constructor
      · rintro ⟨G, hG, rfl⟩
        obtain ⟨i, hi, hd, hF⟩ := (ih G).1 hG
        refine ⟨i, by simpa using hi, by simpa [cubeAt_cons_succ] using hd, ?_⟩
        simp only [cubeAt_cons_succ, List.set_cons_succ, List.cons.injEq, true_and]
        exact hF
      · rintro ⟨i, hi, hd, hF⟩
        simp only [cubeAt_cons_succ, List.set_cons_succ] at hd hF
        rcases hF with hF | hF
        · exact ⟨_, (ih _).2 ⟨i, by simpa using hi, hd, Or.inl rfl⟩, hF.symm⟩
        · exact ⟨_, (ih _).2 ⟨i, by simpa using hi, hd, Or.inr rfl⟩, hF.symm⟩
    by_cases hI : I.isDegenerate = true
    · rw [mapKeys_signedFaces_cons_deg I S hI, List.mem_map, key]
      constructor
      · rintro ⟨i, h⟩
        exact ⟨i + 1, h⟩
      · rintro ⟨i, hi, hd, hF⟩
        cases i with
        | zero => simp [cubeAt_cons_zero, hI] at hd
        | succ i => exact ⟨i, hi, hd, hF⟩
    · simp only [Bool.not_eq_true] at hI
      rw [mapKeys_signedFaces_cons_nondeg I S hI]
      simp only [List.mem_cons, List.mem_map]
      rw [key]
      constructor
      · rintro (h | h | ⟨i, h⟩)
        · exact ⟨0, by simp, by simpa [cubeAt_cons_zero] using hI,
            Or.inl (by simpa [cubeAt_cons_zero] using h)⟩
        · exact ⟨0, by simp, by simpa [cubeAt_cons_zero] using hI,
            Or.inr (by simpa [cubeAt_cons_zero] using h)⟩
        · exact ⟨i + 1, h⟩
      · rintro ⟨i, hi, hd, hF⟩
        cases i with
        | zero =>
          simp only [cubeAt_cons_zero, List.set_cons_zero] at hF
          rcases hF with hF | hF
          · exact Or.inl hF
          · exact Or.inr (Or.inl hF)
        | succ i => exact Or.inr (Or.inr ⟨i, hi, hd, hF⟩)

theorem Dimension_cons (I : Interval) (S : Cube) :
    Dimension (I :: S) = (if I.isDegenerate then 0 else 1) + Dimension S := by
  by_cases h : I.isDegenerate = true
  · simp [Dimension, h]
  · simp only [Bool.not_eq_true] at h
    simp [Dimension, h]; omega

theorem Dimension_set_degenerate (Q : Cube) : ∀ (i : Nat) (x : Int), i < Q.length →
    (cubeAt Q i).isDegenerate = false → Dimension (Q.set i ⟨x, x⟩) + 1 = Dimension Q := by
  induction Q with
  | nil => intro i x h; simp at h
  | cons I S ih =>
    intro i x hi hd
    cases i with
    | zero =>
      simp only [cubeAt_cons_zero] at hd
      have hne := left_ne_right_of_not hd
      simp [Dimension_cons, Interval.isDegenerate, hne]; omega
    | succ i =>
      simp only [cubeAt_cons_succ] at hd
      have := ih i x (by simpa using hi) hd
      simp only [List.set_cons_succ, Dimension_cons]
      omega

theorem Dimension_of_mem_signedFaces (Q F : Cube) (h : F ∈ mapKeys (signedFaces Q)) :
    Dimension F + 1 = Dimension Q := by
  obtain ⟨i, hi, hd, hF⟩ := (mem_signedFaces_iff Q F).1 h
  rcases hF with hF | hF <;> rw [hF] <;> exact Dimension_set_degenerate Q i _ hi hd

theorem nondegIndices_cons (I : Interval) (S : Cube) :
    nondegIndices (I :: S) =
      (if I.isDegenerate then [] else [0]) ++ (nondegIndices S).map (fun i => i + 1) := by
  unfold nondegIndices
  rw [List.length_cons, List.range_succ_eq_map, List.filter_cons, List.filter_map]
  have : ((fun i => !(cubeAt (I :: S) i).isDegenerate) ∘ Nat.succ)
      = (fun i => !(cubeAt S i).isDegenerate) := by
    funext i
    simp [cubeAt_cons_succ]
  rw [this]
  by_cases h : I.isDegenerate = true
  · simp [cubeAt_cons_zero, h]
  · simp only [Bool.not_eq_true] at h
    simp [cubeAt_cons_zero, h]

theorem nondegIndices_length (Q : Cube) : (nondegIndices Q).length = Dimension Q := by
  induction Q with
  | nil => simp [nondegIndices, Dimension]
  | cons I S ih =>
    rw [nondegIndices_cons, Dimension_cons]
    by_cases h : I.isDegenerate = true
    · simp [h, ih]
    · simp only [Bool.not_eq_true] at h
      simp [h, ih]; omega

theorem mapFind_map_cons (I : Interval) (f : Int → Int) (L : List (Cube × Int)) (J : Interval)
    (F : Cube) :
    mapFind (L.map (fun p => (I :: p.1, f p.2))) (J :: F) =
      if I = J then (mapFind L F).map f else none := by
  induction L with
  | nil => simp [mapFind]
  | cons p L ih =>
    obtain ⟨k, v⟩ := p
    simp only [List.map_cons, mapFind, List.cons.injEq]
    by_cases hIJ : I = J
    · subst hIJ
      by_cases hk : k = F
      · simp [hk]
      · simp only [hk, and_false, if_false, ih, if_true]
    · simp [hIJ, ih]

theorem mapFind_signedFaces (Q : Cube) : ∀ (j i : Nat), (nondegIndices Q)[j]? = some i →
    mapFind (signedFaces Q) (Q.set i ⟨(cubeAt Q i).right, (cubeAt Q i).right⟩) = some ((-1) ^ j) ∧
    mapFind (signedFaces Q) (Q.set i ⟨(cubeAt Q i).left, (cubeAt Q i).left⟩) = some (-(-1) ^ j) := by
  induction Q with
  | nil => intro j i h; simp [nondegIndices] at h
  | cons I S ih =>
    intro j i h
    rw [nondegIndices_cons] at h
    by_cases hI : I.isDegenerate = true
    · simp only [hI, if_true, List.nil_append, List.getElem?_map, Option.map_eq_some'] at h
      obtain ⟨i0, hi0, rfl⟩ := h
      obtain ⟨h1, h2⟩ := ih j i0 hi0
      simp only [cubeAt_cons_succ, List.set_cons_succ, signedFaces, hI, Bool.not_true,
        Bool.false_eq_true, if_false]
      have e1 := mapFind_map_cons I (fun x => x) (signedFaces S) I
        (S.set i0 ⟨(cubeAt S i0).right, (cubeAt S i0).right⟩)
      have e2 := mapFind_map_cons I (fun x => x) (signedFaces S) I
        (S.set i0 ⟨(cubeAt S i0).left, (cubeAt S i0).left⟩)
      simp only [if_true] at e1 e2
      rw [e1, e2, h1, h2]
      simp
    · simp only [Bool.not_eq_true] at hI
      have hl := degenerate_ne_of_not hI I.left
      have hr := degenerate_ne_of_not hI I.right
      have hlr := left_ne_right_of_not hI
      simp only [hI, Bool.false_eq_true, if_false, List.singleton_append] at h
      cases j with
      | zero =>
        simp only [List.getElem?_cons_zero, Option.some.injEq] at h
        subst h
        simp only [cubeAt_cons_zero, List.set_cons_zero, signedFaces, hI, Bool.not_false, if_true,
          mapFind, pow_zero]
        constructor
        · have : ¬ ((⟨I.left, I.left⟩ : Interval) :: S = ⟨I.right, I.right⟩ :: S) := by
            intro e
            simp only [List.cons.injEq, Interval.mk.injEq, and_self, and_true] at e
            exact hlr e
          simp [this]
        · simp
      | succ j =>
        simp only [List.getElem?_cons_succ, List.getElem?_map, Option.map_eq_some'] at h
        obtain ⟨i0, hi0, rfl⟩ := h
        obtain ⟨h1, h2⟩ := ih j i0 hi0
        simp only [cubeAt_cons_succ, List.set_cons_succ, signedFaces, hI, Bool.not_false, if_true,
          mapFind, List.cons.injEq, hl, hr, false_and, if_false]
        have e1 := mapFind_map_cons I (fun x => -x) (signedFaces S) I
          (S.set i0 ⟨(cubeAt S i0).right, (cubeAt S i0).right⟩)
        have e2 := mapFind_map_cons I (fun x => -x) (signedFaces S) I
          (S.set i0 ⟨(cubeAt S i0).left, (cubeAt S i0).left⟩)
        simp only [if_true] at e1 e2
        rw [e1, e2, h1, h2]
        simp [pow_succ]

/-! ## Primary faces and boundary of a cube: the contract -/

theorem mem_nondegIndices (Q : Cube) (i : Nat) :
    i ∈ nondegIndices Q ↔ i < Q.length ∧ (cubeAt Q i).isDegenerate = false := by
  simp [nondegIndices]

theorem nondegIndices_sorted (Q : Cube) : (nondegIndices Q).Pairwise (fun a b => a < b) := by
  unfold nondegIndices
  exact List.Pairwise.filter _ (List.pairwise_lt_range _)

theorem mem_PrimaryFaces (Q F : Cube) (v : Int) (h : (F, v) ∈ PrimaryFaces Q) :
    F ∈ mapKeys (signedFaces Q) ∧ v = ((Dimension F : Nat) : Int) := by
  rw [PrimaryFaces_eq_signedFaces] at h
  simp only [List.mem_map, Prod.mk.injEq] at h
  obtain ⟨p, hp, h1, h2⟩ := h
  subst h1
  exact ⟨List.mem_map.2 ⟨p, hp, rfl⟩, h2.symm⟩

/-- C6: for a cube `Q` of dimension `k`, `PrimaryFaces(Q)` has `2k` keys, all
distinct; every key has dimension `k-1`, is stored with the value `k-1`, and
is `Q` with one non-degenerate coordinate replaced by the degenerate interval
at its left or at its right end point; both collapses of every non-degenerate
coordinate are keys; a cube of dimension 0 has no primary face. -/
theorem PrimaryFaces_spec (Q : Cube) :
    (mapKeys (PrimaryFaces Q)).Nodup ∧
    (mapKeys (PrimaryFaces Q)).length = 2 * Dimension Q ∧
    (∀ F v, (F, v) ∈ PrimaryFaces Q →
      Dimension F + 1 = Dimension Q ∧ v = (Dimension Q : Int) - 1 ∧
      ∃ i, i < Q.length ∧ (cubeAt Q i).isDegenerate = false ∧
        (F = Q.set i ⟨(cubeAt Q i).left, (cubeAt Q i).left⟩ ∨
         F = Q.set i ⟨(cubeAt Q i).right, (cubeAt Q i).right⟩)) ∧
    (∀ i, i < Q.length → (cubeAt Q i).isDegenerate = false →
      Q.set i ⟨(cubeAt Q i).left, (cubeAt Q i).left⟩ ∈ mapKeys (PrimaryFaces Q) ∧
      Q.set i ⟨(cubeAt Q i).right, (cubeAt Q i).right⟩ ∈ mapKeys (PrimaryFaces Q)) ∧
    (Dimension Q = 0 → PrimaryFaces Q = []) := by
  refine ⟨?_, ?_, ?_, ?_, ?_⟩
  · rw [mapKeys_PrimaryFaces]; exact signedFaces_nodup Q
  · rw [mapKeys_PrimaryFaces]; simp [mapKeys, signedFaces_length]
  · intro F v h
    obtain ⟨hF, hv⟩ := mem_PrimaryFaces Q F v h
    have hd := Dimension_of_mem_signedFaces Q F hF
    refine ⟨hd, ?_, (mem_signedFaces_iff Q F).1 hF⟩
    rw [hv, ← hd]; push_cast; ring
  · intro i hi hd
    rw [mapKeys_PrimaryFaces]
    exact ⟨(mem_signedFaces_iff Q _).2 ⟨i, hi, hd, Or.inl rfl⟩,
      (mem_signedFaces_iff Q _).2 ⟨i, hi, hd, Or.inr rfl⟩⟩
  · intro h0
    have hl : (PrimaryFaces Q).length = 0 := by
      rw [PrimaryFaces_eq_signedFaces]; simp [signedFaces_length, h0]
    exact List.eq_nil_of_length_eq_zero hl

theorem BoundaryOperator_edge (n : Int) (R : Cube) :
    mapFind (BoundaryOperator [⟨n, n + 1⟩]) R =
      if R = [⟨n + 1, n + 1⟩] then some 1
      else if R = [⟨n, n⟩] then some (-1) else none := by
  rw [BoundaryOperator_eq_signedFaces]
  have h : (⟨n, n + 1⟩ : Interval).isDegenerate = false := by simp [Interval.isDegenerate]
  simp only [signedFaces, h, Bool.not_false, if_true, List.map_nil, mapFind]
  by_cases h1 : R = [⟨n + 1, n + 1⟩]
  · subst h1; simp
  · by_cases h2 : R = [⟨n, n⟩]
    · subst h2; simp
    · have h1a : ¬ [(⟨n + 1, n + 1⟩ : Interval)] = R := fun e => h1 e.symm
      have h2a : ¬ [(⟨n, n⟩ : Interval)] = R := fun e => h2 e.symm
      simp [h1, h2, h1a, h2a]

/-- C4: for a cube `Q` with non-degenerate coordinates `i_0 < ... < i_{k-1}`,
`BoundaryOperator(Q)` has exactly `2k` keys; `Q` with `i_j` collapsed to the
right end point has coefficient `(-1)^j`, `Q` with `i_j` collapsed to the left
end point has coefficient `-(-1)^j`, and no other cube is a key; the edge
`[n, n+1]` has boundary `[n+1] - [n]`. -/
theorem BoundaryOperator_spec (Q : Cube) :
    (nondegIndices Q).Pairwise (fun a b => a < b) ∧
    (∀ i, i ∈ nondegIndices Q ↔ i < Q.length ∧ (cubeAt Q i).isDegenerate = false) ∧
    (nondegIndices Q).length = Dimension Q ∧
    (mapKeys (BoundaryOperator Q)).Nodup ∧
    (mapKeys (BoundaryOperator Q)).length = 2 * (nondegIndices Q).length ∧
    (∀ j i, (nondegIndices Q)[j]? = some i →
      mapFind (BoundaryOperator Q) (Q.set i ⟨(cubeAt Q i).right, (cubeAt Q i).right⟩) =
        some ((-1) ^ j) ∧
      mapFind (BoundaryOperator Q) (Q.set i ⟨(cubeAt Q i).left, (cubeAt Q i).left⟩) =
        some (-(-1) ^ j)) ∧
    (∀ R, R ∈ mapKeys (BoundaryOperator Q) →
      ∃ (j i : Nat), (nondegIndices Q)[j]? = some i ∧
        (R = Q.set i ⟨(cubeAt Q i).right, (cubeAt Q i).right⟩ ∨
         R = Q.set i ⟨(cubeAt Q i).left, (cubeAt Q i).left⟩)) ∧
    (∀ (n : Int) (R : Cube), mapFind (BoundaryOperator [⟨n, n + 1⟩]) R =
      if R = [⟨n + 1, n + 1⟩] then some 1
      else if R = [⟨n, n⟩] then some (-1) else none) := by
  refine ⟨nondegIndices_sorted Q, mem_nondegIndices Q, nondegIndices_length Q, ?_, ?_, ?_, ?_,
    BoundaryOperator_edge⟩
  · rw [BoundaryOperator_eq_signedFaces]; exact signedFaces_nodup Q
  · rw [BoundaryOperator_eq_signedFaces, nondegIndices_length]
    simp [mapKeys, signedFaces_length]
  · intro j i h
    rw [BoundaryOperator_eq_signedFaces]
    exact mapFind_signedFaces Q j i h
  · intro R hR
    rw [BoundaryOperator_eq_signedFaces] at hR
    obtain ⟨i, hi, hd, hF⟩ := (mem_signedFaces_iff Q R).1 hR
    have hmem : i ∈ nondegIndices Q := (mem_nondegIndices Q i).2 ⟨hi, hd⟩
    obtain ⟨j, hj⟩ := List.getElem?_of_mem hmem
    exact ⟨j, i, hj, hF.symm⟩

/-- C5: the boundary of the unit square `[x, x+1] x [y, y+1]` has exactly four
keys, its four edges, with coefficient `+1` on the bottom edge, `-1` on the
top edge, `-1` on the left edge and `+1` on the right edge. -/
theorem BoundaryOperator_unit_square (x y : Int) :
    (mapKeys (BoundaryOperator [⟨x, x + 1⟩, ⟨y, y + 1⟩])).Nodup ∧
    (mapKeys (BoundaryOperator [⟨x, x + 1⟩, ⟨y, y + 1⟩])).length = 4 ∧
    ∀ R : Cube, mapFind (BoundaryOperator [⟨x, x + 1⟩, ⟨y, y + 1⟩]) R =
      if R = [⟨x, x + 1⟩, ⟨y, y⟩] then some 1
      else if R = [⟨x, x + 1⟩, ⟨y + 1, y + 1⟩] then some (-1)
      else if R = [⟨x, x⟩, ⟨y, y + 1⟩] then some (-1)
      else if R = [⟨x + 1, x + 1⟩, ⟨y, y + 1⟩] then some 1
      else none := by
  have hx : (⟨x, x + 1⟩ : Interval).isDegenerate = false := by simp [Interval.isDegenerate]
  have hy : (⟨y, y + 1⟩ : Interval).isDegenerate = false := by simp [Interval.isDegenerate]
  refine ⟨?_, ?_, ?_⟩
  · rw [BoundaryOperator_eq_signedFaces]; exact signedFaces_nodup _
  · rw [BoundaryOperator_eq_signedFaces]
    simp [mapKeys, signedFaces_length, Dimension, hx, hy]
  · intro R
    rw [BoundaryOperator_eq_signedFaces]
    simp only [signedFaces, hx, hy, Bool.not_false, if_true, List.map_nil, List.map_cons, mapFind]
    by_cases h1 : R = [⟨x, x + 1⟩, ⟨y, y⟩]
    · subst h1; simp
    by_cases h2 : R = [⟨x, x + 1⟩, ⟨y + 1, y + 1⟩]
    · subst h2; simp
    by_cases h3 : R = [⟨x, x⟩, ⟨y, y + 1⟩]
    · subst h3; simp
    by_cases h4 : R = [⟨x + 1, x + 1⟩, ⟨y, y + 1⟩]
    · subst h4; simp
    have h1a : ¬ [(⟨x, x + 1⟩ : Interval), ⟨y, y⟩] = R := fun e => h1 e.symm
    have h2a : ¬ [(⟨x, x + 1⟩ : Interval), ⟨y + 1, y + 1⟩] = R := fun e => h2 e.symm
    have h3a : ¬ [(⟨x, x⟩ : Interval), ⟨y, y + 1⟩] = R := fun e => h3 e.symm
    have h4a : ¬ [(⟨x + 1, x + 1⟩ : Interval), ⟨y, y + 1⟩] = R := fun e => h4 e.symm
    simp [h1, h2, h3, h4, h1a, h2a, h3a, h4a]

/-! ## The boundary of a boundary is zero -/

theorem chainApply_cons (p : Cube × Int) (L : List (Cube × Int)) (g : Cube → Int) :
    chainApply (p :: L) g = p.2 * g p.1 + chainApply L g := by
  simp [chainApply]

theorem chainApply_zero (L : List (Cube × Int)) (g : Cube → Int)
    (h : ∀ p, p ∈ L → g p.1 = 0) : chainApply L g = 0 := by
  induction L with
  | nil => rfl
  | cons p L ih =>
    rw [chainApply_cons, h p (List.mem_cons_self _ _),
      ih (fun q hq => h q (List.mem_cons_of_mem _ hq))]
    simp

theorem chainApply_map_cons (I : Interval) (t : Int) (L : List (Cube × Int)) (g : Cube → Int) :
    chainApply (L.map (fun p => (I :: p.1, t * p.2))) g =
      t * chainApply L (fun F => g (I :: F)) := by
  induction L with
  | nil => simp [chainApply]
  | cons p L ih =>
    simp only [List.map_cons, chainApply_cons, ih]
    ring

theorem chainApply_neg (L : List (Cube × Int)) (g : Cube → Int) :
    chainApply L (fun F => -g F) = -chainApply L g := by
  induction L with
  | nil => simp [chainApply]
  | cons p L ih =>
    rw [chainApply_cons, chainApply_cons, ih]
    ring

theorem mapCoeff_cons (k : Cube) (v : Int) (L : List (Cube × Int)) (R : Cube) :
    mapCoeff ((k, v) :: L) R = if k = R then v else mapCoeff L R := by
  unfold mapCoeff
  by_cases h : k = R <;> simp [mapFind, h]

theorem mapCoeff_of_not_mem (L : List (Cube × Int)) (R : Cube) (h : R ∉ mapKeys L) :
    mapCoeff L R = 0 := by
  unfold mapCoeff
  rw [(mapFind_eq_none_iff L R).2 h]
  rfl

theorem chainApply_indicator (L : List (Cube × Int)) (R : Cube) (t : Int)
    (hnd : (mapKeys L).Nodup) :
    chainApply L (fun F => if F = R then t else 0) = t * mapCoeff L R := by
  induction L with
  | nil => simp [chainApply, mapCoeff, mapFind]
  | cons p L ih =>
    obtain ⟨k, v⟩ := p
    simp only [mapKeys, List.map_cons, List.nodup_cons] at hnd
    rw [chainApply_cons, mapCoeff_cons, ih hnd.2]
    by_cases h : k = R
    · subst h
      rw [mapCoeff_of_not_mem L k hnd.1]
      simp [mul_comm]
    · simp [h]

theorem mapCoeff_signedFaces_nil (Q : Cube) : mapCoeff (signedFaces Q) [] = 0 := by
  apply mapCoeff_of_not_mem
  intro h
  obtain ⟨i, hi, _, hF⟩ := (mem_signedFaces_iff Q []).1 h
  rcases hF with hF | hF
  · have := congrArg List.length hF
    simp at this; omega
  · have := congrArg List.length hF
    simp at this; omega

theorem mapCoeff_map_cons (I : Interval) (t : Int) (L : List (Cube × Int)) (J : Interval)
    (F : Cube) :
    mapCoeff (L.map (fun p => (I :: p.1, t * p.2))) (J :: F) =
      if I = J then t * mapCoeff L F else 0 := by
  unfold mapCoeff
  rw [mapFind_map_cons I (fun x => t * x) L J F]
  by_cases h : I = J
  · simp only [h, if_true]
    cases mapFind L F <;> simp
  · simp [h]

theorem mapCoeff_signedFaces_deg (I : Interval) (S : Cube) (J : Interval) (R : Cube)
    (hI : I.isDegenerate = true) :
    mapCoeff (signedFaces (I :: S)) (J :: R) =
      if I = J then mapCoeff (signedFaces S) R else 0 := by
  have h := mapCoeff_map_cons I 1 (signedFaces S) J R
  simp only [one_mul] at h
  simpa [signedFaces, hI] using h

theorem mapCoeff_signedFaces_nondeg (I : Interval) (S : Cube) (J : Interval) (R : Cube)
    (hI : I.isDegenerate = false) :
    mapCoeff (signedFaces (I :: S)) (J :: R) =
      if (⟨I.left, I.left⟩ : Interval) = J ∧ S = R then -1
      else if (⟨I.right, I.right⟩ : Interval) = J ∧ S = R then 1
      else if I = J then -mapCoeff (signedFaces S) R else 0 := by
  have h := mapCoeff_map_cons I (-1) (signedFaces S) J R
  simp only [neg_mul, one_mul] at h
  simp only [signedFaces, hI, Bool.not_false, if_true, mapCoeff_cons, List.cons.injEq]
  rw [h]

theorem signedFaces_signedFaces (Q : Cube) : ∀ R : Cube,
    chainApply (signedFaces Q) (fun F => mapCoeff (signedFaces F) R) = 0 := by
  induction Q with
  | nil => intro R; simp [signedFaces, chainApply]
  | cons I S ih =>
    intro R
    cases R with
    | nil =>
      apply chainApply_zero
      intro p _
      exact mapCoeff_signedFaces_nil p.1
    | cons J R =>
      by_cases hI : I.isDegenerate = true
      · have e : signedFaces (I :: S) = (signedFaces S).map (fun p => (I :: p.1, 1 * p.2)) := by
          simp [signedFaces, hI]
        rw [e, chainApply_map_cons]
        have : (fun F => mapCoeff (signedFaces (I :: F)) (J :: R)) =
            fun F => if I = J then mapCoeff (signedFaces F) R else 0 := by
          funext F
          exact mapCoeff_signedFaces_deg I F J R hI
        rw [this]
        by_cases hIJ : I = J
        · simp only [hIJ, if_true, ih R]; simp
        · simp only [hIJ, if_false]
          simp [chainApply]
      · simp only [Bool.not_eq_true] at hI
        have hl := degenerate_ne_of_not hI I.left
        have hr := degenerate_ne_of_not hI I.right
        have hlr := left_ne_right_of_not hI
        have hLdeg : (⟨I.left, I.left⟩ : Interval).isDegenerate = true := by
          simp [Interval.isDegenerate]
        have hRdeg : (⟨I.right, I.right⟩ : Interval).isDegenerate = true := by
          simp [Interval.isDegenerate]
        have e : signedFaces (I :: S) =
            (⟨I.left, I.left⟩ :: S, -1) :: (⟨I.right, I.right⟩ :: S, 1) ::
              (signedFaces S).map (fun p => (I :: p.1, (-1) * p.2)) := by
          simp [signedFaces, hI]
        rw [e, chainApply_cons, chainApply_cons, chainApply_map_cons]
        simp only [mapCoeff_signedFaces_deg _ S J R hLdeg, mapCoeff_signedFaces_deg _ S J R hRdeg]
        have hfun : (fun F => mapCoeff (signedFaces (I :: F)) (J :: R)) =
            fun F => if (⟨I.left, I.left⟩ : Interval) = J ∧ F = R then -1
              else if (⟨I.right, I.right⟩ : Interval) = J ∧ F = R then 1
              else if I = J then -mapCoeff (signedFaces F) R else 0 := by
          funext F
          exact mapCoeff_signedFaces_nondeg I F J R hI
        rw [hfun]
        have hnd := signedFaces_nodup S
        by_cases hJL : (⟨I.left, I.left⟩ : Interval) = J
        · have hJR : ¬ (⟨I.right, I.right⟩ : Interval) = J := by
            rw [← hJL]; intro e2
            exact hlr (congrArg Interval.left e2).symm
          have hJI : ¬ I = J := by rw [← hJL]; exact fun e2 => hl e2.symm
          simp only [hJL, hJR, hJI, true_and, false_and, if_false, if_true]
          rw [chainApply_indicator (signedFaces S) R (-1) hnd]
          ring
        · by_cases hJR : (⟨I.right, I.right⟩ : Interval) = J
          · have hJI : ¬ I = J := by rw [← hJR]; exact fun e2 => hr e2.symm
            simp only [hJL, hJR, hJI, true_and, false_and, if_false, if_true]
            rw [chainApply_indicator (signedFaces S) R 1 hnd]
            ring
          · simp only [hJL, hJR, false_and, if_false]
            by_cases hJI : I = J
            · simp only [hJI, if_true]
              rw [chainApply_neg, ih R]
              simp
            · simp only [hJI, if_false]
              simp [chainApply]

theorem boundaryOfChain_BoundaryOperator (Q R : Cube) :
    boundaryOfChain (BoundaryOperator Q) R = 0 := by
  unfold boundaryOfChain
  rw [BoundaryOperator_eq_signedFaces]
  have : (fun F => mapCoeff (BoundaryOperator F) R) = fun F => mapCoeff (signedFaces F) R := by
    funext F
    rw [BoundaryOperator_eq_signedFaces]
  rw [this]
  exact signedFaces_signedFaces Q R

/-! ## Chain groups: the closure under primary faces -/

theorem mem_mapKeys_mapErase {V : Type} (m : CubeMap V) (k F : Cube) :
    F ∈ mapKeys (mapErase m k) ↔ F ∈ mapKeys m ∧ F ≠ k := by
  simp only [mapKeys, mapErase, List.mem_map, List.mem_filter, decide_eq_true_eq]
  constructor
  · rintro ⟨p, ⟨hp, hne⟩, rfl⟩
    exact ⟨⟨p, hp, rfl⟩, hne⟩
  · rintro ⟨⟨p, hp, rfl⟩, hne⟩
    exact ⟨p, ⟨hp, hne⟩, rfl⟩

theorem mapKeys_mapInsert {V : Type} (m : CubeMap V) (k : Cube) (v : V) :
    mapKeys (mapInsert m k v) = if k ∈ mapKeys m then mapKeys m else mapKeys m ++ [k] := by
  unfold mapInsert
  by_cases h : k ∈ mapKeys m
  · have := (mapFind_isSome_iff m k).2 h
    cases hf : mapFind m k with
    | none => simp [hf] at this
    | some x => simp [h]
  · rw [(mapFind_eq_none_iff m k).2 h]
    simp only [h, if_false]
    simp [mapKeys]

theorem mem_mapKeys_mapInsert {V : Type} (m : CubeMap V) (k : Cube) (v : V) (F : Cube) :
    F ∈ mapKeys (mapInsert m k v) ↔ F ∈ mapKeys m ∨ F = k := by
  rw [mapKeys_mapInsert]
  by_cases h : k ∈ mapKeys m
  · simp only [h, if_true]
    constructor
    · exact Or.inl
    · rintro (h1 | h1)
      · exact h1
      · rw [h1]; exact h
  · simp [h]

theorem nodup_mapKeys_mapInsert {V : Type} (m : CubeMap V) (k : Cube) (v : V)
    (h : (mapKeys m).Nodup) : (mapKeys (mapInsert m k v)).Nodup := by
  rw [mapKeys_mapInsert]
  by_cases hk : k ∈ mapKeys m
  · simpa [hk] using h
  · simp only [hk, if_false]
    rw [List.nodup_append]
    refine ⟨h, by simp, ?_⟩
    intro a ha hb
    simp only [List.mem_singleton] at hb
    exact hk (hb ▸ ha)

theorem mem_mapKeys_mapInsertAll {V : Type} (L : CubeMap V) : ∀ (m : CubeMap V) (F : Cube),
    F ∈ mapKeys (mapInsertAll m L) ↔ F ∈ mapKeys m ∨ F ∈ mapKeys L := by
  induction L with
  | nil => intro m F; simp [mapInsertAll, mapKeys]
  | cons p L ih =>
    intro m F
    have : mapInsertAll m (p :: L) = mapInsertAll (mapInsert m p.1 p.2) L := rfl
    rw [this, ih, mem_mapKeys_mapInsert]
    simp only [mapKeys, List.map_cons, List.mem_cons]
    tauto

theorem nodup_mapKeys_mapInsertAll {V : Type} (L : CubeMap V) : ∀ (m : CubeMap V),
    (mapKeys m).Nodup → (mapKeys (mapInsertAll m L)).Nodup := by
  induction L with
  | nil => intro m h; simpa [mapInsertAll] using h
  | cons p L ih =>
    intro m h
    have : mapInsertAll m (p :: L) = mapInsertAll (mapInsert m p.1 p.2) L := rfl
    rw [this]
    exact ih _ (nodup_mapKeys_mapInsert m p.1 p.2 h)

theorem faceWeight_pos (k : Nat) : 0 < faceWeight k := by
  cases k <;> simp [faceWeight]

theorem closureWeight_mapInsert (m : CubeMap Int) (k : Cube) (v : Int) :
    closureWeight (mapInsert m k v) ≤ closureWeight m + faceWeight (Dimension k) := by
  unfold mapInsert
  cases mapFind m k with
  | none => simp [closureWeight]
  | some x => simp

theorem closureWeight_mapInsertAll (L : CubeMap Int) : ∀ (m : CubeMap Int),
    closureWeight (mapInsertAll m L) ≤ closureWeight m + closureWeight L := by
  induction L with
  | nil => intro m; simp [mapInsertAll, closureWeight]
  | cons p L ih =>
    intro m
    have : mapInsertAll m (p :: L) = mapInsertAll (mapInsert m p.1 p.2) L := rfl
    rw [this]
    have h1 := ih (mapInsert m p.1 p.2)
    have h2 := closureWeight_mapInsert m p.1 p.2
    have h3 : closureWeight (p :: L) = faceWeight (Dimension p.1) + closureWeight L := by
      simp [closureWeight]
    omega

theorem closureWeight_mapErase (m : CubeMap Int) (k : Cube) (h : k ∈ mapKeys m) :
    closureWeight (mapErase m k) + faceWeight (Dimension k) ≤ closureWeight m := by
  induction m with
  | nil => simp [mapKeys] at h
  | cons p m ih =>
    have hle : closureWeight (mapErase m k) ≤ closureWeight m := by
      clear ih h
      induction m with
      | nil => simp [mapErase]
      | cons q m ih2 =>
        by_cases hq : q.1 = k
        · simp only [mapErase, List.filter_cons, hq, ne_eq, not_true_eq_false, decide_False,
            Bool.false_eq_true, if_false] at ih2 ⊢
          simp only [closureWeight, List.map_cons, List.sum_cons] at ih2 ⊢
          omega
        · simp only [mapErase, List.filter_cons, hq, ne_eq, not_false_eq_true, decide_True,
            if_true] at ih2 ⊢
          simp only [closureWeight, List.map_cons, List.sum_cons] at ih2 ⊢
          omega
    by_cases hp : p.1 = k
    · subst hp
      simp only [mapErase, List.filter_cons, ne_eq, not_true_eq_false, decide_False,
        Bool.false_eq_true, if_false] at hle ⊢
      simp only [closureWeight, List.map_cons, List.sum_cons] at hle ⊢
      omega
    · have hk : k ∈ mapKeys m := by
        simp only [mapKeys, List.map_cons, List.mem_cons] at h
        rcases h with h | h
        · exact absurd h.symm hp
        · exact h
      have := ih hk
      simp only [mapErase, List.filter_cons, hp, ne_eq, not_false_eq_true, decide_True,
        if_true] at this ⊢
      simp only [closureWeight, List.map_cons, List.sum_cons] at this ⊢
      omega

theorem closureWeight_PrimaryFaces (Q : Cube) (h : 0 < Dimension Q) :
    closureWeight (PrimaryFaces Q) + 1 = faceWeight (Dimension Q) := by
  have hall : ∀ p, p ∈ PrimaryFaces Q →
      faceWeight (Dimension p.1) = faceWeight (Dimension Q - 1) := by
    intro p hp
    obtain ⟨hF, _⟩ := mem_PrimaryFaces Q p.1 p.2 hp
    have := Dimension_of_mem_signedFaces Q p.1 hF
    congr 1
    omega
  have hsum : closureWeight (PrimaryFaces Q) =
      (PrimaryFaces Q).length * faceWeight (Dimension Q - 1) := by
    unfold closureWeight
    rw [List.map_congr_left hall]
    simp
  have hlen : (PrimaryFaces Q).length = 2 * Dimension Q := by
    rw [PrimaryFaces_eq_signedFaces]; simp [signedFaces_length]
  rw [hsum, hlen]
  obtain ⟨k, hk⟩ : ∃ k, Dimension Q = k + 1 := ⟨Dimension Q - 1, by omega⟩
  rw [hk]
  simp [faceWeight]
  ring

theorem vecGet_nat {α : Type} [Inhabited α] (v : List α) (n : Nat) (d : α) (h : n < v.length) :
    vecGet v (n : Int) = .ok (v.getD n d) := by
  apply vecGet_ofNat
  simp [List.getD_eq_getElem?_getD, List.getElem?_eq_getElem h]

theorem vecSet_nat {α : Type} (v : List α) (n : Nat) (x : α) (h : n < v.length) :
    vecSet v (n : Int) x = .ok (v.set n x) := by
  simp [vecSet, h]

theorem getD_set {α : Type} (v : List α) (i j : Nat) (x d : α) :
    (v.set i x).getD j d = if i = j ∧ i < v.length then x else v.getD j d := by
  simp only [List.getD_eq_getElem?_getD, List.getElem?_set]
  by_cases h : i = j
  · subst h
    by_cases h2 : i < v.length
    · simp [h2]
    · simp [h2, List.getElem?_eq_none (Nat.le_of_not_lt h2)]
  · simp [h]

theorem Pop_mem (pick : CubeMap Int → Nat) (K : CubicalSet) (h : K.isEmpty = false) :
    (K.Pop pick).1 ∈ mapKeys K.cubes := by
  have hlen : 0 < K.cubes.length := by
    cases hc : K.cubes with
    | nil => simp [CubicalSet.isEmpty, hc] at h
    | cons p l => simp
  have hlt : pick K.cubes % K.cubes.length < K.cubes.length := Nat.mod_lt _ hlen
  simp only [CubicalSet.Pop, mapKeys, List.getD_eq_getElem?_getD, List.getElem?_eq_getElem hlt,
    Option.getD_some]
  exact List.mem_map.2 ⟨_, List.getElem_mem hlt, rfl⟩

theorem Pop_cubes (pick : CubeMap Int → Nat) (K : CubicalSet) :
    (K.Pop pick).2.cubes = mapErase K.cubes (K.Pop pick).1 := rfl

theorem CubicalChainGroupsBody_effect (pick : CubeMap Int → Nat) (K : CubicalSet)
    (E : List (CubeMap Int)) (hne : K.isEmpty = false)
    (hdim : Dimension (K.Pop pick).1 < E.length) :
    ∃ K1 E1, CubicalChainGroupsBody pick K E = .ok (K1, E1) ∧
      E1.length = E.length ∧
      (∀ j F, F ∈ mapKeys (E1.getD j []) ↔
        F ∈ mapKeys (E.getD j []) ∨
        (Dimension (K.Pop pick).1 = j + 1 ∧ F ∈ mapKeys (PrimaryFaces (K.Pop pick).1)) ∨
        (j = Dimension (K.Pop pick).1 ∧ F = (K.Pop pick).1)) ∧
      (∀ F, F ∈ mapKeys K1.cubes ↔
        (F ∈ mapKeys K.cubes ∧ F ≠ (K.Pop pick).1) ∨ F ∈ mapKeys (PrimaryFaces (K.Pop pick).1)) ∧
      ((∀ j, (mapKeys (E.getD j [])).Nodup) → ∀ j, (mapKeys (E1.getD j [])).Nodup) ∧
      closureWeight K1.cubes < closureWeight K.cubes := by
  have hmem := Pop_mem pick K hne
  have hw := closureWeight_mapErase K.cubes (K.Pop pick).1 hmem
  generalize hQ : (K.Pop pick).1 = Q at *
  have hK : (K.Pop pick).2.cubes = mapErase K.cubes Q := by rw [Pop_cubes, hQ]
  cases hn : Dimension Q with
  | zero =>
    have hpf : PrimaryFaces Q = [] := PrimaryFaces_of_dim_zero Q hn
    have h0 : 0 < E.length := by omega
    refine ⟨(K.Pop pick).2, E.set 0 (mapInsert (E.getD 0 []) Q 0), ?_, by simp, ?_, ?_, ?_, ?_⟩
    · unfold CubicalChainGroupsBody
      simp only [hQ, hn, Nat.cast_zero, gt_iff_lt, lt_self_iff_false, if_false]
      have e1 := vecGet_nat E 0 [] h0
      have e2 := vecSet_nat E 0 (mapInsert (E.getD 0 []) Q 0) h0
      simp only [Nat.cast_zero] at e1 e2
      simp only [e1, Outcome.bind, e2]
    · intro j F
      rw [getD_set]
      by_cases hj : 0 = j
      · subst hj
        simp only [h0, and_self, if_true]
        rw [mem_mapKeys_mapInsert]
        simp [hpf, mapKeys]
      · have hj2 : ¬ j = 0 := fun e => hj e.symm
        simp [hj, hj2, hpf, mapKeys]
    · intro F
      rw [hK, mem_mapKeys_mapErase, hpf]
      simp [mapKeys]
    · intro hnd j
      rw [getD_set]
      by_cases hj : 0 = j ∧ 0 < E.length
      · rw [if_pos hj]
        exact nodup_mapKeys_mapInsert _ _ _ (hnd 0)
      · rw [if_neg hj]
        exact hnd j
    · rw [hK]
      have := faceWeight_pos (Dimension Q)
      omega
  | succ n =>
    have hnE : n < E.length := by omega
    have hn1E : n + 1 < E.length := by omega
    have hpos : 0 < Dimension Q := by omega
    have hwf := closureWeight_PrimaryFaces Q hpos
    refine ⟨{ (K.Pop pick).2 with cubes := mapInsertAll (K.Pop pick).2.cubes (PrimaryFaces Q) },
      (E.set n (mapInsertAll (E.getD n []) (PrimaryFaces Q))).set (n + 1)
        (mapInsert (E.getD (n + 1) []) Q ((n + 1 : Nat) : Int)), ?_, by simp, ?_, ?_, ?_, ?_⟩
    · unfold CubicalChainGroupsBody
      have hc : ((n + 1 : Nat) : Int) - 1 = (n : Int) := by push_cast; ring
      have hgt : ((n + 1 : Nat) : Int) > 0 := by positivity
      simp only [hQ, hn, hgt, if_true, hc]
      have e1 := vecGet_nat E n [] hnE
      have e2 := vecSet_nat E n (mapInsertAll (E.getD n []) (PrimaryFaces Q)) hnE
      have e3 := vecGet_nat (E.set n (mapInsertAll (E.getD n []) (PrimaryFaces Q))) (n + 1) []
        (by simpa using hn1E)
      have e4 := vecSet_nat (E.set n (mapInsertAll (E.getD n []) (PrimaryFaces Q))) (n + 1)
        (mapInsert (E.getD (n + 1) []) Q ((n + 1 : Nat) : Int)) (by simpa using hn1E)
      have e5 : (E.set n (mapInsertAll (E.getD n []) (PrimaryFaces Q))).getD (n + 1) [] =
          E.getD (n + 1) [] := by
        rw [getD_set]; simp
      rw [e5] at e3
      simp only [e1, Outcome.bind, e2, e3, e4]
    · intro j F
      rw [getD_set, getD_set]
      simp only [List.length_set]
      by_cases hj1 : n + 1 = j
      · subst hj1
        simp only [hn1E, and_self, if_true, mem_mapKeys_mapInsert]
        simp
      · by_cases hj2 : n = j
        · subst hj2
          simp only [hj1, false_and, if_false, hnE, and_self, if_true, mem_mapKeys_mapInsertAll]
          simp
        · have a1 : ¬ n + 1 = j + 1 := by omega
          have a2 : ¬ j = n + 1 := by omega
          simp [hj1, hj2, a1, a2]
    · intro F
      simp only [mem_mapKeys_mapInsertAll, hK, mem_mapKeys_mapErase]
    · intro hnd j
      rw [getD_set, getD_set]
      simp only [List.length_set]
      by_cases hj1 : n + 1 = j ∧ n + 1 < E.length
      · rw [if_pos hj1]
        exact nodup_mapKeys_mapInsert _ _ _ (hnd _)
      · rw [if_neg hj1]
        by_cases hj2 : n = j ∧ n < E.length
        · rw [if_pos hj2]
          exact nodup_mapKeys_mapInsertAll _ _ (hnd _)
        · rw [if_neg hj2]
          exact hnd j
    · have h1 := closureWeight_mapInsertAll (PrimaryFaces Q) (K.Pop pick).2.cubes
      rw [hK] at h1
      simp only [hK]
      rw [hn] at hw hwf
      omega

theorem CubicalChainGroupsBody_inv (pick : CubeMap Int → Nat) (init : List Cube) (d : Nat)
    (K : CubicalSet) (E : List (CubeMap Int)) (h : ClosureInv init d K E)
    (hne : K.isEmpty = false) :
    ∃ K1 E1, CubicalChainGroupsBody pick K E = .ok (K1, E1) ∧ ClosureInv init d K1 E1 ∧
      closureWeight K1.cubes < closureWeight K.cubes := by
  have hmem := Pop_mem pick K hne
  have hQd := h.kdim _ hmem
  have hQr := h.kreach _ hmem
  obtain ⟨K1, E1, hbody, hlen, hE, hK, hnd, hw⟩ :=
    CubicalChainGroupsBody_effect pick K E hne (by rw [h.len]; omega)
  generalize (K.Pop pick).1 = Q at *
  have hface : ∀ F, F ∈ mapKeys (PrimaryFaces Q) → Dimension F + 1 = Dimension Q := by
    intro F hF
    rw [mapKeys_PrimaryFaces] at hF
    exact Dimension_of_mem_signedFaces Q F hF
  refine ⟨K1, E1, hbody, ?_, hw⟩
  constructor
  · rw [hlen, h.len]
  · intro F hF
    rcases (hK F).1 hF with h1 | h1
    · exact h.kdim F h1.1
    · have := hface F h1; omega
  · intro F hF
    rcases (hK F).1 hF with h1 | h1
    · exact h.kreach F h1.1
    · exact Reach.face hQr h1
  · intro k F hF
    rcases (hE k F).1 hF with h1 | h1 | h1
    · exact h.sound k F h1
    · have := hface F h1.2
      exact ⟨Reach.face hQr h1.2, by omega⟩
    · rw [h1.2, h1.1]
      exact ⟨hQr, rfl⟩
  · intro F hF
    rcases h.start F hF with h1 | h1
    · by_cases hFQ : F = Q
      · right
        exact (hE _ F).2 (Or.inr (Or.inr ⟨by rw [hFQ], hFQ⟩))
      · left
        exact (hK F).2 (Or.inl ⟨h1, hFQ⟩)
    · right
      exact (hE _ F).2 (Or.inl h1)
  · intro F hF
    have hQfaces : ∀ G, G ∈ mapKeys (PrimaryFaces Q) → G ∈ mapKeys (E1.getD (Dimension G) []) := by
      intro G hG
      exact (hE _ G).2 (Or.inr (Or.inl ⟨(hface G hG).symm, hG⟩))
    rcases (hE _ F).1 hF with h1 | h1 | h1
    · by_cases hFQ : F = Q
      · right
        rw [hFQ]
        exact hQfaces
      · rcases h.closed F h1 with h2 | h2
        · left
          exact (hK F).2 (Or.inl ⟨h2, hFQ⟩)
        · right
          intro G hG
          exact (hE _ G).2 (Or.inl (h2 G hG))
    · left
      exact (hK F).2 (Or.inr h1.2)
    · right
      rw [h1.2]
      exact hQfaces
  · exact hnd h.nodup

theorem isEmpty_of_closureWeight_zero (K : CubicalSet) (h : closureWeight K.cubes = 0) :
    K.isEmpty = true := by
  cases hc : K.cubes with
  | nil => simp [CubicalSet.isEmpty, hc]
  | cons p l =>
    rw [hc] at h
    have := faceWeight_pos (Dimension p.1)
    simp [closureWeight] at h
    omega

theorem CubicalChainGroupsLoop_inv (pick : CubeMap Int → Nat) (init : List Cube) (d : Nat) :
    ∀ (fuel : Nat) (K : CubicalSet) (E : List (CubeMap Int)), ClosureInv init d K E →
      closureWeight K.cubes ≤ fuel →
      ∃ K1 E1, CubicalChainGroupsLoop pick fuel K E = .ok E1 ∧ ClosureInv init d K1 E1 ∧
        K1.isEmpty = true := by
  intro fuel
  induction fuel with
  | zero =>
    intro K E h hf
    have he := isEmpty_of_closureWeight_zero K (by omega)
    exact ⟨K, E, by unfold CubicalChainGroupsLoop; simp [he], h, he⟩
  | succ fuel ih =>
    intro K E h hf
    by_cases he : K.isEmpty = true
    · exact ⟨K, E, by unfold CubicalChainGroupsLoop; simp [he], h, he⟩
    · simp only [Bool.not_eq_true] at he
      obtain ⟨K1, E1, hbody, hinv, hw⟩ := CubicalChainGroupsBody_inv pick init d K E h he
      obtain ⟨K2, E2, hloop, hinv2, he2⟩ := ih K1 E1 hinv (by omega)
      refine ⟨K2, E2, ?_, hinv2, he2⟩
      unfold CubicalChainGroupsLoop
      simp only [he, Bool.false_eq_true, if_false, hbody, Outcome.bind, hloop]

theorem ClosureInv_init (K : CubicalSet)
    (hdim : ∀ Q, Q ∈ mapKeys K.cubes → Dimension Q ≤ K.dimension) :
    ClosureInv (mapKeys K.cubes) K.dimension K (List.replicate (K.dimension + 1) []) := by
  have hget : ∀ k, (List.replicate (K.dimension + 1) ([] : CubeMap Int)).getD k [] = [] := by
    intro k
    rw [List.getD_eq_getElem?_getD]
    by_cases hk : k < K.dimension + 1
    · rw [List.getElem?_eq_getElem (by simpa using hk)]
      simp
    · rw [List.getElem?_eq_none (by simpa using hk)]
      rfl
  constructor
  · simp
  · exact hdim
  · exact fun Q hQ => Reach.base hQ
  · intro k Q hQ
    rw [hget] at hQ
    simp [mapKeys] at hQ
  · exact fun Q hQ => Or.inl hQ
  · intro Q hQ
    rw [hget] at hQ
    simp [mapKeys] at hQ
  · intro k
    rw [hget]
    simp [mapKeys]

theorem ClosureInv_final (init : List Cube) (d : Nat) (K : CubicalSet) (E : List (CubeMap Int))
    (h : ClosureInv init d K E) (he : K.isEmpty = true) (Q : Cube) (hQ : Reach init Q) :
    Q ∈ mapKeys (E.getD (Dimension Q) []) := by
  have hK : ∀ F, F ∉ mapKeys K.cubes := by
    intro F hF
    cases hc : K.cubes with
    | nil => rw [hc] at hF; simp [mapKeys] at hF
    | cons p l => simp [CubicalSet.isEmpty, hc] at he
  induction hQ with
  | base hmem =>
    rcases h.start _ hmem with h1 | h1
    · exact absurd h1 (hK _)
    · exact h1
  | face _ hF ih =>
    rcases h.closed _ ih with h1 | h1
    · exact absurd h1 (hK _)
    · exact h1 _ hF

/-- C3: for a cubical set `K` whose cubes all have dimension at most
`K.Dimension()`, `CubicalChainGroups(K)` returns `E[0..d]` and the keys of
`E[k]` are exactly the `k`-dimensional cubes reachable from the cubes of `K`
by zero or more primary-face steps, whatever the order in which `Pop` takes
the cubes. -/
theorem CubicalChainGroups_spec (pick : CubeMap Int → Nat) (K : CubicalSet) (fuel : Nat)
    (hdim : ∀ Q, Q ∈ mapKeys K.cubes → Dimension Q ≤ K.dimension)
    (hfuel : closureWeight K.cubes ≤ fuel) :
    ∃ E, CubicalChainGroups pick fuel K = .ok E ∧ E.length = K.dimension + 1 ∧
      ∀ k Q, Q ∈ mapKeys (E.getD k []) ↔ (Reach (mapKeys K.cubes) Q ∧ Dimension Q = k) := by
  obtain ⟨K1, E1, hloop, hinv, he⟩ := CubicalChainGroupsLoop_inv pick (mapKeys K.cubes)
    K.dimension fuel K _ (ClosureInv_init K hdim) hfuel
  refine ⟨E1, hloop, hinv.len, ?_⟩
  intro k Q
  constructor
  · exact hinv.sound k Q
  · rintro ⟨hr, rfl⟩
    exact ClosureInv_final _ _ K1 E1 hinv he Q hr

/-! ## The unreduced boundary matrices -/

theorem GetCoordinates_eq_mapKeys (m : CubeMap Int) : GetCoordinates m = mapKeys m := by
  have h : ∀ (l : CubeMap Int) (acc : List Cube),
      l.foldl (fun cubes it => cubes ++ [it.1]) acc = acc ++ mapKeys l := by
    intro l
    induction l with
    | nil => intro acc; simp [mapKeys]
    | cons p l ih => intro acc; simp [ih, mapKeys]
  simpa [GetCoordinates] using h m []

theorem BoundaryOperatorMatrixColumnsE_eq (Ek1 : List Cube)
    (rest : List Cube) (pre post : List (List Int)) (M : IntMat)
    (hM : M.columns = pre ++ post) (hlen : rest.length ≤ post.length) :
    BoundaryOperatorMatrixColumnsE Ek1 rest pre.length M =
      { M with columns := pre ++ rest.map (fun e => CanonicalCoordinates (BoundaryOperator e) Ek1)
                            ++ post.drop rest.length } := by
  induction rest generalizing pre post M with
  | nil =>
    simp [BoundaryOperatorMatrixColumnsE, ← hM]
  | cons e rest ih =>
    cases post with
    | nil => simp at hlen
    | cons p post =>
      simp only [BoundaryOperatorMatrixColumnsE]
      have h1 : (M.setColumn pre.length (CanonicalCoordinates (BoundaryOperator e) Ek1)).columns
          = (pre ++ [CanonicalCoordinates (BoundaryOperator e) Ek1]) ++ post := by
        simp [IntMat.setColumn, hM]
      have h2 := ih (pre ++ [CanonicalCoordinates (BoundaryOperator e) Ek1]) post
        (M.setColumn pre.length (CanonicalCoordinates (BoundaryOperator e) Ek1)) h1
        (by simpa using hlen)
      simp only [List.length_append, List.length_singleton] at h2
      rw [h2]
      simp [IntMat.setColumn]

theorem BoundaryOperatorMatrixColumnsE_zero (Ek1 Ek : List Cube) :
    BoundaryOperatorMatrixColumnsE Ek1 Ek 0 (IntMat.zero Ek1.length Ek.length) =
      levelMatrixE Ek1 Ek := by
  have h := BoundaryOperatorMatrixColumnsE_eq Ek1 Ek [] (IntMat.zero Ek1.length Ek.length).columns
    (IntMat.zero Ek1.length Ek.length) (by simp) (by simp [IntMat.zero])
  simp only [List.length_nil] at h
  rw [h]
  simp [IntMat.zero, levelMatrixE]

theorem BoundaryOperatorMatrixE_spec (E : List (List Cube)) :
    (BoundaryOperatorMatrixE E).length = E.length - 1 ∧
    ∀ n, n + 1 < E.length →
      (BoundaryOperatorMatrixE E)[n]? = some (levelMatrixE (E.getD n []) (E.getD (n + 1) [])) := by
  induction E with
  | nil => simp [BoundaryOperatorMatrixE]
  | cons Ek1 tail ih =>
    cases tail with
    | nil => simp [BoundaryOperatorMatrixE]
    | cons Ek rest =>
      obtain ⟨hlen, hget⟩ := ih
      simp only [BoundaryOperatorMatrixE, BoundaryOperatorMatrixColumnsE_zero]
      refine ⟨by simp [hlen], ?_⟩
      intro n hn
      cases n with
      | zero => simp
      | succ n =>
        have := hget n (by simpa using hn)
        simp only [List.getElem?_cons_succ, List.getD_cons_succ]
        rw [this]
        simp

theorem levelMatrixE_getEntry (Ek1 Ek : List Cube) (i j : Nat) :
    (levelMatrixE Ek1 Ek).getEntry i j =
      if i < Ek1.length ∧ j < Ek.length then
        mapCoeff (BoundaryOperator (Ek.getD j [])) (Ek1.getD i [])
      else 0 := by
  simp only [levelMatrixE, IntMat.getEntry, List.getD_eq_getElem?_getD]
  by_cases hj : j < Ek.length
  · by_cases hi : i < Ek1.length
    · simp [hi, hj, CanonicalCoordinates_eq_map, List.getElem?_eq_getElem]
    · simp [hi, hj, CanonicalCoordinates_eq_map, List.getElem?_eq_getElem,
        List.getElem?_eq_none (Nat.le_of_not_lt hi)]
  · simp [hj, List.getElem?_eq_none (Nat.le_of_not_lt hj)]

theorem sum_range_getD (Y : List Cube) (f : Cube → Int) :
    ((List.range Y.length).map (fun l => f (Y.getD l []))).sum = (Y.map f).sum := by
  congr 1
  apply List.ext_getElem
  · simp
  · intro n h1 h2
    simp only [List.length_map, List.length_range] at h1
    simp [List.getD_eq_getElem?_getD, List.getElem?_eq_getElem h1]

theorem sum_indicator (Y : List Cube) (k : Cube) (t : Int) (hnd : Y.Nodup) (hk : k ∈ Y) :
    (Y.map (fun F => if k = F then t else 0)).sum = t := by
  induction Y with
  | nil => simp at hk
  | cons y Y ih =>
    rw [List.nodup_cons] at hnd
    simp only [List.map_cons, List.sum_cons]
    by_cases h : k = y
    · subst h
      have hz : (Y.map (fun F => if k = F then t else 0)).sum = 0 := by
        apply List.sum_eq_zero
        intro x hx
        simp only [List.mem_map] at hx
        obtain ⟨F, hF, rfl⟩ := hx
        have : ¬ k = F := fun e => hnd.1 (e ▸ hF)
        simp [this]
      simp [hz]
    · have hk2 : k ∈ Y := by
        rcases List.mem_cons.1 hk with h1 | h1
        · exact absurd h1 h
        · exact h1
      simp [h, ih hnd.2 hk2]

theorem sum_map_add_int (Y : List Cube) (f g : Cube → Int) :
    (Y.map (fun F => f F + g F)).sum = (Y.map f).sum + (Y.map g).sum := by
  induction Y with
  | nil => simp
  | cons y Y ih =>
    simp only [List.map_cons, List.sum_cons, ih]
    ring

theorem sum_mul_mapCoeff (Y : List Cube) (g : Cube → Int) (hY : Y.Nodup) :
    ∀ c : Chain, (mapKeys c).Nodup → (∀ F, F ∈ mapKeys c → F ∈ Y) →
      (Y.map (fun F => g F * mapCoeff c F)).sum = chainApply c g := by
  intro c
  induction c with
  | nil =>
    intro _ _
    simp [chainApply, mapCoeff, mapFind]
  | cons p c ih =>
    obtain ⟨k, v⟩ := p
    intro hnd hsub
    simp only [mapKeys, List.map_cons, List.nodup_cons] at hnd
    have hkY : k ∈ Y := hsub k (by simp [mapKeys])
    have hsub2 : ∀ F, F ∈ mapKeys c → F ∈ Y := by
      intro F hF
      apply hsub
      simp only [mapKeys, List.map_cons, List.mem_cons]
      exact Or.inr hF
    have hfun : (fun F => g F * mapCoeff ((k, v) :: c) F) =
        fun F => (if k = F then v * g k else 0) + g F * mapCoeff c F := by
      funext F
      rw [mapCoeff_cons]
      by_cases h : k = F
      · subst h
        rw [mapCoeff_of_not_mem c k hnd.1]
        simp [mul_comm]
      · simp [h]
    rw [hfun, chainApply_cons]
    rw [sum_map_add_int, sum_indicator Y k (v * g k) hY hkY, ih hnd.2 hsub2]

theorem levelMatrixE_mulEntry (X Y Z : List Cube) (hY : Y.Nodup)
    (hZ : ∀ b, b ∈ Z → ∀ F, F ∈ mapKeys (BoundaryOperator b) → F ∈ Y) (i j : Nat) :
    (levelMatrixE X Y).mulEntry (levelMatrixE Y Z) i j = 0 := by
  unfold IntMat.mulEntry
  have hcols : (levelMatrixE X Y).cols = Y.length := rfl
  rw [hcols]
  by_cases hij : i < X.length ∧ j < Z.length
  · have hmap : (List.range Y.length).map
          (fun l => (levelMatrixE X Y).getEntry i l * (levelMatrixE Y Z).getEntry l j) =
        (List.range Y.length).map (fun l => (fun F => mapCoeff (BoundaryOperator F) (X.getD i []) *
          mapCoeff (BoundaryOperator (Z.getD j [])) F) (Y.getD l [])) := by
      apply List.map_congr_left
      intro l hl
      have hl2 : l < Y.length := List.mem_range.1 hl
      rw [levelMatrixE_getEntry, levelMatrixE_getEntry]
      simp [hij.1, hij.2, hl2]
    rw [hmap, sum_range_getD Y (fun F => mapCoeff (BoundaryOperator F) (X.getD i []) *
          mapCoeff (BoundaryOperator (Z.getD j [])) F)]
    have hb : Z.getD j [] ∈ Z := by
      rw [List.getD_eq_getElem?_getD, List.getElem?_eq_getElem hij.2]
      exact List.getElem_mem hij.2
    rw [sum_mul_mapCoeff Y _ hY (BoundaryOperator (Z.getD j [])) (BoundaryOperator_nodup _)
      (hZ _ hb)]
    exact boundaryOfChain_BoundaryOperator (Z.getD j []) (X.getD i [])
  · apply List.sum_eq_zero
    intro x hx
    simp only [List.mem_map] at hx
    obtain ⟨l, _, rfl⟩ := hx
    rw [levelMatrixE_getEntry, levelMatrixE_getEntry]
    by_cases hi : i < X.length
    · have hj : ¬ j < Z.length := fun h => hij ⟨hi, h⟩
      simp [hj]
    · simp [hi]

theorem getD_map_GetCoordinates (cg : List (CubeMap Int)) (n : Nat) :
    (cg.map GetCoordinates).getD n [] = mapKeys (cg.getD n []) := by
  simp only [List.getD_eq_getElem?_getD, List.getElem?_map]
  cases cg[n]? with
  | none => simp [mapKeys]
  | some m => simp [GetCoordinates_eq_mapKeys]

theorem mapKeys_BoundaryOperator (Q : Cube) :
    mapKeys (BoundaryOperator Q) = mapKeys (PrimaryFaces Q) := by
  rw [BoundaryOperator_eq_signedFaces, mapKeys_PrimaryFaces]

theorem ClosureInv_faces (init : List Cube) (d : Nat) (K : CubicalSet) (E : List (CubeMap Int))
    (h : ClosureInv init d K E) (he : K.isEmpty = true) (k : Nat) (b : Cube)
    (hb : b ∈ mapKeys (E.getD (k + 1) [])) (F : Cube) (hF : F ∈ mapKeys (BoundaryOperator b)) :
    F ∈ mapKeys (E.getD k []) := by
  have hK : ∀ G, G ∉ mapKeys K.cubes := by
    intro G hG
    cases hc : K.cubes with
    | nil => rw [hc] at hG; simp [mapKeys] at hG
    | cons p l => simp [CubicalSet.isEmpty, hc] at he
  obtain ⟨_, hdimb⟩ := h.sound _ b hb
  rw [mapKeys_BoundaryOperator] at hF
  have hb2 : b ∈ mapKeys (E.getD (Dimension b) []) := by rw [hdimb]; exact hb
  rcases h.closed b hb2 with h1 | h1
  · exact absurd h1 (hK b)
  · have hdF : Dimension F + 1 = Dimension b := by
      rw [mapKeys_PrimaryFaces] at hF
      exact Dimension_of_mem_signedFaces b F hF
    have : Dimension F = k := by omega
    rw [← this]
    exact h1 F hF

/-- C2: the boundary of the boundary of every cube is the zero chain (every
cube has total coefficient 0 when `BoundaryOperator` is extended linearly over
`BoundaryOperator(Q)`), and for the complex constructed from any cubical set
the unreduced matrices satisfy `M_{k-1} * M_k = 0` for every `k` in `2..d`. -/
theorem boundary_of_boundary_zero :
    (∀ Q R : Cube, boundaryOfChain (BoundaryOperator Q) R = 0) ∧
    (∀ (pick : CubeMap Int → Nat) (K : CubicalSet) (fuel : Nat),
      (∀ Q, Q ∈ mapKeys K.cubes → Dimension Q ≤ K.dimension) →
      closureWeight K.cubes ≤ fuel →
      ∃ chainGroups, CubicalChainGroups pick fuel K = .ok chainGroups ∧
        (BoundaryOperatorMatrixE (chainGroups.map GetCoordinates)).length = K.dimension ∧
        ∀ k, 2 ≤ k → k ≤ K.dimension →
          ∃ M1 M2,
            (BoundaryOperatorMatrixE (chainGroups.map GetCoordinates))[k - 2]? = some M1 ∧
            (BoundaryOperatorMatrixE (chainGroups.map GetCoordinates))[k - 1]? = some M2 ∧
            M1.cols = M2.rows ∧ ∀ i j, M1.mulEntry M2 i j = 0) := by
  refine ⟨boundaryOfChain_BoundaryOperator, ?_⟩
  intro pick K fuel hdim hfuel
  obtain ⟨K1, E1, hloop, hinv, he⟩ := CubicalChainGroupsLoop_inv pick (mapKeys K.cubes)
    K.dimension fuel K _ (ClosureInv_init K hdim) hfuel
  obtain ⟨hlen, hget⟩ := BoundaryOperatorMatrixE_spec (E1.map GetCoordinates)
  have hElen : (E1.map GetCoordinates).length = K.dimension + 1 := by
    rw [List.length_map, hinv.len]
  refine ⟨E1, hloop, by rw [hlen, hElen]; rfl, ?_⟩
  intro k hk2 hkd
  have h1 := hget (k - 2) (by omega)
  have h2 := hget (k - 1) (by omega)
  have e1 : k - 2 + 1 = k - 1 := by omega
  have e2 : k - 1 + 1 = k := by omega
  rw [e1] at h1
  rw [e2] at h2
  refine ⟨_, _, h1, h2, rfl, ?_⟩
  intro i j
  apply levelMatrixE_mulEntry
  · rw [getD_map_GetCoordinates]
    exact hinv.nodup _
  · intro b hb F hF
    rw [getD_map_GetCoordinates] at hb ⊢
    have hb2 : b ∈ mapKeys (E1.getD (k - 1 + 1) []) := by rw [e2]; exact hb
    exact ClosureInv_faces _ _ K1 E1 hinv he (k - 1) b hb2 F hF

theorem unitSquareSet_dim :
    ∀ Q, Q ∈ mapKeys unitSquareSet.cubes → Dimension Q ≤ unitSquareSet.dimension := by
  decide

theorem unitSquareSet_weight : closureWeight unitSquareSet.cubes ≤ 13 := by
  decide

theorem boundary_of_boundary_zero_witness :
    (∀ Q, Q ∈ mapKeys unitSquareSet.cubes → Dimension Q ≤ unitSquareSet.dimension) ∧
    closureWeight unitSquareSet.cubes ≤ 13 ∧
    ∃ chainGroups, CubicalChainGroups (fun _ => 0) 13 unitSquareSet = .ok chainGroups ∧
      (BoundaryOperatorMatrixE (chainGroups.map GetCoordinates)).length = unitSquareSet.dimension ∧
      ∀ k, 2 ≤ k → k ≤ unitSquareSet.dimension →
        ∃ M1 M2,
          (BoundaryOperatorMatrixE (chainGroups.map GetCoordinates))[k - 2]? = some M1 ∧
          (BoundaryOperatorMatrixE (chainGroups.map GetCoordinates))[k - 1]? = some M2 ∧
          M1.cols = M2.rows ∧ ∀ i j, M1.mulEntry M2 i j = 0 :=
  ⟨unitSquareSet_dim, unitSquareSet_weight,
    boundary_of_boundary_zero.2 (fun _ => 0) unitSquareSet 13 unitSquareSet_dim
      unitSquareSet_weight⟩

theorem CubicalChainGroups_spec_witness :
    (∀ Q, Q ∈ mapKeys unitSquareSet.cubes → Dimension Q ≤ unitSquareSet.dimension) ∧
    closureWeight unitSquareSet.cubes ≤ 13 ∧
    ∃ E, CubicalChainGroups (fun _ => 0) 13 unitSquareSet = .ok E ∧
      E.length = unitSquareSet.dimension + 1 ∧
      ∀ k Q, Q ∈ mapKeys (E.getD k []) ↔
        (Reach (mapKeys unitSquareSet.cubes) Q ∧ Dimension Q = k) :=
  ⟨unitSquareSet_dim, unitSquareSet_weight,
    CubicalChainGroups_spec (fun _ => 0) unitSquareSet 13 unitSquareSet_dim unitSquareSet_weight⟩

theorem ChainFromCanonicalCoordinates_roundtrip_witness :
    (∀ Q, Q ∈ mapKeys (BoundaryOperator [⟨0, 1⟩]) → Q ∈ [[(⟨0, 0⟩ : Interval)], [⟨1, 1⟩]]) ∧
    ∃ r, ChainFromCanonicalCoordinates
        (CanonicalCoordinates (BoundaryOperator [⟨0, 1⟩]) [[⟨0, 0⟩], [⟨1, 1⟩]])
        [[⟨0, 0⟩], [⟨1, 1⟩]] = .ok r ∧
      (∀ Q, mapCoeff r Q = mapCoeff (BoundaryOperator [⟨0, 1⟩]) Q) ∧
      ((∀ Q, mapFind (BoundaryOperator [⟨0, 1⟩]) Q ≠ some 0) →
        ∀ Q, mapFind r Q = mapFind (BoundaryOperator [⟨0, 1⟩]) Q) :=
  ⟨by decide, ChainFromCanonicalCoordinates_roundtrip (BoundaryOperator [⟨0, 1⟩])
    [[⟨0, 0⟩], [⟨1, 1⟩]] (by decide)⟩

theorem BoundaryOperatorMatrix_spec_witness :
    ([[[(⟨0, 0⟩ : Interval)], [⟨1, 1⟩]], [[⟨0, 1⟩]]] : ChainComplex).length - 1 ≤
        ([[([⟨0, 1⟩], BoundaryOperator [⟨0, 1⟩])]] : BoundaryMap).length ∧
    ∃ Ms, BoundaryOperatorMatrix [[[⟨0, 0⟩], [⟨1, 1⟩]], [[⟨0, 1⟩]]]
        [[([⟨0, 1⟩], BoundaryOperator [⟨0, 1⟩])]] = .ok Ms ∧
      Ms.length = ([[[(⟨0, 0⟩ : Interval)], [⟨1, 1⟩]], [[⟨0, 1⟩]]] : ChainComplex).length - 1 ∧
      ∀ k, 1 ≤ k → k < ([[[(⟨0, 0⟩ : Interval)], [⟨1, 1⟩]], [[⟨0, 1⟩]]] : ChainComplex).length →
        ∃ M Ek1 Ek bdk, Ms[k - 1]? = some M ∧
          ([[[(⟨0, 0⟩ : Interval)], [⟨1, 1⟩]], [[⟨0, 1⟩]]] : ChainComplex)[k - 1]? = some Ek1 ∧
          ([[[(⟨0, 0⟩ : Interval)], [⟨1, 1⟩]], [[⟨0, 1⟩]]] : ChainComplex)[k]? = some Ek ∧
          ([[([⟨0, 1⟩], BoundaryOperator [⟨0, 1⟩])]] : BoundaryMap)[k - 1]? = some bdk ∧
          M.rows = Ek1.length ∧ M.cols = Ek.length ∧
          ∀ i j a e, Ek1[i]? = some a → Ek[j]? = some e →
            M.getEntry i j =
              match mapFind bdk e with
              | some c => (match mapFind c a with
                           | some x => x
                           | none => 0)
              | none => 0 :=
  ⟨by decide, BoundaryOperatorMatrix_spec _ _ (by decide)⟩

/-! ## The reducer on complexes of dimension 0 and 1 -/

theorem ReduceChainComplexFor_single (fuel : Nat) (st : ReduceState) (h : st.E.length = 1) :
    ReduceChainComplexFor fuel (toInt32 (sizeT ((st.E.length : Int) - 1))) st = .ok st := by
  unfold ReduceChainComplexFor
  rw [h]
  have h1 : toInt32 (sizeT (((1 : Nat) : Int) - 1)) = 0 := by decide
  have h2 : ¬ (sizeT 0 > sizeT (((1 : Nat) : Int) - 2)) := by decide
  rw [h1, if_neg h2]

theorem ReduceChainComplexWhile_single (fuel : Nat) (st : ReduceState) (h : st.E.length = 1)
    (hr : st.reductionPairs = true) : ReduceChainComplexWhile fuel st = .outOfFuel := by
  induction fuel with
  | zero =>
    unfold ReduceChainComplexWhile
    simp [hr]
  | succ fuel ih =>
    unfold ReduceChainComplexWhile
    simp only [hr, if_true, ReduceChainComplexFor_single (fuel + 1) st h, Outcome.bind]
    exact ih

/-- C10 (failing input): on a complex with a single level, as built from a
cubical set of points, `ReduceChainComplex` never returns: for every amount of
fuel the loop `while (reductionPairs)` is still running when the fuel is used
up, because the test `i > E.size() - 2` of the inner loop is false for
`i = 0` and the flag is never cleared.  On the complex of a single edge the
first call of `Reduce` has `i = 1` and indexes `bd[-1]`. -/
theorem ReduceChainComplex_diverges_single_level :
    (∀ (fuel : Nat) (E0 : List Cube) (bd : BoundaryMap),
      ReduceChainComplex fuel [E0] bd = .outOfFuel) ∧
    (∀ fuel : Nat, ReduceChainComplex (fuel + 1) [[[⟨0, 0⟩], [⟨1, 1⟩]], [[⟨0, 1⟩]]]
      [[([⟨0, 1⟩], BoundaryOperator [⟨0, 1⟩])]] = .outOfRange) := by
  constructor
  · intro fuel E0 bd
    exact ReduceChainComplexWhile_single fuel _ rfl rfl
  · intro fuel
    unfold ReduceChainComplex ReduceChainComplexWhile
    simp only [if_true]
    have h : ReduceChainComplexFor (fuel + 1)
        (toInt32 (sizeT ((([[[⟨0, 0⟩], [⟨1, 1⟩]], [[⟨0, 1⟩]]] : ChainComplex).length : Int) - 1)))
        { E := [[[⟨0, 0⟩], [⟨1, 1⟩]], [[⟨0, 1⟩]]],
          bd := [[([⟨0, 1⟩], BoundaryOperator [⟨0, 1⟩])]],
          reductionPairs := true, calls := 0 } = .outOfRange := by
      unfold ReduceChainComplexFor
      rfl
    rw [h]
    rfl

/-- The rewrite of `Reduce` depends on the order in which the keys of
`bd[i-1][b]` are visited: the factor `bd[i-1][cube][a]` is read again at every
key, and it is 0 once `a` itself has been visited.  Here `b = [0, 1]`,
`cube = [-1, 0]` and `a = [0]`, with their boundaries as `BoundaryOperator`
gives them; visiting `a` before `[1]` leaves the coefficient of `[1]` in the
boundary of `cube` at 0, visiting `[1]` first makes it 1. -/
theorem ReduceUpdateCube_order :
    mapCoeff ((mapIndex (ReduceUpdateCube [⟨0, 0⟩] [⟨0, 1⟩] [⟨-1, 0⟩] [[⟨0, 0⟩], [⟨1, 1⟩]]
        [([⟨0, 1⟩], BoundaryOperator [⟨0, 1⟩]), ([⟨-1, 0⟩], BoundaryOperator [⟨-1, 0⟩])])
        [⟨-1, 0⟩] []).1) [⟨1, 1⟩] = 0 ∧
    mapCoeff ((mapIndex (ReduceUpdateCube [⟨0, 0⟩] [⟨0, 1⟩] [⟨-1, 0⟩] [[⟨1, 1⟩], [⟨0, 0⟩]]
        [([⟨0, 1⟩], BoundaryOperator [⟨0, 1⟩]), ([⟨-1, 0⟩], BoundaryOperator [⟨-1, 0⟩])])
        [⟨-1, 0⟩] []).1) [⟨1, 1⟩] = 1 := by
  decide

theorem CubicalChainGroups_pointSet (pick : CubeMap Int → Nat) (fuel : Nat) :
    CubicalChainGroups pick (fuel + 1) pointSet = .ok [[([⟨0, 0⟩, ⟨0, 0⟩], 0)]] := by
  unfold CubicalChainGroups CubicalChainGroupsLoop
  have hb : CubicalChainGroupsBody pick pointSet (List.replicate (pointSet.dimension + 1) []) =
      .ok (⟨[], 0⟩, [[([⟨0, 0⟩, ⟨0, 0⟩], 0)]]) := by
    unfold CubicalChainGroupsBody CubicalSet.Pop
    simp only [pointSet, List.length_singleton, Nat.mod_one]
    rfl
  have he : pointSet.isEmpty = false := rfl
  simp only [he, Bool.false_eq_true, if_false, hb, Outcome.bind]
  unfold CubicalChainGroupsLoop
  rfl

/-- C1 (failing input): for the cubical set of one point, `GetHomology(K, true)`
never returns, for any solver and any amount of fuel, while
`GetHomology(K, false)` returns what the solver makes of the empty list of
matrices; for the cubical set of one edge `GetHomology(K, true)` indexes
`bd[-1]` inside `Reduce`, while `GetHomology(K, false)` returns. -/
theorem GetHomology_reduction_fails (pick : CubeMap Int → Nat)
    (solver : List IntMat → List (List Int)) :
    (∀ fuel : Nat, GetHomology pick solver fuel pointSet true = .outOfFuel) ∧
    (∀ fuel : Nat, GetHomology pick solver (fuel + 1) pointSet false = .ok (solver [])) ∧
    GetHomology (fun _ => 0) solver 3 edgeSet true = .outOfRange ∧
    GetHomology (fun _ => 0) solver 3 edgeSet false =
      .ok (solver [⟨2, 1, [[-1, 1]]⟩]) := by
  refine ⟨?_, ?_, ?_, ?_⟩
  · intro fuel
    cases fuel with
    | zero => rfl
    | succ fuel =>
      unfold GetHomology
      rw [CubicalChainGroups_pointSet]
      simp only [Outcome.bind, if_true]
      have hE : (List.map GetCoordinates [[(([⟨0, 0⟩, ⟨0, 0⟩] : Cube), (0 : Int))]]) =
          [[[⟨0, 0⟩, ⟨0, 0⟩]]] := rfl
      rw [hE]
      have hbd : Boundaries [[[⟨0, 0⟩, ⟨0, 0⟩]]] = .ok [] := rfl
      rw [hbd]
      have hw : ReduceChainComplex (fuel + 1) [[[⟨0, 0⟩, ⟨0, 0⟩]]] [] = .outOfFuel :=
        ReduceChainComplexWhile_single (fuel + 1) _ rfl rfl
      simp only [Outcome.bind, hw]
  · intro fuel
    unfold GetHomology
    rw [CubicalChainGroups_pointSet]
    rfl
  · rfl
  · rfl

/-! ## Fallible steps and the structure of Reduce -/

theorem Outcome.bind_eq_ok {α β : Type} (x : Outcome α) (f : α → Outcome β) (r : β) :
    x.bind f = .ok r ↔ ∃ a, x = .ok a ∧ f a = .ok r := by
  cases x <;> simp [Outcome.bind]

theorem vecGet_eq_ok {α : Type} (v : List α) (i : Int) (x : α) :
    vecGet v i = .ok x ↔ ∃ n : Nat, i = n ∧ v[n]? = some x := by
  unfold vecGet
  by_cases h : 0 ≤ i
  · obtain ⟨n, rfl⟩ := Int.eq_ofNat_of_zero_le h
    simp only [h, if_true, Int.toNat_ofNat]
    cases hv : v[n]? with
    | none => simp [hv]
    | some y =>
      simp only [Outcome.ok.injEq, Nat.cast_inj]
      constructor
      · intro e; exact ⟨n, rfl, by rw [hv, e]⟩
      · rintro ⟨k, hk, hx⟩
        subst hk
        rw [hv] at hx
        exact Option.some.inj hx
  · simp only [h, if_false]
    constructor
    · intro e; cases e
    · rintro ⟨n, hn, _⟩
      exact absurd (hn ▸ Int.ofNat_nonneg n) h

theorem vecSet_eq_ok {α : Type} (v : List α) (i : Int) (x : α) (w : List α) :
    vecSet v i x = .ok w ↔ ∃ n : Nat, i = n ∧ n < v.length ∧ w = v.set n x := by
  unfold vecSet
  by_cases h : 0 ≤ i
  · obtain ⟨n, rfl⟩ := Int.eq_ofNat_of_zero_le h
    simp only [h, true_and, Int.toNat_ofNat]
    by_cases hn : n < v.length
    · simp only [hn, if_true, Outcome.ok.injEq, Nat.cast_inj]
      constructor
      · intro e; exact ⟨n, rfl, hn, e.symm⟩
      · rintro ⟨k, hk, _, hw⟩
        subst hk
        exact hw.symm
    · simp only [hn, if_false]
      constructor
      · intro e; cases e
      · rintro ⟨k, hk, hk2, _⟩
        have : k = n := by exact_mod_cast hk.symm
        subst this
        exact absurd hk2 hn
  · simp only [h, false_and, if_false]
    constructor
    · intro e; cases e
    · rintro ⟨n, hn, _⟩
      exact absurd (hn ▸ Int.ofNat_nonneg n) h

theorem getD_of_getElem? {α : Type} (v : List α) (n : Nat) (x d : α) (h : v[n]? = some x) :
    v.getD n d = x := by
  simp [List.getD_eq_getElem?_getD, h]

theorem getElem?_lt {α : Type} (v : List α) (n : Nat) (x : α) (h : v[n]? = some x) :
    n < v.length := by
  by_contra hn
  rw [List.getElem?_eq_none (Nat.le_of_not_lt hn)] at h
  cases h

theorem Reduce_stage1 (E : ChainComplex) (bd : BoundaryMap) (n : Nat) (b : Cube)
    (bd1 : BoundaryMap)
    (h : (if sizeT (n : Int) < sizeT ((E.length : Int) - 1) then
        (vecGet E ((n : Int) + 1)).bind fun Eup =>
        if Eup.isEmpty then .ok bd
        else (vecGet bd (n : Int)).bind fun m => vecSet bd (n : Int) (ReduceEraseAbove b Eup m)
      else .ok bd) = .ok bd1) :
    bd1 = bd ∨ (n < bd.length ∧ n + 1 < E.length ∧
      bd1 = bd.set n (ReduceEraseAbove b (E.getD (n + 1) []) (bd.getD n []))) := by
  split at h
  · rw [Outcome.bind_eq_ok] at h
    obtain ⟨Eup, hEup, h2⟩ := h
    rw [vecGet_eq_ok] at hEup
    obtain ⟨k, hk, hEk⟩ := hEup
    have hk2 : k = n + 1 := by omega
    subst hk2
    split at h2
    · left
      cases h2
      rfl
    · right
      rw [Outcome.bind_eq_ok] at h2
      obtain ⟨m, hm, h3⟩ := h2
      rw [vecGet_eq_ok] at hm
      obtain ⟨k2, hk2, hm2⟩ := hm
      have : k2 = n := by omega
      subst this
      rw [vecSet_eq_ok] at h3
      obtain ⟨k3, hk3, hlt, hset⟩ := h3
      have : k3 = k2 := by omega
      subst this
      refine ⟨hlt, getElem?_lt _ _ _ hEk, ?_⟩
      rw [hset, getD_of_getElem? _ _ _ _ hEk, getD_of_getElem? _ _ _ _ hm2]
  · left
    cases h
    rfl

theorem Reduce_inv (E : ChainComplex) (bd : BoundaryMap) (i : Int) (a b : Cube)
    (r : ChainComplex × BoundaryMap) (h : Reduce E bd i a b = .ok r) :
    ∃ n : Nat, i = n ∧ 2 ≤ n ∧ n < E.length ∧ n ≤ bd.length ∧
      r.1 = (E.set n (RemoveElementFromVector (E.getD n []) b)).set (n - 1)
        (RemoveElementFromVector (E.getD (n - 1) []) a) ∧
      ∃ bd1 : BoundaryMap,
        (bd1 = bd ∨ (n < bd.length ∧ n + 1 < E.length ∧
          bd1 = bd.set n (ReduceEraseAbove b (E.getD (n + 1) []) (bd.getD n [])))) ∧
        r.2 = (bd1.set (n - 1)
            (mapErase (ReduceUpdateSiblings a b (E.getD n []) (bd.getD (n - 1) [])) b)).set
          (n - 2) (mapErase (bd.getD (n - 2) []) a) := by
  unfold Reduce at h
  simp only [Outcome.bind_eq_ok] at h
  obtain ⟨bd1, hbd1, Ei, hEi, m, hm, bd2, hbd2, E1, hE1, Ei1, hEi1, E2, hE2, m2, hm2, bd3, hbd3,
    m3, hm3, bd4, hbd4, hr⟩ := h
  rw [vecGet_eq_ok] at hEi
  obtain ⟨n, hn, hEn⟩ := hEi
  subst hn
  rw [vecGet_eq_ok] at hm3
  obtain ⟨n3, hn3, hm3⟩ := hm3
  have h2 : 2 ≤ n := by omega
  have e3 : n3 = n - 2 := by omega
  subst e3
  have c1 : ((n : Int) - 1) = ((n - 1 : Nat) : Int) := by omega
  have c2 : ((n : Int) - 2) = ((n - 2 : Nat) : Int) := by omega
  rw [c1] at hm hbd2 hEi1 hE2 hm2 hbd3
  rw [c2] at hbd4
  have hnE : n < E.length := getElem?_lt _ _ _ hEn
  have hs1 := Reduce_stage1 E bd n b bd1 hbd1
  rw [vecGet_eq_ok] at hm hEi1 hm2
  rw [vecSet_eq_ok] at hbd2 hE1 hE2 hbd3 hbd4
  obtain ⟨k, hk, hmk⟩ := hm
  have : k = n - 1 := by omega
  subst this
  obtain ⟨k, hk, hlt2, hbd2⟩ := hbd2
  have : k = n - 1 := by omega
  subst this
  obtain ⟨k, hk, _, hE1⟩ := hE1
  have : n = k := by omega
  subst this
  obtain ⟨k, hk, hEi1⟩ := hEi1
  have : k = n - 1 := by omega
  subst this
  obtain ⟨k, hk, _, hE2⟩ := hE2
  have : k = n - 1 := by omega
  subst this
  obtain ⟨k, hk, hm2⟩ := hm2
  have : k = n - 1 := by omega
  subst this
  obtain ⟨k, hk, _, hbd3⟩ := hbd3
  have : k = n - 1 := by omega
  subst this
  obtain ⟨k, hk, _, hbd4⟩ := hbd4
  have : k = n - 2 := by omega
  subst this
  have hbdlen1 : bd1.length = bd.length := by
    rcases hs1 with e | ⟨_, _, e⟩ <;> rw [e]
    simp
  have hnbd : n ≤ bd.length := by omega
  have hne1 : ¬ (n = n - 1) := by omega
  have hne2 : ¬ (n - 1 = n - 2) := by omega
  have hne3 : ¬ (n = n - 2) := by omega
  -- values read
  have hEi1v : Ei1 = E.getD (n - 1) [] := by
    rw [← getD_of_getElem? _ _ _ [] hEi1, hE1, getD_set]
    have : ¬ (n = n - 1 ∧ n < E.length) := fun hh => hne1 hh.1
    rw [if_neg this]
  have hEiv : Ei = E.getD n [] := (getD_of_getElem? _ _ _ _ hEn).symm
  have hbd1get : ∀ j, j ≠ n → bd1.getD j [] = bd.getD j [] := by
    intro j hj
    rcases hs1 with e | ⟨_, _, e⟩
    · rw [e]
    · rw [e, getD_set]
      have : ¬ (n = j ∧ n < bd.length) := fun hh => hj hh.1.symm
      rw [if_neg this]
  have hmv : m = bd.getD (n - 1) [] := by
    rw [← hbd1get (n - 1) (fun e => hne1 e.symm)]
    exact (getD_of_getElem? _ _ _ _ hmk).symm
  have hm2v : m2 = ReduceUpdateSiblings a b Ei m := by
    rw [← getD_of_getElem? _ _ _ [] hm2, hbd2, getD_set, if_pos ⟨rfl, hlt2⟩]
  have hm3v : m3 = bd.getD (n - 2) [] := by
    rw [← getD_of_getElem? _ _ _ [] hm3, hbd3, getD_set]
    have h1 : ¬ (n - 1 = n - 2 ∧ n - 1 < bd2.length) := fun hh => hne2 hh.1
    rw [if_neg h1, hbd2, getD_set]
    have h2 : ¬ (n - 1 = n - 2 ∧ n - 1 < bd1.length) := fun hh => hne2 hh.1
    rw [if_neg h2]
    exact hbd1get (n - 2) (fun e => hne3 e.symm)
  have hr2 : r = (E2, bd4) := (Outcome.ok.inj hr).symm
  refine ⟨n, rfl, h2, hnE, hnbd, ?_, bd1, hs1, ?_⟩
  · rw [hr2]
    simp only
    rw [hE2, hE1, ← hEiv, ← hEi1v]
  · rw [hr2]
    simp only
    rw [hbd4, hbd3, hbd2, hm3v, hm2v, hmv, hEiv, List.set_set]

/-! ## Removal from a basis -/

theorem cubeIndexOf_cons (c e : Cube) (v : List Cube) :
    (c :: v).indexOf e = if c = e then 0 else v.indexOf e + 1 := by
  rw [List.indexOf_cons]
  by_cases h : c = e
  · simp [h]
  · have hb : (c == e) = false := beq_eq_false_iff_ne.2 h
    simp [h, hb]

theorem cubeIndexOf_lt_length (v : List Cube) (e : Cube) :
    v.indexOf e < v.length ↔ e ∈ v := by
  induction v with
  | nil => simp [List.indexOf, List.findIdx]
  | cons c v ih =>
    rw [cubeIndexOf_cons]
    by_cases h : c = e
    · simp [h]
    · have h2 : ¬ e = c := fun e2 => h e2.symm
      simp [h, h2, ih]

theorem RemoveElementFromVector_of_not_mem (v : List Cube) (e : Cube) (h : e ∉ v) :
    RemoveElementFromVector v e = v := by
  unfold RemoveElementFromVector
  have : ¬ (v.indexOf e < v.length) := by
    rw [cubeIndexOf_lt_length]; exact h
  rw [if_neg this]

theorem RemoveElementFromVector_of_mem (v : List Cube) (e : Cube) (h : e ∈ v) :
    RemoveElementFromVector v e = (v.set (v.indexOf e) (v.getLastD [])).dropLast := by
  unfold RemoveElementFromVector
  rw [if_pos ((cubeIndexOf_lt_length v e).2 h)]

theorem RemoveElementFromVector_length (v : List Cube) (e : Cube) (h : e ∈ v) :
    (RemoveElementFromVector v e).length + 1 = v.length := by
  rw [RemoveElementFromVector_of_mem v e h]
  have : 0 < v.length := List.length_pos_of_mem h
  simp
  omega

theorem RemoveElementFromVector_length_le (v : List Cube) (e : Cube) :
    (RemoveElementFromVector v e).length ≤ v.length := by
  by_cases h : e ∈ v
  · have := RemoveElementFromVector_length v e h
    omega
  · rw [RemoveElementFromVector_of_not_mem v e h]

theorem RemoveElementFromVector_getElem? (v : List Cube) (e : Cube) (h : e ∈ v) (j : Nat)
    (hj : j + 1 < v.length) :
    (RemoveElementFromVector v e)[j]? =
      if j = v.indexOf e then v[v.length - 1]? else v[j]? := by
  rw [RemoveElementFromVector_of_mem v e h, List.getElem?_dropLast]
  have hlt : j < (v.set (v.indexOf e) (v.getLastD [])).length - 1 := by
    simp; omega
  rw [if_pos hlt, List.getElem?_set]
  by_cases hji : v.indexOf e = j
  · have hidx : v.indexOf e < v.length := (cubeIndexOf_lt_length v e).2 h
    rw [if_pos hji, if_pos hidx, if_pos hji.symm]
    rw [List.getLastD_eq_getLast?, List.getLast?_eq_getElem?]
    have hl : v.length - 1 < v.length := by omega
    rw [List.getElem?_eq_getElem hl]
    rfl
  · rw [if_neg hji, if_neg (fun e2 => hji e2.symm)]

theorem RemoveElementFromVector_mem (v : List Cube) (e x : Cube)
    (h : x ∈ RemoveElementFromVector v e) : x ∈ v := by
  by_cases he : e ∈ v
  · rw [RemoveElementFromVector_of_mem v e he] at h
    have h1 := List.mem_of_mem_dropLast h
    rcases List.mem_or_eq_of_mem_set h1 with h2 | h2
    · exact h2
    · rw [h2, List.getLastD_eq_getLast?]
      cases hl : v.getLast? with
      | none =>
        rw [List.getLast?_eq_none_iff] at hl
        rw [hl] at he
        cases he
      | some y => exact List.mem_of_getLast?_eq_some hl
  · rw [RemoveElementFromVector_of_not_mem v e he] at h
    exact h

/-! ## Positions in the bases after Reduce -/

theorem Boundaries_twoSquares : Boundaries twoSquaresE = .ok twoSquaresBd := rfl

theorem cubeIndexOf_getElem? (v : List Cube) (e : Cube) (h : e ∈ v) :
    v[v.indexOf e]? = some e := by
  induction v with
  | nil => cases h
  | cons c v ih =>
    rw [cubeIndexOf_cons]
    by_cases hc : c = e
    · simp [hc]
    · have : e ∈ v := by
        rcases List.mem_cons.1 h with h1 | h1
        · exact absurd h1.symm hc
        · exact h1
      simp [hc, ih this]

theorem SwapPopped_RemoveElementFromVector (v : List Cube) (e : Cube) :
    SwapPopped v e (RemoveElementFromVector v e) := by
  refine ⟨RemoveElementFromVector_of_not_mem v e, fun h => ⟨?_, ?_, ?_⟩⟩
  · exact RemoveElementFromVector_length v e h
  · intro j x hx hne hj
    rw [RemoveElementFromVector_getElem? v e h j hj]
    have hji : ¬ j = v.indexOf e := by
      intro e2
      rw [e2, cubeIndexOf_getElem? v e h] at hx
      exact hne (Option.some.inj hx).symm
    rw [if_neg hji, hx]
  · intro hj
    rw [RemoveElementFromVector_getElem? v e h _ hj, if_pos rfl]

theorem Reduce_bases (E : ChainComplex) (bd : BoundaryMap) (k : Int) (a b : Cube)
    (r : ChainComplex × BoundaryMap) (h : Reduce E bd k a b = .ok r) :
    ∃ n : Nat, k = n ∧ 2 ≤ n ∧ n < E.length ∧ r.1.length = E.length ∧
      r.1.getD n [] = RemoveElementFromVector (E.getD n []) b ∧
      r.1.getD (n - 1) [] = RemoveElementFromVector (E.getD (n - 1) []) a ∧
      ∀ j, j ≠ n → j ≠ n - 1 → r.1.getD j [] = E.getD j [] := by
  obtain ⟨n, hn, h2, hnE, _, hE, _⟩ := Reduce_inv E bd k a b r h
  refine ⟨n, hn, h2, hnE, by rw [hE]; simp, ?_, ?_, ?_⟩
  · rw [hE, getD_set]
    have h1 : ¬ (n - 1 = n ∧ n - 1 < (E.set n (RemoveElementFromVector (E.getD n []) b)).length) :=
      fun hh => by omega
    rw [if_neg h1, getD_set, if_pos ⟨rfl, hnE⟩]
  · rw [hE, getD_set]
    have h1 : n - 1 = n - 1 ∧ n - 1 < (E.set n (RemoveElementFromVector (E.getD n []) b)).length := by
      refine ⟨rfl, ?_⟩
      simp; omega
    rw [if_pos h1]
  · intro j hj1 hj2
    rw [hE, getD_set]
    have h1 : ¬ (n - 1 = j ∧ n - 1 < (E.set n (RemoveElementFromVector (E.getD n []) b)).length) :=
      fun hh => hj2 hh.1.symm
    rw [if_neg h1, getD_set]
    have h3 : ¬ (n = j ∧ n < E.length) := fun hh => hj1 hh.1.symm
    rw [if_neg h3]

/-- C14 (amended): after `Reduce(E, bd, k, a, b)` the basis `E[k]` is `E[k]`
with `b` removed by swap and pop, and `E[k-1]` is `E[k-1]` with `a` removed the
same way: every cube other than the removed one that is not the last element
of its basis keeps its position, the last element takes the position of the
removed cube, and the other bases are unchanged. -/
theorem Reduce_positions (E : ChainComplex) (bd : BoundaryMap) (k : Int) (a b : Cube)
    (r : ChainComplex × BoundaryMap) (h : Reduce E bd k a b = .ok r) :
    ∃ n : Nat, k = n ∧ 2 ≤ n ∧ n < E.length ∧
      SwapPopped (E.getD n []) b (r.1.getD n []) ∧
      SwapPopped (E.getD (n - 1) []) a (r.1.getD (n - 1) []) ∧
      ∀ j, j ≠ n → j ≠ n - 1 → r.1.getD j [] = E.getD j [] := by
  obtain ⟨n, hn, h2, hnE, _, e1, e2, e3⟩ := Reduce_bases E bd k a b r h
  refine ⟨n, hn, h2, hnE, ?_, ?_, e3⟩
  · rw [e1]; exact SwapPopped_RemoveElementFromVector _ _
  · rw [e2]; exact SwapPopped_RemoveElementFromVector _ _

theorem Outcome.exists_ok {α : Type} (x : Outcome α)
    (h : x.bind (fun _ => Outcome.ok ()) = .ok ()) : ∃ r, x = .ok r := by
  cases x with
  | ok r => exact ⟨r, rfl⟩
  | outOfRange => cases h
  | outOfFuel => cases h

theorem Reduce_twoSquares_ok :
    ∃ r, Reduce twoSquaresE twoSquaresBd 2 [⟨1, 1⟩, ⟨0, 1⟩] [⟨0, 1⟩, ⟨0, 1⟩] = .ok r :=
  Outcome.exists_ok _ (by decide)

theorem Reduce_positions_witness :
    ∃ r, Reduce twoSquaresE twoSquaresBd 2 [⟨1, 1⟩, ⟨0, 1⟩] [⟨0, 1⟩, ⟨0, 1⟩] = .ok r ∧
      ∃ n : Nat, (2 : Int) = n ∧ 2 ≤ n ∧ n < twoSquaresE.length ∧
        SwapPopped (twoSquaresE.getD n []) [⟨0, 1⟩, ⟨0, 1⟩] (r.1.getD n []) ∧
        SwapPopped (twoSquaresE.getD (n - 1) []) [⟨1, 1⟩, ⟨0, 1⟩] (r.1.getD (n - 1) []) ∧
        ∀ j, j ≠ n → j ≠ n - 1 → r.1.getD j [] = twoSquaresE.getD j [] := by
  obtain ⟨r, hr⟩ := Reduce_twoSquares_ok
  exact ⟨r, hr, Reduce_positions _ _ _ _ _ r hr⟩

/-- C14 (counterexample): in the complex of two adjacent squares, reducing
the pair of the first square and the shared edge moves the last edge
`[1,2] x [1]` of `E[1]` from position 6 to position 1, the position of the
removed edge. -/
theorem Reduce_moves_last_cube :
    (twoSquaresE.getD 1 [])[6]? = some [⟨1, 2⟩, ⟨1, 1⟩] ∧
    (Reduce twoSquaresE twoSquaresBd 2 [⟨1, 1⟩, ⟨0, 1⟩] [⟨0, 1⟩, ⟨0, 1⟩]).bind
      (fun r => .ok ((r.1.getD 1 [])[6]?, (r.1.getD 1 [])[1]?)) =
      .ok (none, some [⟨1, 2⟩, ⟨1, 1⟩]) := by
  constructor <;> decide

/-! ## The reducer at dimension 1 -/

theorem Outcome.bind_ne_outOfFuel {α β : Type} (x : Outcome α) (f : α → Outcome β)
    (hx : x ≠ .outOfFuel) (hf : ∀ a, f a ≠ .outOfFuel) : x.bind f ≠ .outOfFuel := by
  cases x with
  | ok a => exact hf a
  | outOfRange => intro h; cases h
  | outOfFuel => exact absurd rfl hx

theorem vecGet_ne_outOfFuel {α : Type} (v : List α) (i : Int) : vecGet v i ≠ .outOfFuel := by
  unfold vecGet
  split
  · split <;> intro h <;> cases h
  · intro h; cases h

theorem vecSet_ne_outOfFuel {α : Type} (v : List α) (i : Int) (x : α) :
    vecSet v i x ≠ .outOfFuel := by
  unfold vecSet
  split <;> intro h <;> cases h

theorem Reduce_ne_outOfFuel (E : ChainComplex) (bd : BoundaryMap) (i : Int) (a b : Cube) :
    Reduce E bd i a b ≠ .outOfFuel := by
  unfold Reduce
  apply Outcome.bind_ne_outOfFuel
  · split
    · apply Outcome.bind_ne_outOfFuel _ _ (vecGet_ne_outOfFuel _ _)
      intro Eup
      split
      · intro h; cases h
      · apply Outcome.bind_ne_outOfFuel _ _ (vecGet_ne_outOfFuel _ _)
        intro m
        exact vecSet_ne_outOfFuel _ _ _
    · intro h; cases h
  intro bd1
  apply Outcome.bind_ne_outOfFuel _ _ (vecGet_ne_outOfFuel _ _)
  intro Ei
  apply Outcome.bind_ne_outOfFuel _ _ (vecGet_ne_outOfFuel _ _)
  intro m
  apply Outcome.bind_ne_outOfFuel _ _ (vecSet_ne_outOfFuel _ _ _)
  intro bd2
  apply Outcome.bind_ne_outOfFuel _ _ (vecSet_ne_outOfFuel _ _ _)
  intro E1
  apply Outcome.bind_ne_outOfFuel _ _ (vecGet_ne_outOfFuel _ _)
  intro Ei1
  apply Outcome.bind_ne_outOfFuel _ _ (vecSet_ne_outOfFuel _ _ _)
  intro E2
  apply Outcome.bind_ne_outOfFuel _ _ (vecGet_ne_outOfFuel _ _)
  intro m2
  apply Outcome.bind_ne_outOfFuel _ _ (vecSet_ne_outOfFuel _ _ _)
  intro bd3
  apply Outcome.bind_ne_outOfFuel _ _ (vecGet_ne_outOfFuel _ _)
  intro m3
  apply Outcome.bind_ne_outOfFuel _ _ (vecSet_ne_outOfFuel _ _ _)
  intro bd4
  intro h; cases h

theorem Reduce_one_outOfRange (E : ChainComplex) (bd : BoundaryMap) (a b : Cube) :
    Reduce E bd 1 a b = .outOfRange := by
  cases h : Reduce E bd 1 a b with
  | ok r =>
    obtain ⟨n, hn, h2, _⟩ := Reduce_inv E bd 1 a b r h
    omega
  | outOfRange => rfl
  | outOfFuel => exact absurd h (Reduce_ne_outOfFuel E bd 1 a b)

theorem ReduceChainComplexBody_one (E0 E1 : List Cube) (m : CubeMap Chain) (st : ReduceState)
    (hE : st.E = [E0, E1]) (hbd : st.bd = [m]) (h0 : E0 ≠ []) (h1 : E1 ≠ [])
    (hs : (ReduceScanCubes E0 E1 m).2 ≠ none) :
    ReduceChainComplexBody 1 st = .outOfRange := by
  unfold ReduceChainComplexBody
  have g1 : vecGet st.E 1 = .ok E1 := by rw [hE]; rfl
  have g0 : vecGet st.E (1 - 1) = .ok E0 := by rw [hE]; rfl
  have gm : vecGet st.bd (1 - 1) = .ok m := by rw [hbd]; rfl
  have gs : vecSet st.bd (1 - 1) (ReduceScanCubes E0 E1 m).1 =
      .ok [(ReduceScanCubes E0 E1 m).1] := by rw [hbd]; rfl
  have e1 : E1.isEmpty = false := by cases E1 <;> simp_all
  have e0 : E0.isEmpty = false := by cases E0 <;> simp_all
  simp only [g1, Outcome.bind, e1, Bool.false_eq_true, if_false, g0, e0, gm, gs]
  cases hsc : (ReduceScanCubes E0 E1 m).2 with
  | none => exact absurd hsc hs
  | some p =>
    obtain ⟨a, b⟩ := p
    simp only [Reduce_one_outOfRange]

/-- C18 (failing input): every call `Reduce(E, bd, 1, a, b)` indexes `bd[-1]`
and does not return, whatever `E` and `bd` are; and on a complex of dimension 1
with `bd` of length 1 in which the scan finds a pair, `ReduceChainComplex`
makes that call and ends in the access outside `bd`. -/
theorem Reduce_dimension_one_out_of_range :
    (∀ (E : ChainComplex) (bd : BoundaryMap) (a b : Cube), Reduce E bd 1 a b = .outOfRange) ∧
    (∀ (fuel : Nat) (E0 E1 : List Cube) (m : CubeMap Chain), E0 ≠ [] → E1 ≠ [] →
      (ReduceScanCubes E0 E1 m).2 ≠ none →
      ReduceChainComplex (fuel + 1) [E0, E1] [m] = .outOfRange) := by
  refine ⟨Reduce_one_outOfRange, ?_⟩
  intro fuel E0 E1 m h0 h1 hs
  unfold ReduceChainComplex ReduceChainComplexWhile
  simp only [if_true]
  have hlen : (([E0, E1] : ChainComplex).length : Int) = 2 := rfl
  have hi : toInt32 (sizeT ((2 : Int) - 1)) = 1 := by decide
  rw [hlen, hi]
  unfold ReduceChainComplexFor
  have hc : sizeT 1 > sizeT ((2 : Int) - 2) := by decide
  simp only [hlen, hc, if_true]
  rw [ReduceChainComplexBody_one E0 E1 m _ rfl rfl h0 h1 hs]
  rfl

theorem Reduce_dimension_one_out_of_range_witness :
    ([[⟨0, 0⟩], [⟨1, 1⟩]] : List Cube) ≠ [] ∧ ([[⟨0, 1⟩]] : List Cube) ≠ [] ∧
    (ReduceScanCubes [[⟨0, 0⟩], [⟨1, 1⟩]] [[⟨0, 1⟩]]
      [([⟨0, 1⟩], BoundaryOperator [⟨0, 1⟩])]).2 ≠ none ∧
    ReduceChainComplex (0 + 1) [[[⟨0, 0⟩], [⟨1, 1⟩]], [[⟨0, 1⟩]]]
      [[([⟨0, 1⟩], BoundaryOperator [⟨0, 1⟩])]] = .outOfRange :=
  ⟨by decide, by decide, by decide,
    Reduce_dimension_one_out_of_range.2 0 _ _ _ (by decide) (by decide) (by decide)⟩

/-! ## Lookups after the map operations of Reduce -/

theorem mapFind_append_singleton {V : Type} (m : CubeMap V) (k q : Cube) (d : V) :
    mapFind (m ++ [(k, d)]) q =
      match mapFind m q with
      | some v => some v
      | none => if k = q then some d else none := by
  induction m with
  | nil => simp [mapFind]
  | cons p rest ih =>
    obtain ⟨k1, v1⟩ := p
    by_cases h : k1 = q
    · simp [mapFind, h]
    · simp [mapFind, h, ih]

theorem mapIndex_fst {V : Type} (m : CubeMap V) (k : Cube) (d : V) :
    (mapIndex m k d).1 = (mapFind m k).getD d := by
  unfold mapIndex
  cases mapFind m k <;> rfl

theorem mapFind_mapIndex {V : Type} (m : CubeMap V) (k q : Cube) (d : V) :
    mapFind (mapIndex m k d).2 q =
      match mapFind m q with
      | some v => some v
      | none => if k = q then some d else none := by
  unfold mapIndex
  cases h : mapFind m k with
  | some v =>
    cases hq : mapFind m q with
    | some w => rfl
    | none =>
      have : ¬ k = q := by
        intro e
        rw [e, hq] at h
        cases h
      simp [hq, this]
  | none => exact mapFind_append_singleton m k q d

theorem mapFind_mapErase {V : Type} (m : CubeMap V) (k q : Cube) :
    mapFind (mapErase m k) q = if q = k then none else mapFind m q := by
  induction m with
  | nil => simp [mapErase, mapFind]
  | cons p rest ih =>
    obtain ⟨k1, v1⟩ := p
    unfold mapErase at ih ⊢
    by_cases h1 : k1 = k
    · subst h1
      simp only [List.filter_cons, ne_eq, not_true_eq_false, decide_False, Bool.false_eq_true,
        if_false, ih]
      by_cases hq : q = k1
      · simp [hq]
      · have : ¬ k1 = q := fun e => hq e.symm
        simp [hq, mapFind, this]
    · simp only [List.filter_cons, ne_eq, h1, not_false_eq_true, decide_True, if_true, mapFind, ih]
      by_cases hq : k1 = q
      · subst hq
        simp [h1]
      · simp [hq]

theorem mapFind2_mapIndex_nil (m : CubeMap Chain) (k q x : Cube) :
    mapFind2 (mapIndex m k []).2 q x = mapFind2 m q x := by
  unfold mapFind2
  rw [mapFind_mapIndex]
  cases mapFind m q with
  | some ch => rfl
  | none =>
    by_cases h : k = q
    · simp [h, mapFind]
    · simp [h]

theorem mapFind2_mapAssign (m : CubeMap Chain) (k : Cube) (ch : Chain) (q x : Cube) :
    mapFind2 (mapAssign m k ch) q x = if k = q then mapFind ch x else mapFind2 m q x := by
  unfold mapFind2
  rw [mapFind_mapAssign]
  by_cases h : k = q
  · simp [h]
  · simp [h]

theorem mapFind_mapIndex_fst_nil (m : CubeMap Chain) (k x : Cube) :
    mapFind (mapIndex m k []).1 x = mapFind2 m k x := by
  rw [mapIndex_fst]
  unfold mapFind2
  cases mapFind m k <;> rfl

theorem nestedIndex_fst (m : CubeMap Chain) (cube key : Cube) :
    (nestedIndex m cube key).1 = (mapFind2 m cube key).getD 0 := by
  unfold nestedIndex
  simp only [mapIndex_fst]
  unfold mapFind2
  cases mapFind m cube <;> rfl

theorem mapFind2_nestedIndex (m : CubeMap Chain) (cube key q x : Cube) :
    mapFind2 (nestedIndex m cube key).2 q x =
      if cube = q ∧ key = x ∧ mapFind2 m cube key = none then some 0 else mapFind2 m q x := by
  unfold nestedIndex
  simp only [mapFind2_mapAssign]
  by_cases hq : cube = q
  · subst hq
    rw [if_pos rfl, mapFind_mapIndex, mapFind_mapIndex_fst_nil]
    cases hx : mapFind2 m cube x with
    | some v =>
      have : ¬ (cube = cube ∧ key = x ∧ mapFind2 m cube key = none) := by
        rintro ⟨_, h1, h2⟩
        rw [h1, hx] at h2
        cases h2
      rw [if_neg this]
    | none =>
      by_cases h : key = x
      · subst h
        simp [hx]
      · simp [h]
  · rw [if_neg hq, mapFind2_mapIndex_nil]
    have : ¬ (cube = q ∧ key = x ∧ mapFind2 m cube key = none) := fun hh => hq hh.1
    rw [if_neg this]

theorem mapFind2_nestedAssign (m : CubeMap Chain) (cube key : Cube) (v : Int) (q x : Cube) :
    mapFind2 (nestedAssign m cube key v) q x =
      if cube = q ∧ key = x then some v else mapFind2 m q x := by
  unfold nestedAssign
  simp only [mapFind2_mapAssign]
  by_cases hq : cube = q
  · subst hq
    rw [if_pos rfl, mapFind_mapAssign, mapFind_mapIndex_fst_nil]
    by_cases h : key = x
    · simp [h]
    · simp [h]
  · rw [if_neg hq, mapFind2_mapIndex_nil]
    have : ¬ (cube = q ∧ key = x) := fun hh => hq hh.1
    rw [if_neg this]

/-! ## What the sibling update leaves alone -/

theorem nestedIndex_same (m : CubeMap Chain) (cube key q x : Cube)
    (h : ¬ (q = cube ∧ x = key)) :
    mapFind2 (nestedIndex m cube key).2 q x = mapFind2 m q x := by
  rw [mapFind2_nestedIndex]
  have : ¬ (cube = q ∧ key = x ∧ mapFind2 m cube key = none) :=
    fun hh => h ⟨hh.1.symm, hh.2.1.symm⟩
  rw [if_neg this]

theorem nestedAssign_same (m : CubeMap Chain) (cube key : Cube) (v : Int) (q x : Cube)
    (h : ¬ (q = cube ∧ x = key)) :
    mapFind2 (nestedAssign m cube key v) q x = mapFind2 m q x := by
  rw [mapFind2_nestedAssign]
  have : ¬ (cube = q ∧ key = x) := fun hh => h ⟨hh.1.symm, hh.2.symm⟩
  rw [if_neg this]

theorem ReduceUpdateEntry_same (a b cube c : Cube) (m : CubeMap Chain) (q x : Cube)
    (h : ¬ ((q = cube ∨ q = b) ∧ (x = a ∨ x = c))) :
    mapFind2 (ReduceUpdateEntry a b cube c m) q x = mapFind2 m q x := by
  unfold ReduceUpdateEntry
  simp only []
  rw [nestedAssign_same _ _ _ _ _ _ (fun hh => h ⟨Or.inl hh.1, Or.inr hh.2⟩),
    nestedIndex_same _ _ _ _ _ (fun hh => h ⟨Or.inl hh.1, Or.inr hh.2⟩),
    nestedIndex_same _ _ _ _ _ (fun hh => h ⟨Or.inr hh.1, Or.inr hh.2⟩),
    nestedIndex_same _ _ _ _ _ (fun hh => h ⟨Or.inr hh.1, Or.inl hh.2⟩),
    nestedIndex_same _ _ _ _ _ (fun hh => h ⟨Or.inl hh.1, Or.inl hh.2⟩)]

theorem ReduceUpdateCube_same (a b cube : Cube) (keys : List Cube) :
    ∀ (m : CubeMap Chain) (q x : Cube),
      ¬ ((q = cube ∨ q = b) ∧ (x = a ∨ x ∈ keys)) →
      mapFind2 (ReduceUpdateCube a b cube keys m) q x = mapFind2 m q x := by
  induction keys with
  | nil => intro m q x _; rfl
  | cons c rest ih =>
    intro m q x h
    unfold ReduceUpdateCube
    rw [ih _ q x (fun hh => h ⟨hh.1, hh.2.imp id (List.mem_cons_of_mem _)⟩)]
    exact ReduceUpdateEntry_same a b cube c m q x
      (fun hh => h ⟨hh.1, hh.2.imp id (fun (e : x = c) => by rw [e]; exact List.mem_cons_self _ _)⟩)

theorem mem_mapKeys_mapIndex_fst (m : CubeMap Chain) (k x : Cube)
    (h : x ∈ mapKeys (mapIndex m k []).1) : mapFind2 m k x ≠ none := by
  rw [← mapFind_mapIndex_fst_nil]
  intro hn
  exact ((mapFind_eq_none_iff _ _).1 hn) h

theorem ReduceUpdateSiblings_same (a b : Cube) (Ei : List Cube) :
    ∀ (m : CubeMap Chain) (q x : Cube),
      ¬ ((q = b ∨ (q ∈ Ei ∧ mapFind2 m q a ≠ none)) ∧ (x = a ∨ mapFind2 m b x ≠ none)) →
      mapFind2 (ReduceUpdateSiblings a b Ei m) q x = mapFind2 m q x := by
  induction Ei with
  | nil => intro m q x _; rfl
  | cons cube rest ih =>
    intro m q x h
    unfold ReduceUpdateSiblings
    by_cases hcb : cube = b
    · rw [if_pos hcb]
      exact ih m q x (fun hh => h ⟨hh.1.imp id (fun g => ⟨List.mem_cons_of_mem _ g.1, g.2⟩), hh.2⟩)
    · rw [if_neg hcb]
      simp only []
      have hm1 : ∀ q x, mapFind2 (mapIndex m cube []).2 q x = mapFind2 m q x :=
        fun q x => mapFind2_mapIndex_nil m cube q x
      cases hfa : mapFind (mapIndex m cube []).1 a with
      | none =>
        simp only []
        rw [ih _ q x, hm1]
        intro hh
        apply h
        refine ⟨hh.1.imp id (fun g => ⟨List.mem_cons_of_mem _ g.1, ?_⟩), hh.2.imp id ?_⟩
        · rw [← hm1]; exact g.2
        · intro g; rw [← hm1]; exact g
      | some v =>
        simp only []
        have hcube : mapFind2 m cube a ≠ none := by
          rw [← mapFind_mapIndex_fst_nil, hfa]
          intro e; cases e
        have hm2 : ∀ q x, mapFind2 (mapIndex (mapIndex m cube []).2 b []).2 q x = mapFind2 m q x :=
          fun q x => by rw [mapFind2_mapIndex_nil, hm1]
        have hkeys : ∀ y, y ∈ mapKeys (mapIndex (mapIndex m cube []).2 b []).1 →
            mapFind2 m b y ≠ none := by
          intro y hy
          have := mem_mapKeys_mapIndex_fst _ _ _ hy
          rwa [hm1] at this
        have hL5 : ∀ q x, ¬ ((q = cube ∨ q = b) ∧ (x = a ∨ mapFind2 m b x ≠ none)) →
            mapFind2 (ReduceUpdateCube a b cube
              (mapKeys (mapIndex (mapIndex m cube []).2 b []).1)
              (mapIndex (mapIndex m cube []).2 b []).2) q x = mapFind2 m q x := by
          intro q x hq
          rw [ReduceUpdateCube_same a b cube _ _ q x, hm2]
          exact fun hh => hq ⟨hh.1, hh.2.imp id (hkeys x)⟩
        rw [ih _ q x, hL5 q x]
        · intro hh
          apply h
          refine ⟨?_, hh.2⟩
          rcases hh.1 with g | g
          · right
            rw [g]
            exact ⟨List.mem_cons_self _ _, hcube⟩
          · exact Or.inl g
        · intro hh
          apply h
          constructor
          · rcases hh.1 with g | ⟨g1, g2⟩
            · exact Or.inl g
            · by_cases hqb : q = b
              · exact Or.inl hqb
              · right
                refine ⟨List.mem_cons_of_mem _ g1, ?_⟩
                by_cases hqc : q = cube
                · rw [hqc]; exact hcube
                · rw [hL5 q a (fun k => by rcases k.1 with k1 | k1 <;> contradiction)] at g2
                  exact g2
          · rcases hh.2 with g | g
            · exact Or.inl g
            · by_cases hx : x = a ∨ mapFind2 m b x ≠ none
              · exact hx
              · rw [hL5 b x (fun k => hx k.2)] at g
                exact Or.inr g

/-! ## Zero coefficients after Reduce -/

theorem mapFind_mem {V : Type} (m : CubeMap V) (k : Cube) (v : V) (h : mapFind m k = some v) :
    (k, v) ∈ m := by
  induction m with
  | nil => simp [mapFind] at h
  | cons p rest ih =>
    obtain ⟨k1, v1⟩ := p
    unfold mapFind at h
    by_cases hk : k1 = k
    · simp only [hk, if_true] at h
      cases h
      rw [hk]
      exact List.mem_cons_self _ _
    · simp only [hk, if_false] at h
      exact List.mem_cons_of_mem _ (ih h)

theorem NoZero_of_noZeroEntries (bd : BoundaryMap) (h : noZeroEntries bd = true) : NoZero bd := by
  intro j c x hx
  unfold bdFind mapFind2 at hx
  cases hm : mapFind (bd.getD j []) c with
  | none => rw [hm] at hx; cases hx
  | some ch =>
    rw [hm] at hx
    have hx1 : (x, (0 : Int)) ∈ ch := mapFind_mem _ _ _ hx
    have hc : (c, ch) ∈ bd.getD j [] := mapFind_mem _ _ _ hm
    have hj : bd.getD j [] ∈ bd := by
      by_cases hlt : j < bd.length
      · rw [List.getD_eq_getElem _ _ hlt]; exact List.getElem_mem _
      · rw [List.getD_eq_default _ _ (Nat.le_of_not_lt hlt)] at hc
        cases hc
    unfold noZeroEntries at h
    rw [List.all_eq_true] at h
    have h1 := h _ hj
    rw [List.all_eq_true] at h1
    have h2 := h1 _ hc
    rw [List.all_eq_true] at h2
    have h3 := h2 _ hx1
    simp at h3

theorem NoZero_twoSquaresBd : NoZero twoSquaresBd :=
  NoZero_of_noZeroEntries _ (by decide)

theorem mapFind2_ReduceEraseAbove (b : Cube) (L : List Cube) :
    ∀ (m : CubeMap Chain) (q x : Cube) (v : Int),
      mapFind2 (ReduceEraseAbove b L m) q x = some v → mapFind2 m q x = some v := by
  induction L with
  | nil => intro m q x v h; exact h
  | cons cube rest ih =>
    intro m q x v h
    unfold ReduceEraseAbove at h
    simp only [] at h
    split at h
    · have h1 := ih _ q x v h
      rw [mapFind2_mapAssign] at h1
      by_cases hq : cube = q
      · rw [if_pos hq, mapFind_mapErase] at h1
        by_cases hxb : x = b
        · rw [if_pos hxb] at h1; cases h1
        · rw [if_neg hxb, mapFind_mapIndex_fst_nil, hq] at h1
          exact h1
      · rw [if_neg hq, mapFind2_mapIndex_nil] at h1
        exact h1
    · have h1 := ih _ q x v h
      rw [mapFind2_mapIndex_nil] at h1
      exact h1

theorem mapFind2_mapErase (m : CubeMap Chain) (k q x : Cube) :
    mapFind2 (mapErase m k) q x = if q = k then none else mapFind2 m q x := by
  unfold mapFind2
  rw [mapFind_mapErase]
  by_cases h : q = k
  · simp [h]
  · simp [h]

/-- C13 (amended): Reduce erases no coefficient that its update makes zero.
When no chain of `bd` stores a zero before a call `Reduce(E, bd, k, a, b)` that
returns, a zero stored afterwards can only be in `bd[k-1][c]` for a cube
`c` of `E[k]` other than `b` whose chain had the key `a`, and only at the key
`a` or at a key of `bd[k-1][b]`; every other stored coefficient is nonzero. -/
theorem Reduce_zero_location (E : ChainComplex) (bd : BoundaryMap) (k : Int) (a b : Cube)
    (r : ChainComplex × BoundaryMap) (hz : NoZero bd) (h : Reduce E bd k a b = .ok r)
    (j : Nat) (c x : Cube) (h0 : bdFind r.2 j c x = some 0) :
    (j : Int) = k - 1 ∧ c ≠ b ∧ c ∈ E.getD (j + 1) [] ∧ bdFind bd j c a ≠ none ∧
      (x = a ∨ bdFind bd j b x ≠ none) := by
  obtain ⟨n, hk, hn2, hnE, hnbd, -, bd1, hbd1, hr2⟩ := Reduce_inv E bd k a b r h
  have hlen1 : bd1.length = bd.length := by
    rcases hbd1 with e | ⟨-, -, e⟩ <;> rw [e]
    exact List.length_set _ _ _
  have hbd1z : ∀ i q y, i ≠ n - 1 → i ≠ n - 2 → bdFind r.2 i q y = some 0 → False := by
    intro i q y hi1 hi2 hq
    unfold bdFind at hq
    rw [hr2, getD_set, if_neg (fun e => hi2 e.1.symm), getD_set,
      if_neg (fun e => hi1 e.1.symm)] at hq
    rcases hbd1 with e | ⟨hlt, -, e⟩
    · rw [e] at hq; exact hz i q y hq
    · rw [e, getD_set] at hq
      by_cases hin : n = i ∧ n < bd.length
      · rw [if_pos hin] at hq
        have := mapFind2_ReduceEraseAbove _ _ _ _ _ _ hq
        exact hz n q y this
      · rw [if_neg hin] at hq; exact hz i q y hq
  by_cases hj2 : j = n - 2
  · exfalso
    unfold bdFind at h0
    have hlt : n - 2 < ((bd1.set (n - 1) (mapErase (ReduceUpdateSiblings a b (E.getD n [])
        (bd.getD (n - 1) [])) b))).length := by
      rw [List.length_set, hlen1]; omega
    rw [hr2, getD_set, if_pos ⟨hj2.symm, hlt⟩, mapFind2_mapErase] at h0
    by_cases hca : c = a
    · rw [if_pos hca] at h0; cases h0
    · rw [if_neg hca] at h0; exact hz (n - 2) c x h0
  by_cases hj1 : j = n - 1
  · unfold bdFind at h0
    have hlt : n - 1 < bd1.length := by rw [hlen1]; omega
    rw [hr2, getD_set, if_neg (fun e => hj2 e.1.symm), getD_set, if_pos ⟨hj1.symm, hlt⟩,
      mapFind2_mapErase] at h0
    by_cases hcb : c = b
    · rw [if_pos hcb] at h0; cases h0
    · rw [if_neg hcb] at h0
      have hset : (c = b ∨ (c ∈ E.getD n [] ∧ mapFind2 (bd.getD (n - 1) []) c a ≠ none)) ∧
          (x = a ∨ mapFind2 (bd.getD (n - 1) []) b x ≠ none) := by
        by_contra hcon
        rw [ReduceUpdateSiblings_same a b _ _ c x hcon] at h0
        exact hz (n - 1) c x h0
      have hjn : j + 1 = n := by omega
      refine ⟨by omega, hcb, ?_, ?_, ?_⟩
      · rw [hjn]
        rcases hset.1 with e | e
        · exact absurd e hcb
        · exact e.1
      · rw [hj1]
        rcases hset.1 with e | e
        · exact absurd e hcb
        · exact e.2
      · rw [hj1]; exact hset.2
  · exact absurd h0 (fun e => hbd1z j c x hj1 hj2 e)

theorem Outcome.exists_ok_and {α : Type} (x : Outcome α) (p : α → Bool)
    (h : x.bind (fun r => Outcome.ok (p r)) = .ok true) : ∃ r, x = .ok r ∧ p r = true := by
  cases x with
  | ok r => exact ⟨r, rfl, Outcome.ok.inj h⟩
  | outOfRange => cases h
  | outOfFuel => cases h

theorem Reduce_twoSquares_stores_zero :
    ∃ r, Reduce twoSquaresE twoSquaresBd 2 [⟨1, 1⟩, ⟨0, 1⟩] [⟨0, 1⟩, ⟨0, 1⟩] = .ok r ∧
      bdFind r.2 1 [⟨1, 2⟩, ⟨0, 1⟩] [⟨1, 1⟩, ⟨0, 1⟩] = some 0 := by
  obtain ⟨r, hr, hp⟩ := Outcome.exists_ok_and
    (Reduce twoSquaresE twoSquaresBd 2 [⟨1, 1⟩, ⟨0, 1⟩] [⟨0, 1⟩, ⟨0, 1⟩])
    (fun r => decide (bdFind r.2 1 [⟨1, 2⟩, ⟨0, 1⟩] [⟨1, 1⟩, ⟨0, 1⟩] = some 0)) (by decide)
  exact ⟨r, hr, of_decide_eq_true hp⟩

theorem Reduce_zero_location_witness :
    ∃ r, Reduce twoSquaresE twoSquaresBd 2 [⟨1, 1⟩, ⟨0, 1⟩] [⟨0, 1⟩, ⟨0, 1⟩] = .ok r ∧
      bdFind r.2 1 [⟨1, 2⟩, ⟨0, 1⟩] [⟨1, 1⟩, ⟨0, 1⟩] = some 0 ∧
      (((1 : Nat) : Int) = 2 - 1 ∧ ([⟨1, 2⟩, ⟨0, 1⟩] : Cube) ≠ [⟨0, 1⟩, ⟨0, 1⟩] ∧
        [⟨1, 2⟩, ⟨0, 1⟩] ∈ twoSquaresE.getD (1 + 1) [] ∧
        bdFind twoSquaresBd 1 [⟨1, 2⟩, ⟨0, 1⟩] [⟨1, 1⟩, ⟨0, 1⟩] ≠ none ∧
        (([⟨1, 1⟩, ⟨0, 1⟩] : Cube) = [⟨1, 1⟩, ⟨0, 1⟩] ∨
          bdFind twoSquaresBd 1 [⟨0, 1⟩, ⟨0, 1⟩] [⟨1, 1⟩, ⟨0, 1⟩] ≠ none)) := by
  obtain ⟨r, hr, h0⟩ := Reduce_twoSquares_stores_zero
  exact ⟨r, hr, h0, Reduce_zero_location _ _ _ _ _ r NoZero_twoSquaresBd hr 1 _ _ h0⟩

/-- C13 (counterexample): in the complex of two adjacent squares no chain of
`bd` stores a zero, and after reducing the first square with the shared
edge the chain of the second square stores the shared edge with
coefficient `0`. -/
theorem Reduce_leaves_zero_coefficient :
    NoZero twoSquaresBd ∧
    ∃ r, Reduce twoSquaresE twoSquaresBd 2 [⟨1, 1⟩, ⟨0, 1⟩] [⟨0, 1⟩, ⟨0, 1⟩] = .ok r ∧
      ¬ NoZero r.2 := by
  refine ⟨NoZero_twoSquaresBd, ?_⟩
  obtain ⟨r, hr, h0⟩ := Reduce_twoSquares_stores_zero
  exact ⟨r, hr, fun hz => hz 1 _ _ h0⟩

/-! ## The rewrite of Reduce on two adjacent squares -/

/-- C11: in the complex of two adjacent squares the boundary of every
boundary is zero and the shared edge has coefficient `1` in the boundary of
the first square; after `Reduce` on that pair the second square is what is
left of `E[2]`, and the vertex `(0,0)` has coefficient `1` in the boundary of
its boundary. -/
theorem Reduce_breaks_boundary_of_boundary :
    (∀ c ∈ twoSquaresE.getD 2 [], ∀ y ∈ twoSquaresE.getD 0 [],
      boundaryOfBoundaryAt twoSquaresBd 2 c y = 0) ∧
    bdCoeff twoSquaresBd 1 [⟨0, 1⟩, ⟨0, 1⟩] [⟨1, 1⟩, ⟨0, 1⟩] = 1 ∧
    (Reduce twoSquaresE twoSquaresBd 2 [⟨1, 1⟩, ⟨0, 1⟩] [⟨0, 1⟩, ⟨0, 1⟩]).bind
      (fun r => .ok (r.1.getD 2 [],
        boundaryOfBoundaryAt r.2 2 [⟨1, 2⟩, ⟨0, 1⟩] [⟨0, 0⟩, ⟨0, 0⟩])) =
      .ok ([[⟨1, 2⟩, ⟨0, 1⟩]], 1) := by
  refine ⟨?_, ?_, ?_⟩ <;> decide

/-- C12: in the complex of two adjacent squares, with `a` the shared edge,
`b` the first square and `c` the second, the coefficients before the call
are `alpha = 1`, `beta = -1`, and for `x` the bottom edge of `b` the
coefficient is `0` in `bd[1][c]` and `1` in `bd[1][b]`, so the rewrite asks
for `0 - beta * alpha * 1 = 1`; after `Reduce` the coefficient of `x` in
`bd[1][c]` is `0`. -/
theorem Reduce_update_misses_entries :
    bdCoeff twoSquaresBd 1 [⟨0, 1⟩, ⟨0, 1⟩] [⟨1, 1⟩, ⟨0, 1⟩] = 1 ∧
    bdCoeff twoSquaresBd 1 [⟨1, 2⟩, ⟨0, 1⟩] [⟨1, 1⟩, ⟨0, 1⟩] = -1 ∧
    bdCoeff twoSquaresBd 1 [⟨1, 2⟩, ⟨0, 1⟩] [⟨0, 1⟩, ⟨0, 0⟩] = 0 ∧
    bdCoeff twoSquaresBd 1 [⟨0, 1⟩, ⟨0, 1⟩] [⟨0, 1⟩, ⟨0, 0⟩] = 1 ∧
    [⟨1, 2⟩, ⟨0, 1⟩] ∈ twoSquaresE.getD 2 [] ∧
    (Reduce twoSquaresE twoSquaresBd 2 [⟨1, 1⟩, ⟨0, 1⟩] [⟨0, 1⟩, ⟨0, 1⟩]).bind
      (fun r => .ok (bdCoeff r.2 1 [⟨1, 2⟩, ⟨0, 1⟩] [⟨0, 1⟩, ⟨0, 0⟩],
        bdCoeff r.2 1 [⟨1, 2⟩, ⟨0, 1⟩] [⟨0, 0⟩, ⟨0, 1⟩])) = .ok (0, -1) := by
  refine ⟨?_, ?_, ?_, ?_, ?_, ?_⟩ <;> decide

/-! ## The order of a basis -/

theorem twoPointsSet_dim :
    ∀ Q, Q ∈ mapKeys twoPointsSet.cubes → Dimension Q ≤ twoPointsSet.dimension := by
  decide

theorem twoPointsSet_weight : closureWeight twoPointsSet.cubes ≤ 2 := by
  decide

/-- C15 (amended): for a cubical set `K` whose cubes have dimension at most
`K.Dimension()`, `CubicalChainGroups(K)` returns and, for every `k`,
`GetCoordinates` applied to its `k`-th map lists the keys of that map in the
iteration order of the map, each cube of the map exactly once. -/
theorem GetCoordinates_basis (pick : CubeMap Int → Nat) (K : CubicalSet) (fuel : Nat)
    (hdim : ∀ Q, Q ∈ mapKeys K.cubes → Dimension Q ≤ K.dimension)
    (hfuel : closureWeight K.cubes ≤ fuel) :
    ∃ E, CubicalChainGroups pick fuel K = .ok E ∧
      ∀ k, GetCoordinates (E.getD k []) = mapKeys (E.getD k []) ∧
        (GetCoordinates (E.getD k [])).Nodup ∧
        ∀ Q, Q ∈ GetCoordinates (E.getD k []) ↔ (mapFind (E.getD k []) Q).isSome = true := by
  obtain ⟨K1, E1, hloop, hinv, -⟩ := CubicalChainGroupsLoop_inv pick (mapKeys K.cubes)
    K.dimension fuel K _ (ClosureInv_init K hdim) hfuel
  refine ⟨E1, hloop, fun k => ⟨GetCoordinates_eq_mapKeys _, ?_, fun Q => ?_⟩⟩
  · rw [GetCoordinates_eq_mapKeys]; exact hinv.nodup k
  · rw [GetCoordinates_eq_mapKeys]; exact (mapFind_isSome_iff _ _).symm

theorem GetCoordinates_basis_witness :
    (∀ Q, Q ∈ mapKeys twoPointsSet.cubes → Dimension Q ≤ twoPointsSet.dimension) ∧
    closureWeight twoPointsSet.cubes ≤ 2 ∧
    ∃ E, CubicalChainGroups (fun _ => 1) 2 twoPointsSet = .ok E ∧
      ∀ k, GetCoordinates (E.getD k []) = mapKeys (E.getD k []) ∧
        (GetCoordinates (E.getD k [])).Nodup ∧
        ∀ Q, Q ∈ GetCoordinates (E.getD k []) ↔ (mapFind (E.getD k []) Q).isSome = true :=
  ⟨twoPointsSet_dim, twoPointsSet_weight,
    GetCoordinates_basis (fun _ => 1) twoPointsSet 2 twoPointsSet_dim twoPointsSet_weight⟩

/-- C15 (counterexample): for the set of the two points `[0]` and `[1]`, taking
the cubes out of `K` first-to-last gives the basis `E[0] = ([0], [1])` and
taking them last-to-first gives `E[0] = ([1], [0])`, which is not sorted;
`GetCoordinates` itself returns the keys of a map in the order in which the map
holds them. -/
theorem GetCoordinates_not_sorted :
    (CubicalChainGroups (fun _ => 0) 2 twoPointsSet).bind
      (fun E => .ok (E.map GetCoordinates)) = .ok [[[⟨0, 0⟩], [⟨1, 1⟩]]] ∧
    (CubicalChainGroups (fun _ => 1) 2 twoPointsSet).bind
      (fun E => .ok (E.map GetCoordinates)) = .ok [[[⟨1, 1⟩], [⟨0, 0⟩]]] ∧
    GetCoordinates [([⟨1, 1⟩], 0), ([⟨0, 0⟩], 0)] = [[⟨1, 1⟩], [⟨0, 0⟩]] ∧
    sortedLex [[⟨1, 1⟩], [⟨0, 0⟩]] = false ∧ sortedLex [[⟨0, 0⟩], [⟨1, 1⟩]] = true := by
  refine ⟨?_, ?_, ?_, ?_, ?_⟩ <;> decide

/-! ## The boundary map of an unreduced complex -/

theorem mapFind_BoundariesLevel (L : List Cube) :
    ∀ (m : CubeMap Chain) (q : Cube),
      mapFind (BoundariesLevel L m) q =
        if q ∈ L then some (BoundaryOperator q) else mapFind m q := by
  induction L with
  | nil => intro m q; simp [BoundariesLevel]
  | cons e rest ih =>
    intro m q
    unfold BoundariesLevel
    rw [ih, mapFind_mapAssign]
    by_cases h1 : q ∈ rest
    · simp [h1]
    · by_cases h2 : e = q
      · subst h2; simp [h1]
      · have h3 : ¬ q = e := fun h => h2 h.symm
        simp [h1, h2, h3]

theorem mem_mapKeys_BoundariesLevel (L : List Cube) (q : Cube) :
    q ∈ mapKeys (BoundariesLevel L []) ↔ q ∈ L := by
  rw [← mapFind_isSome_iff, mapFind_BoundariesLevel]
  by_cases h : q ∈ L
  · simp [h]
  · simp [h, mapFind]

theorem levelMatrix_BoundariesLevel (Ek1 Ek : List Cube) :
    levelMatrix (BoundariesLevel Ek []) Ek1 Ek = levelMatrixE Ek1 Ek := by
  unfold levelMatrix levelMatrixE
  congr 1
  apply List.map_congr_left
  intro e he
  rw [mapIndex_fst, mapFind_BoundariesLevel, if_pos he]
  rfl

theorem Boundaries_cons (E0 : List Cube) (upper : List (List Cube)) :
    Boundaries (E0 :: upper) = .ok (upper.map fun Ek => BoundariesLevel Ek []) := rfl

theorem getD_Boundaries (E0 : List Cube) (upper : List (List Cube)) (n : Nat)
    (hn : n < upper.length) :
    (upper.map fun Ek => BoundariesLevel Ek []).getD n [] =
      BoundariesLevel ((E0 :: upper).getD (n + 1) []) [] := by
  simp [List.getD_eq_getElem?_getD, List.getElem?_map, List.getElem?_eq_getElem hn]

/-- C20 (amended): for every list of bases `E` with at least one level,
`Boundaries(E)` returns a boundary map `bd`, `BoundaryOperatorMatrix(E, bd)`
returns, and its result is the sequence of matrices that
`BoundaryOperatorMatrix(E)` returns: the same count, and matrix by matrix the
same dimensions and the same columns. -/
theorem BoundaryOperatorMatrix_paths_agree (E : ChainComplex) (hE : E ≠ []) :
    ∃ bd Ms, Boundaries E = .ok bd ∧ BoundaryOperatorMatrix E bd = .ok Ms ∧
      Ms = BoundaryOperatorMatrixE E ∧ Ms.length = E.length - 1 := by
  cases E with
  | nil => exact absurd rfl hE
  | cons E0 upper =>
    obtain ⟨Ms, hMs, hlen, hget⟩ := BoundaryOperatorMatrixLoop_spec
      (upper.map fun Ek => BoundariesLevel Ek []) (E0 :: upper) 1 (le_refl 1) (by simp)
    refine ⟨_, Ms, Boundaries_cons E0 upper, hMs, ?_, hlen⟩
    obtain ⟨hlenE, hgetE⟩ := BoundaryOperatorMatrixE_spec (E0 :: upper)
    apply List.ext_getElem?
    intro n
    by_cases hn : n + 1 < (E0 :: upper).length
    · rw [hget n hn, hgetE n hn]
      have hn1 : n < upper.length := by simpa using hn
      have e : 1 - 1 + n = n := by omega
      rw [e, getD_Boundaries E0 upper n hn1, levelMatrix_BoundariesLevel]
    · have h1 : Ms.length ≤ n := by rw [hlen]; omega
      have h2 : (BoundaryOperatorMatrixE (E0 :: upper)).length ≤ n := by rw [hlenE]; omega
      rw [List.getElem?_eq_none h1, List.getElem?_eq_none h2]

theorem BoundaryOperatorMatrix_paths_agree_witness :
    twoSquaresE ≠ [] ∧
    ∃ bd Ms, Boundaries twoSquaresE = .ok bd ∧ BoundaryOperatorMatrix twoSquaresE bd = .ok Ms ∧
      Ms = BoundaryOperatorMatrixE twoSquaresE ∧ Ms.length = twoSquaresE.length - 1 :=
  ⟨by decide, BoundaryOperatorMatrix_paths_agree twoSquaresE (by decide)⟩

/-- C20 (counterexample): for the list of bases without any level,
`Boundaries(E)` asks for a vector of `E.size() - 1` levels, which wraps around,
and does not return, while `BoundaryOperatorMatrix(E)` returns the empty
sequence of matrices. -/
theorem Boundaries_empty_fails :
    Boundaries [] = .outOfRange ∧ BoundaryOperatorMatrixE [] = [] ∧
    (Boundaries []).bind (fun bd => BoundaryOperatorMatrix [] bd) ≠
      .ok (BoundaryOperatorMatrixE []) := by
  refine ⟨rfl, rfl, ?_⟩
  intro h
  cases h

/-- C17: for a cubical set `K` whose cubes have dimension at most
`K.Dimension()`, with `E` the bases that `GetCoordinates` lists from
`CubicalChainGroups(K)` and `bd = Boundaries(E)`: `bd` has a level for each
`k` in `1..d`, the keys of `bd[k-1]` are exactly the cubes of `E[k]`, the chain
stored for a key `b` is `BoundaryOperator(b)`, and every key of such a chain
is in `E[k-1]`. -/
theorem Boundaries_keys (pick : CubeMap Int → Nat) (K : CubicalSet) (fuel : Nat)
    (hdim : ∀ Q, Q ∈ mapKeys K.cubes → Dimension Q ≤ K.dimension)
    (hfuel : closureWeight K.cubes ≤ fuel) :
    ∃ chainGroups bd, CubicalChainGroups pick fuel K = .ok chainGroups ∧
      Boundaries (chainGroups.map GetCoordinates) = .ok bd ∧ bd.length = K.dimension ∧
      ∀ k, 1 ≤ k → k ≤ K.dimension →
        (∀ Q, Q ∈ mapKeys (bd.getD (k - 1) []) ↔
          Q ∈ (chainGroups.map GetCoordinates).getD k []) ∧
        ∀ b c, mapFind (bd.getD (k - 1) []) b = some c →
          c = BoundaryOperator b ∧
          ∀ x, x ∈ mapKeys c → x ∈ (chainGroups.map GetCoordinates).getD (k - 1) [] := by
  obtain ⟨K1, E1, hloop, hinv, he⟩ := CubicalChainGroupsLoop_inv pick (mapKeys K.cubes)
    K.dimension fuel K _ (ClosureInv_init K hdim) hfuel
  have hlen : (E1.map GetCoordinates).length = K.dimension + 1 := by
    rw [List.length_map]; exact hinv.len
  cases hE : E1.map GetCoordinates with
  | nil => rw [hE] at hlen; simp at hlen
  | cons E0 upper =>
    rw [hE] at hlen
    have hup : upper.length = K.dimension := by simpa using hlen
    refine ⟨E1, _, hloop, by rw [hE]; exact Boundaries_cons E0 upper, by simpa using hup, ?_⟩
    intro k hk1 hkd
    obtain ⟨n, rfl⟩ : ∃ n, k = n + 1 := ⟨k - 1, by omega⟩
    have hn : n < upper.length := by omega
    have e : n + 1 - 1 = n := by omega
    rw [e, getD_Boundaries E0 upper n hn]
    constructor
    · intro Q
      rw [← hE]
      exact mem_mapKeys_BoundariesLevel _ Q
    · intro b c hbc
      rw [mapFind_BoundariesLevel] at hbc
      by_cases hb : b ∈ (E0 :: upper).getD (n + 1) []
      · rw [if_pos hb] at hbc
        have hc : c = BoundaryOperator b := (Option.some.inj hbc).symm
        refine ⟨hc, ?_⟩
        intro x hx
        rw [← hE] at hb
        rw [getD_map_GetCoordinates] at hb ⊢
        rw [hc] at hx
        exact ClosureInv_faces _ _ K1 E1 hinv he n b hb x hx
      · rw [if_neg hb] at hbc
        simp [mapFind] at hbc

theorem Boundaries_keys_witness :
    (∀ Q, Q ∈ mapKeys unitSquareSet.cubes → Dimension Q ≤ unitSquareSet.dimension) ∧
    closureWeight unitSquareSet.cubes ≤ 13 ∧
    ∃ chainGroups bd, CubicalChainGroups (fun _ => 0) 13 unitSquareSet = .ok chainGroups ∧
      Boundaries (chainGroups.map GetCoordinates) = .ok bd ∧
      bd.length = unitSquareSet.dimension ∧
      ∀ k, 1 ≤ k → k ≤ unitSquareSet.dimension →
        (∀ Q, Q ∈ mapKeys (bd.getD (k - 1) []) ↔
          Q ∈ (chainGroups.map GetCoordinates).getD k []) ∧
        ∀ b c, mapFind (bd.getD (k - 1) []) b = some c →
          c = BoundaryOperator b ∧
          ∀ x, x ∈ mapKeys c → x ∈ (chainGroups.map GetCoordinates).getD (k - 1) [] :=
  ⟨unitSquareSet_dim, unitSquareSet_weight,
    Boundaries_keys (fun _ => 0) unitSquareSet 13 unitSquareSet_dim unitSquareSet_weight⟩

/-! ## The scan for a reduction pair -/

theorem ReduceScanFaces_spec (b : Cube) (L : List Cube) :
    ∀ m : CubeMap Chain,
      (∀ q x, mapFind2 (ReduceScanFaces b L m).1 q x = mapFind2 m q x) ∧
      (∀ a, (ReduceScanFaces b L m).2 = some a →
        a ∈ L ∧ ∃ x : Int, mapFind2 m b a = some x ∧ x.natAbs = 1) ∧
      ((ReduceScanFaces b L m).2 = none →
        ∀ a, a ∈ L → ∀ x : Int, mapFind2 m b a = some x → x.natAbs ≠ 1) := by
  induction L with
  | nil =>
    intro m
    refine ⟨fun _ _ => rfl, fun a h => ?_, fun _ a ha => ?_⟩
    · cases h
    · cases ha
  | cons a rest ih =>
    intro m
    have hm : ∀ q x, mapFind2 (mapIndex m b []).2 q x = mapFind2 m q x :=
      fun q x => mapFind2_mapIndex_nil m b q x
    have hch : mapFind (mapIndex m b []).1 a = mapFind2 m b a := mapFind_mapIndex_fst_nil m b a
    obtain ⟨i1, i2, i3⟩ := ih (mapIndex m b []).2
    have hrest : (∀ q x, mapFind2 (ReduceScanFaces b rest (mapIndex m b []).2).1 q x
          = mapFind2 m q x) ∧
        (∀ a1, (ReduceScanFaces b rest (mapIndex m b []).2).2 = some a1 →
          a1 ∈ a :: rest ∧ ∃ x : Int, mapFind2 m b a1 = some x ∧ x.natAbs = 1) := by
      refine ⟨fun q x => by rw [i1, hm], fun a1 h1 => ?_⟩
      obtain ⟨g1, x, g2, g3⟩ := i2 a1 h1
      exact ⟨List.mem_cons_of_mem _ g1, x, by rw [← hm]; exact g2, g3⟩
    unfold ReduceScanFaces
    simp only []
    split
    · rename_i x hx
      rw [hch] at hx
      by_cases h1 : x.natAbs = 1
      · rw [if_pos h1]
        refine ⟨hm, fun a1 e => ?_, fun e => ?_⟩
        · cases e
          exact ⟨List.mem_cons_self _ _, x, hx, h1⟩
        · cases e
      · rw [if_neg h1]
        refine ⟨hrest.1, hrest.2, fun e a1 ha1 y hy => ?_⟩
        rcases List.mem_cons.1 ha1 with g | g
        · rw [g, hx] at hy
          cases hy
          exact h1
        · exact i3 e a1 g y (by rw [hm]; exact hy)
    · rename_i hx
      rw [hch] at hx
      refine ⟨hrest.1, hrest.2, fun e a1 ha1 y hy => ?_⟩
      rcases List.mem_cons.1 ha1 with g | g
      · rw [g, hx] at hy
        cases hy
      · exact i3 e a1 g y (by rw [hm]; exact hy)

theorem ReduceScanCubes_spec (Ei1 : List Cube) (L : List Cube) :
    ∀ m : CubeMap Chain,
      (∀ q x, mapFind2 (ReduceScanCubes Ei1 L m).1 q x = mapFind2 m q x) ∧
      (∀ a b, (ReduceScanCubes Ei1 L m).2 = some (a, b) →
        b ∈ L ∧ a ∈ Ei1 ∧ ∃ x : Int, mapFind2 m b a = some x ∧ x.natAbs = 1) ∧
      ((ReduceScanCubes Ei1 L m).2 = none →
        ∀ b, b ∈ L → ∀ a, a ∈ Ei1 → ∀ x : Int, mapFind2 m b a = some x → x.natAbs ≠ 1) := by
  induction L with
  | nil =>
    intro m
    refine ⟨fun _ _ => rfl, fun a b h => ?_, fun _ b hb => ?_⟩
    · cases h
    · cases hb
  | cons b rest ih =>
    intro m
    obtain ⟨f1, f2, f3⟩ := ReduceScanFaces_spec b Ei1 m
    unfold ReduceScanCubes
    split
    · rename_i m1 a hsc
      rw [hsc] at f1 f2
      refine ⟨f1, fun a1 b1 e => ?_, fun e => ?_⟩
      · cases e
        obtain ⟨g1, g2⟩ := f2 a rfl
        exact ⟨List.mem_cons_self _ _, g1, g2⟩
      · cases e
    · rename_i m1 hsc
      rw [hsc] at f1 f3
      obtain ⟨i1, i2, i3⟩ := ih m1
      refine ⟨fun q x => by rw [i1, f1], fun a1 b1 e => ?_, fun e b1 hb1 a1 ha1 y hy => ?_⟩
      · obtain ⟨g1, g2, x, g3, g4⟩ := i2 a1 b1 e
        exact ⟨List.mem_cons_of_mem _ g1, g2, x, by rw [← f1]; exact g3, g4⟩
      · rcases List.mem_cons.1 hb1 with g | g
        · rw [g] at hy
          exact f3 rfl a1 ha1 y hy
        · exact i3 e b1 g a1 ha1 y (by rw [f1]; exact hy)

theorem totalSize_set (E : ChainComplex) :
    ∀ (i : Nat) (x : List Cube), i < E.length →
      totalSize (E.set i x) + (E.getD i []).length = totalSize E + x.length := by
  induction E with
  | nil => intro i x h; simp at h
  | cons E0 rest ih =>
    intro i x h
    cases i with
    | zero =>
      simp [totalSize]
      omega
    | succ i =>
      have := ih i x (by simpa using h)
      simp [totalSize] at this ⊢
      omega

theorem Reduce_top_ok (E : ChainComplex) (bd : BoundaryMap) (n : Nat) (a b : Cube)
    (hE : E.length = n + 1) (hn : 2 ≤ n) (hbd : n ≤ bd.length) :
    ∃ r, Reduce E bd (n : Int) a b = .ok r := by
  unfold Reduce
  have h1 : ¬ sizeT (n : Int) < sizeT ((E.length : Int) - 1) := by
    rw [hE]
    simp
  have c1 : ((n : Int) - 1) = ((n - 1 : Nat) : Int) := by omega
  have c2 : ((n : Int) - 2) = ((n - 2 : Nat) : Int) := by omega
  rw [if_neg h1, c1, c2]
  simp only [Outcome.bind]
  rw [vecGet_nat E n [] (by omega)]
  simp only [Outcome.bind]
  rw [vecGet_nat bd (n - 1) [] (by omega)]
  simp only [Outcome.bind]
  rw [vecSet_nat bd (n - 1) _ (by omega)]
  simp only [Outcome.bind]
  rw [vecSet_nat E n _ (by omega)]
  simp only [Outcome.bind]
  rw [vecGet_nat _ (n - 1) [] (by rw [List.length_set]; omega)]
  simp only [Outcome.bind]
  rw [vecSet_nat _ (n - 1) _ (by rw [List.length_set]; omega)]
  simp only [Outcome.bind]
  rw [vecGet_nat _ (n - 1) [] (by rw [List.length_set]; omega)]
  simp only [Outcome.bind]
  rw [vecSet_nat _ (n - 1) _ (by rw [List.length_set]; omega)]
  simp only [Outcome.bind]
  rw [vecGet_nat _ (n - 2) [] (by rw [List.length_set, List.length_set]; omega)]
  simp only [Outcome.bind]
  rw [vecSet_nat _ (n - 2) _ (by rw [List.length_set, List.length_set]; omega)]
  simp only [Outcome.bind]
  exact ⟨_, rfl⟩

theorem Reduce_totalSize (E : ChainComplex) (bd : BoundaryMap) (n : Nat) (a b : Cube)
    (r : ChainComplex × BoundaryMap) (h : Reduce E bd (n : Int) a b = .ok r)
    (hb : b ∈ E.getD n []) (ha : a ∈ E.getD (n - 1) []) :
    totalSize r.1 + 2 = totalSize E ∧ r.1.length = E.length ∧ r.2.length = bd.length ∧
      (r.1.getD n []).length + 1 = (E.getD n []).length := by
  obtain ⟨n1, hk, hn2, hnE, hnbd, hr1, bd1, hbd1, hr2⟩ := Reduce_inv E bd n a b r h
  have hnn : n = n1 := by omega
  subst hnn
  have hlen1 : bd1.length = bd.length := by
    rcases hbd1 with e | ⟨-, -, e⟩ <;> rw [e]
    exact List.length_set _ _ _
  have s1 := totalSize_set E n (RemoveElementFromVector (E.getD n []) b) hnE
  have s2 := totalSize_set (E.set n (RemoveElementFromVector (E.getD n []) b)) (n - 1)
    (RemoveElementFromVector (E.getD (n - 1) []) a) (by rw [List.length_set]; omega)
  rw [getD_set, if_neg (fun e => by omega)] at s2
  have l1 := RemoveElementFromVector_length _ _ hb
  have l2 := RemoveElementFromVector_length _ _ ha
  refine ⟨by rw [hr1]; omega, by rw [hr1]; simp, by rw [hr2]; simp [hlen1], ?_⟩
  rw [hr1, getD_set, if_neg (fun e => by omega), getD_set, if_pos ⟨rfl, hnE⟩]
  exact l1

/-! ## One sweep of the reducer at the top level -/

theorem bdFind_set_scan (bd : BoundaryMap) (n : Nat) (m1 : CubeMap Chain)
    (h : ∀ q x, mapFind2 m1 q x = mapFind2 (bd.getD n []) q x) (j : Nat) (c x : Cube) :
    bdFind (bd.set n m1) j c x = bdFind bd j c x := by
  unfold bdFind
  rw [getD_set]
  by_cases hj : n = j ∧ n < bd.length
  · rw [if_pos hj, h, hj.1]
  · rw [if_neg hj]

theorem ReduceScanCubes_head (Ei1 : List Cube) (b0 : Cube) (rest : List Cube)
    (m : CubeMap Chain) (a0 : Cube) (ha0 : a0 ∈ Ei1) (x : Int)
    (hx : mapFind2 m b0 a0 = some x) (hx1 : x.natAbs = 1) :
    ∃ a, (ReduceScanCubes Ei1 (b0 :: rest) m).2 = some (a, b0) := by
  obtain ⟨-, -, f3⟩ := ReduceScanFaces_spec b0 Ei1 m
  unfold ReduceScanCubes
  split
  · rename_i m1 a hsc
    exact ⟨a, rfl⟩
  · rename_i m1 hsc
    have hnone : (ReduceScanFaces b0 Ei1 m).2 = none := by rw [hsc]
    exact absurd hx1 (f3 hnone a0 ha0 x hx)

theorem ReduceChainComplexBody_top (n : Nat) (st : ReduceState) (hE : st.E.length = n + 1)
    (hn : 2 ≤ n) (hbd : n ≤ st.bd.length) :
    (∃ st1, ReduceChainComplexBody (n : Int) st = .ok st1 ∧
        st1.E = st.E ∧ st1.calls = st.calls ∧ st1.reductionPairs = false ∧
        st1.bd.length = st.bd.length ∧
        (∀ j c x, bdFind st1.bd j c x = bdFind st.bd j c x) ∧
        ∀ a b, ¬ UnitPair st.E st.bd n a b) ∨
    (∃ a b bd1 r, UnitPair st.E st.bd n a b ∧ bd1.length = st.bd.length ∧
        (∀ j c x, bdFind bd1 j c x = bdFind st.bd j c x) ∧
        Reduce st.E bd1 (n : Int) a b = .ok r ∧
        (∀ b0 rest, st.E.getD n [] = b0 :: rest → (∃ a0, UnitPair st.E st.bd n a0 b0) →
          b = b0) ∧
        ReduceChainComplexBody (n : Int) st =
          if (st.E.getD n []).indexOf b + 2 = (st.E.getD n []).length then .outOfRange
          else .ok ⟨r.1, r.2, st.reductionPairs, st.calls + 1⟩) := by
  unfold ReduceChainComplexBody
  have c1 : ((n : Int) - 1) = ((n - 1 : Nat) : Int) := by omega
  rw [c1, vecGet_nat st.E n [] (by omega)]
  simp only [Outcome.bind]
  by_cases hEi : (st.E.getD n []).isEmpty = true
  · rw [if_pos hEi]
    refine Or.inl ⟨_, rfl, rfl, rfl, rfl, rfl, fun _ _ _ => rfl, ?_⟩
    rintro a b ⟨hb, -⟩
    rw [List.isEmpty_iff.1 hEi] at hb
    cases hb
  rw [if_neg hEi, vecGet_nat st.E (n - 1) [] (by omega)]
  simp only [Outcome.bind]
  by_cases hEi1 : (st.E.getD (n - 1) []).isEmpty = true
  · rw [if_pos hEi1]
    refine Or.inl ⟨_, rfl, rfl, rfl, rfl, rfl, fun _ _ _ => rfl, ?_⟩
    rintro a b ⟨-, ha, -⟩
    rw [List.isEmpty_iff.1 hEi1] at ha
    cases ha
  rw [if_neg hEi1, vecGet_nat st.bd (n - 1) [] (by omega)]
  simp only [Outcome.bind]
  rw [vecSet_nat st.bd (n - 1) _ (by omega)]
  simp only [Outcome.bind]
  obtain ⟨s1, s2, s3⟩ := ReduceScanCubes_spec (st.E.getD (n - 1) []) (st.E.getD n [])
    (st.bd.getD (n - 1) [])
  have hfind := bdFind_set_scan st.bd (n - 1) _ s1
  cases hsc : (ReduceScanCubes (st.E.getD (n - 1) []) (st.E.getD n []) (st.bd.getD (n - 1) [])).2 with
  | none =>
    simp only []
    refine Or.inl ⟨_, rfl, rfl, rfl, rfl, by simp, hfind, ?_⟩
    rintro a b ⟨hb, ha, x, hx, hx1⟩
    exact s3 hsc b hb a ha x hx hx1
  | some p =>
    obtain ⟨a, b⟩ := p
    simp only []
    obtain ⟨hb, ha, x, hx, hx1⟩ := s2 a b hsc
    obtain ⟨r, hr⟩ := Reduce_top_ok st.E
      (st.bd.set (n - 1) (ReduceScanCubes (st.E.getD (n - 1) []) (st.E.getD n [])
        (st.bd.getD (n - 1) [])).1) n a b hE hn (by rw [List.length_set]; exact hbd)
    rw [hr]
    refine Or.inr ⟨a, b, _, r, ⟨hb, ha, x, hx, hx1⟩, by simp, hfind, hr, ?_, rfl⟩
    intro b0 rest hb0 hpair
    obtain ⟨a0, -, ha0, y, hy, hy1⟩ := hpair
    obtain ⟨a1, h1⟩ := ReduceScanCubes_head (st.E.getD (n - 1) []) b0 rest
      (st.bd.getD (n - 1) []) a0 ha0 y hy hy1
    rw [hb0, h1] at hsc
    cases hsc
    rfl

theorem toInt32_sizeT_pred (n : Nat) (h31 : n < 2 ^ 31) :
    toInt32 (sizeT (((n + 1 : Nat) : Int) - 1)) = n := by
  unfold toInt32 sizeT
  have e : ((n + 1 : Nat) : Int) - 1 = n := by omega
  rw [e]
  have h1 : ((n : Int)) % 2 ^ 64 = n := by
    apply Int.emod_eq_of_lt <;> omega
  rw [h1]
  have h2 : ((n : Int) + 2 ^ 31) % 2 ^ 32 = n + 2 ^ 31 := by
    apply Int.emod_eq_of_lt <;> omega
  rw [h2]
  omega

theorem ReduceChainComplexFor_top (fuel : Nat) (n : Nat) (st st1 : ReduceState)
    (hE : st.E.length = n + 1) (hn : 1 ≤ n) (h31 : n < 2 ^ 31)
    (hbody : ReduceChainComplexBody (n : Int) st = .ok st1) (hlen : st1.E.length = st.E.length) :
    ReduceChainComplexFor (fuel + 1) (toInt32 (sizeT ((st.E.length : Int) - 1))) st =
      .ok st1 := by
  rw [hE, toInt32_sizeT_pred n h31]
  unfold ReduceChainComplexFor
  have t1 : sizeT (n : Int) > sizeT ((st.E.length : Int) - 2) := by
    rw [hE]
    unfold sizeT
    have e : ((n + 1 : Nat) : Int) - 2 = ((n - 1 : Nat) : Int) := by omega
    rw [e]
    have h1 : ((n : Int)) % 2 ^ 64 = n := by
      apply Int.emod_eq_of_lt <;> omega
    have h2 : (((n - 1 : Nat) : Int)) % 2 ^ 64 = ((n - 1 : Nat) : Int) := by
      apply Int.emod_eq_of_lt <;> omega
    rw [h1, h2]
    omega
  rw [if_pos t1]
  simp only [hbody, Outcome.bind]
  unfold ReduceChainComplexFor
  have t2 : ¬ sizeT ((n : Int) - 1) > sizeT ((st1.E.length : Int) - 2) := by
    rw [hlen, hE]
    have e : ((n + 1 : Nat) : Int) - 2 = (n : Int) - 1 := by omega
    rw [e]
    exact lt_irrefl _
  rw [if_neg t2]

theorem ReduceChainComplexFor_top_fault (fuel : Nat) (n : Nat) (st : ReduceState)
    (hE : st.E.length = n + 1) (hn : 1 ≤ n) (h31 : n < 2 ^ 31)
    (hbody : ReduceChainComplexBody (n : Int) st = .outOfRange) :
    ReduceChainComplexFor (fuel + 1) (toInt32 (sizeT ((st.E.length : Int) - 1))) st =
      .outOfRange := by
  rw [hE, toInt32_sizeT_pred n h31]
  unfold ReduceChainComplexFor
  have t1 : sizeT (n : Int) > sizeT ((st.E.length : Int) - 2) := by
    rw [hE]
    unfold sizeT
    have e : ((n + 1 : Nat) : Int) - 2 = ((n - 1 : Nat) : Int) := by omega
    rw [e]
    have h1 : ((n : Int)) % 2 ^ 64 = n := by
      apply Int.emod_eq_of_lt <;> omega
    have h2 : (((n - 1 : Nat) : Int)) % 2 ^ 64 = ((n - 1 : Nat) : Int) := by
      apply Int.emod_eq_of_lt <;> omega
    rw [h1, h2]
    omega
  rw [if_pos t1]
  simp only [hbody, Outcome.bind]

theorem ReduceChainComplexWhile_top (n : Nat) (hn : 2 ≤ n) (h31 : n < 2 ^ 31) :
    ∀ (fuel : Nat) (st : ReduceState), st.reductionPairs = true → st.E.length = n + 1 →
      n ≤ st.bd.length →
      (∀ st1, ReduceChainComplexWhile fuel st = .ok st1 →
        (∀ a b, ¬ UnitPair st1.E st1.bd n a b) ∧ ReductionRun n st st1 ∧
        totalSize st1.E + 2 * st1.calls = totalSize st.E + 2 * st.calls ∧
        st.calls ≤ st1.calls ∧
        ((∃ a b, UnitPair st.E st.bd n a b) → st.calls < st1.calls)) ∧
      ((st.E.getD n []).length < fuel → ReduceChainComplexWhile fuel st ≠ .outOfFuel) ∧
      ((st.E.getD n []).length ≤ 1 → (st.E.getD n []).length < fuel →
        ∃ st1, ReduceChainComplexWhile fuel st = .ok st1) := by
  intro fuel
  induction fuel with
  | zero =>
    intro st hrp _ _
    unfold ReduceChainComplexWhile
    rw [if_pos hrp]
    refine ⟨fun st1 h => ?_, fun h => ?_, fun _ h => ?_⟩
    · cases h
    · cases h
    · cases h
  | succ fuel ih =>
    intro st hrp hE hbd
    have hwhile : ∀ o, ReduceChainComplexFor (fuel + 1)
        (toInt32 (sizeT ((st.E.length : Int) - 1))) st = o →
        ReduceChainComplexWhile (fuel + 1) st = o.bind (ReduceChainComplexWhile fuel) := by
      intro o ho
      rw [ReduceChainComplexWhile]
      rw [if_pos hrp, ho]
    rcases ReduceChainComplexBody_top n st hE hn hbd with
      ⟨st1, hbody, e1, e2, e3, e4, e5, e6⟩ | ⟨a, b, bd1, r, hp, hl1, hf1, hr, -, hbody⟩
    · have hfor := ReduceChainComplexFor_top fuel n st st1 hE (by omega) h31 hbody
        (by rw [e1])
      have hstop : ReduceChainComplexWhile fuel st1 = .ok st1 := by
        unfold ReduceChainComplexWhile
        rw [e3]
        rfl
      have hw : ReduceChainComplexWhile (fuel + 1) st = .ok st1 := by
        rw [hwhile _ hfor]
        simp only [Outcome.bind]
        exact hstop
      rw [hw]
      refine ⟨fun st2 h => ?_, fun _ h => (by cases h), fun _ _ => ⟨st1, rfl⟩⟩
      cases h
      refine ⟨?_, ReductionRun.stop st st1 e1 e2 e5, by rw [e1, e2], by rw [e2], ?_⟩
      · rintro a b ⟨hb, ha, x, hx, hx1⟩
        rw [e1] at hb ha
        rw [e5] at hx
        exact e6 a b ⟨hb, ha, x, hx, hx1⟩
      · rintro ⟨a, b, hab⟩
        exact absurd hab (e6 a b)
    · by_cases hcond : (st.E.getD n []).indexOf b + 2 = (st.E.getD n []).length
      · rw [if_pos hcond] at hbody
        have hfor := ReduceChainComplexFor_top_fault fuel n st hE (by omega) h31 hbody
        have hw : ReduceChainComplexWhile (fuel + 1) st = .outOfRange := by
          rw [hwhile _ hfor]
          rfl
        rw [hw]
        refine ⟨fun st2 h => (by cases h), fun _ h => (by cases h), fun h1 _ => ?_⟩
        omega
      · rw [if_neg hcond] at hbody
        obtain ⟨t1, t2, t3, t4⟩ := Reduce_totalSize st.E bd1 n a b r hr hp.1 hp.2.1
        have hfor := ReduceChainComplexFor_top fuel n st _ hE (by omega) h31 hbody t2
        have hw : ReduceChainComplexWhile (fuel + 1) st =
            ReduceChainComplexWhile fuel ⟨r.1, r.2, st.reductionPairs, st.calls + 1⟩ := by
          rw [hwhile _ hfor]
          rfl
        rw [hw]
        obtain ⟨ihp, iht1, iht2⟩ := ih ⟨r.1, r.2, st.reductionPairs, st.calls + 1⟩ hrp
          (by simp only []; rw [t2]; exact hE) (by simp only []; rw [t3, hl1]; exact hbd)
        simp only [] at ihp iht1 iht2
        refine ⟨fun st2 h2 => ?_, fun hfuel => iht1 (by omega), fun h1 hfuel =>
          iht2 (by omega) (by omega)⟩
        obtain ⟨p1, p2, p3, p4, -⟩ := ihp st2 h2
        refine ⟨p1, ReductionRun.step st st2 a b bd1 r hp hf1 hr p2, by omega, by omega,
          fun _ => by omega⟩

/-! ## The read outside the top basis after a reduction -/

theorem signedFaces_coeff (Q : Cube) : ∀ p, p ∈ signedFaces Q → p.2 = 1 ∨ p.2 = -1 := by
  induction Q with
  | nil => intro p hp; simp [signedFaces] at hp
  | cons I S ih =>
    intro p hp
    unfold signedFaces at hp
    split at hp
    · rcases List.mem_cons.1 hp with e | hp1
      · right; rw [e]
      · rcases List.mem_cons.1 hp1 with e | hp2
        · left; rw [e]
        · obtain ⟨q, hq, e⟩ := List.mem_map.1 hp2
          rw [← e]
          rcases ih q hq with g | g
          · right; simp [g]
          · left; simp [g]
    · obtain ⟨q, hq, e⟩ := List.mem_map.1 hp
      rw [← e]
      exact ih q hq

theorem BoundaryOperator_unit_face (Q : Cube) (hd : 1 ≤ Dimension Q) :
    ∃ (F : Cube) (v : Int), F ∈ mapKeys (BoundaryOperator Q) ∧
      mapFind (BoundaryOperator Q) F = some v ∧ v.natAbs = 1 := by
  rw [BoundaryOperator_eq_signedFaces]
  have hlen := signedFaces_length Q
  cases hs : signedFaces Q with
  | nil => rw [hs] at hlen; simp at hlen; omega
  | cons p rest =>
    have hF : p.1 ∈ mapKeys (p :: rest) := by simp [mapKeys]
    cases hv : mapFind (p :: rest) p.1 with
    | none => exact absurd hF ((mapFind_eq_none_iff _ _).1 hv)
    | some v =>
      refine ⟨p.1, v, hF, hv, ?_⟩
      have hm := mapFind_mem _ _ _ hv
      rw [← hs] at hm
      rcases signedFaces_coeff Q _ hm with g | g
      · simp only [] at g; rw [g]; rfl
      · simp only [] at g; rw [g]; rfl

theorem UnitPair_of_built (K1 : CubicalSet) (init : List Cube) (d : Nat)
    (E1 : List (CubeMap Int)) (hinv : ClosureInv init (d + 1) K1 E1) (he : K1.isEmpty = true)
    (Q : Cube) (hQ : Q ∈ mapKeys (E1.getD (d + 1) []))
    (bd : BoundaryMap) (hbd : Boundaries (E1.map GetCoordinates) = .ok bd) :
    ∃ a, UnitPair (E1.map GetCoordinates) bd (d + 1) a Q := by
  have hQd : Dimension Q = d + 1 := (hinv.sound _ Q hQ).2
  obtain ⟨F, v, hF, hv, hv1⟩ := BoundaryOperator_unit_face Q (by omega)
  have hFE : F ∈ mapKeys (E1.getD d []) := ClosureInv_faces _ _ K1 E1 hinv he d Q hQ F hF
  have hlen : (E1.map GetCoordinates).length = d + 1 + 1 := by
    rw [List.length_map]; exact hinv.len
  refine ⟨F, ?_, ?_, v, ?_, hv1⟩
  · rw [getD_map_GetCoordinates]; exact hQ
  · rw [getD_map_GetCoordinates]; exact hFE
  · cases hE : E1.map GetCoordinates with
    | nil => rw [hE] at hlen; simp at hlen
    | cons E0 upper =>
      rw [hE] at hbd hlen
      rw [Boundaries_cons] at hbd
      have hbd1 := Outcome.ok.inj hbd
      have hn : d < upper.length := by simp at hlen; omega
      have e : d + 1 - 1 = d := by omega
      unfold bdFind mapFind2
      rw [← hbd1, e, getD_Boundaries E0 upper d hn, mapFind_BoundariesLevel]
      have hQ2 : Q ∈ (E0 :: upper).getD (d + 1) [] := by
        rw [← hE, getD_map_GetCoordinates]; exact hQ
      rw [if_pos hQ2]
      exact hv

theorem ReduceChainComplex_next_to_last (E : ChainComplex) (bd : BoundaryMap) (n fuel : Nat)
    (hn : 2 ≤ n) (h31 : n < 2 ^ 31) (hE : E.length = n + 1) (hbd : n ≤ bd.length)
    (b0 b1 : Cube) (hEn : E.getD n [] = [b0, b1]) (hpair : ∃ a0, UnitPair E bd n a0 b0) :
    ReduceChainComplex (fuel + 1) E bd = .outOfRange := by
  unfold ReduceChainComplex
  rw [ReduceChainComplexWhile]
  rw [if_pos rfl]
  rcases ReduceChainComplexBody_top n { E := E, bd := bd, reductionPairs := true, calls := 0 }
      hE hn hbd with ⟨st1, -, -, -, -, -, -, e6⟩ | ⟨a, b, bd1, r, -, -, -, -, hhead, hbody⟩
  · obtain ⟨a0, h0⟩ := hpair
    exact absurd h0 (e6 a0 b0)
  · have hb : b = b0 := hhead b0 [b1] hEn hpair
    simp only [] at hbody
    have hc : 0 + 2 = ([b0, b1] : List Cube).length := rfl
    rw [hEn, hb, cubeIndexOf_cons, if_pos rfl, if_pos hc] at hbody
    rw [ReduceChainComplexFor_top_fault fuel n _ hE (by omega) h31 hbody]
    rfl

theorem Reach_top (init : List Cube) (d : Nat) (hdim : ∀ Q, Q ∈ init → Dimension Q ≤ d)
    (Q : Cube) (h : Reach init Q) : Q ∈ init ∨ Dimension Q < d := by
  induction h with
  | base hmem => exact Or.inl hmem
  | face _ hF ih =>
    rw [mapKeys_PrimaryFaces] at hF
    have hd := Dimension_of_mem_signedFaces _ _ hF
    right
    rcases ih with g | g
    · have := hdim _ g
      omega
    · omega

theorem twoSquaresSet_dim :
    ∀ Q, Q ∈ mapKeys twoSquaresSet.cubes → Dimension Q ≤ twoSquaresSet.dimension := by
  decide

theorem twoSquaresSet_weight : closureWeight twoSquaresSet.cubes = 26 := by
  decide

theorem twoSquaresSet_top (K1 : CubicalSet) (E1 : List (CubeMap Int))
    (hinv : ClosureInv (mapKeys twoSquaresSet.cubes) 2 K1 E1) (he : K1.isEmpty = true) :
    ∃ b0 b1, mapKeys (E1.getD 2 []) = [b0, b1] := by
  have hmem : ∀ Q, Q ∈ mapKeys (E1.getD 2 []) ↔
      Q ∈ [([⟨0, 1⟩, ⟨0, 1⟩] : Cube), [⟨1, 2⟩, ⟨0, 1⟩]] := by
    intro Q
    constructor
    · intro hQ
      obtain ⟨hr, hd⟩ := hinv.sound 2 Q hQ
      rcases Reach_top _ 2 twoSquaresSet_dim Q hr with g | g
      · exact g
      · omega
    · intro hQ
      have hr : Reach (mapKeys twoSquaresSet.cubes) Q := Reach.base hQ
      have hd : Dimension Q = 2 := by
        rcases List.mem_cons.1 hQ with g | g
        · rw [g]; rfl
        · rw [List.mem_singleton.1 g]; rfl
      have := ClosureInv_final _ _ K1 E1 hinv he Q hr
      rw [hd] at this
      exact this
  have hperm := (List.perm_ext_iff_of_nodup (hinv.nodup 2) (by decide)).2 hmem
  have hlen := hperm.length_eq
  cases hl : mapKeys (E1.getD 2 []) with
  | nil => rw [hl] at hlen; simp at hlen
  | cons b0 rest =>
    cases rest with
    | nil => rw [hl] at hlen; simp at hlen
    | cons b1 rest2 =>
      cases rest2 with
      | nil => exact ⟨b0, b1, rfl⟩
      | cons b2 rest3 => rw [hl] at hlen; simp at hlen

/-- C16 (failing input): for the cubical set of the two adjacent unit squares
`[0,1] x [0,1]` and `[1,2] x [0,1]`, in whatever order `Pop` takes the cubes,
`CubicalChainGroups` and `Boundaries` return and `ReduceChainComplex` does
not: the first sweep reduces the first of the two squares of `E[2]` and the
loop over `E[2]` then copies the element after it from the popped vector, so
that `GetHomology(K, true)` ends in a read outside `E[2]`.  The same holds for
the bases `twoSquaresE` with their boundary map. -/
theorem ReduceChainComplex_two_squares_out_of_range :
    (∀ (pick : CubeMap Int → Nat) (extra fuel2 : Nat),
      ∃ chainGroups bd, CubicalChainGroups pick (26 + extra) twoSquaresSet = .ok chainGroups ∧
        Boundaries (chainGroups.map GetCoordinates) = .ok bd ∧
        ReduceChainComplex (fuel2 + 1) (chainGroups.map GetCoordinates) bd = .outOfRange) ∧
    (∀ (pick : CubeMap Int → Nat) (solver : List IntMat → List (List Int)) (extra : Nat),
      GetHomology pick solver (26 + extra) twoSquaresSet true = .outOfRange) ∧
    Boundaries twoSquaresE = .ok twoSquaresBd ∧
    ∀ fuel2, ReduceChainComplex (fuel2 + 1) twoSquaresE twoSquaresBd = .outOfRange := by
  have hK : ∀ (pick : CubeMap Int → Nat) (extra fuel2 : Nat),
      ∃ chainGroups bd, CubicalChainGroups pick (26 + extra) twoSquaresSet = .ok chainGroups ∧
        Boundaries (chainGroups.map GetCoordinates) = .ok bd ∧
        ReduceChainComplex (fuel2 + 1) (chainGroups.map GetCoordinates) bd = .outOfRange := by
    intro pick extra fuel2
    obtain ⟨K1, E1, hloop, hinv, he⟩ := CubicalChainGroupsLoop_inv pick
      (mapKeys twoSquaresSet.cubes) twoSquaresSet.dimension (26 + extra) twoSquaresSet _
      (ClosureInv_init twoSquaresSet twoSquaresSet_dim) (by rw [twoSquaresSet_weight]; omega)
    have hinv2 : ClosureInv (mapKeys twoSquaresSet.cubes) (1 + 1) K1 E1 := hinv
    obtain ⟨b0, b1, htop⟩ := twoSquaresSet_top K1 E1 hinv he
    have hlen : (E1.map GetCoordinates).length = 2 + 1 := by
      rw [List.length_map]; exact hinv.len
    cases hE : E1.map GetCoordinates with
    | nil => rw [hE] at hlen; simp at hlen
    | cons E0 upper =>
      have hbdok : Boundaries (E1.map GetCoordinates) =
          .ok (upper.map fun Ek => BoundariesLevel Ek []) := by rw [hE]; rfl
      have hb0 : b0 ∈ mapKeys (E1.getD (1 + 1) []) := by
        rw [htop]; exact List.mem_cons_self _ _
      have hpair := UnitPair_of_built K1 _ 1 E1 hinv2 he b0 hb0 _ hbdok
      have hbdlen : 2 ≤ (upper.map fun Ek => BoundariesLevel Ek []).length := by
        rw [hE] at hlen
        simp at hlen
        simp [hlen]
      have hEn : (E1.map GetCoordinates).getD 2 [] = [b0, b1] := by
        rw [getD_map_GetCoordinates]; exact htop
      exact ⟨E1, _, hloop, hbdok, ReduceChainComplex_next_to_last _ _ 2 fuel2 (le_refl 2)
        (by decide) hlen hbdlen b0 b1 hEn hpair⟩
  refine ⟨hK, ?_, Boundaries_twoSquares, ?_⟩
  · intro pick solver extra
    obtain ⟨cg, bd, h1, h2, h3⟩ := hK pick extra (25 + extra)
    have e : 25 + extra + 1 = 26 + extra := by omega
    rw [e] at h3
    unfold GetHomology
    simp only [h1, Outcome.bind, h2, h3, if_true]
  · intro fuel2
    exact ReduceChainComplex_next_to_last twoSquaresE twoSquaresBd 2 fuel2 (le_refl 2)
      (by decide) rfl (by decide) [⟨0, 1⟩, ⟨0, 1⟩] [⟨1, 2⟩, ⟨0, 1⟩] rfl
      ⟨[⟨0, 0⟩, ⟨0, 1⟩], by decide, by decide, -1, by decide, by decide⟩

/-! ## What the reducer leaves unchanged -/

/-- C19: for a chain complex `(E, bd)` of dimension `d >= 2` (with `d` below
`2^31`, the index being an `int`): whenever `ReduceChainComplex` returns, the
final state has no cube `b` of `E[d]` and cube `a` of `E[d-1]` with `a` a key of
`bd[d-1][b]` of coefficient `1` or `-1`, and the final state comes from
`(E, bd)` by calls of `Reduce` at level `d`, each one on a pair that has such a
coefficient in the state it is applied to.  Given more steps than `E[d]` has
cubes the loop ends, by returning or in the read outside `E[d]` that follows
the reduction of a next-to-last cube; it returns when `E[d]` has at most one
cube.  In every state, also of a run that does not return, a sweep either
finds no such pair and leaves `E` as it is, or calls `Reduce` once, on such a
pair of that state. -/
theorem ReduceChainComplex_no_pair_left (E : ChainComplex) (bd : BoundaryMap) (d fuel : Nat)
    (hd : 2 ≤ d) (hE : E.length = d + 1) (h31 : d < 2 ^ 31) (hbd : d ≤ bd.length) :
    (∀ st, ReduceChainComplex fuel E bd = .ok st →
      (∀ a b, ¬ UnitPair st.E st.bd d a b) ∧
      ReductionRun d { E := E, bd := bd, reductionPairs := true, calls := 0 } st) ∧
    ((E.getD d []).length < fuel → ReduceChainComplex fuel E bd ≠ .outOfFuel) ∧
    ((E.getD d []).length ≤ 1 → (E.getD d []).length < fuel →
      ∃ st, ReduceChainComplex fuel E bd = .ok st) ∧
    ∀ st : ReduceState, st.E.length = d + 1 → d ≤ st.bd.length →
      (∃ st1, ReduceChainComplexBody (d : Int) st = .ok st1 ∧ st1.E = st.E ∧
        st1.calls = st.calls ∧ st1.reductionPairs = false ∧
        ∀ a b, ¬ UnitPair st.E st.bd d a b) ∨
      (∃ a b bd1 r, UnitPair st.E st.bd d a b ∧
        (∀ j c x, bdFind bd1 j c x = bdFind st.bd j c x) ∧
        Reduce st.E bd1 (d : Int) a b = .ok r ∧
        ReduceChainComplexBody (d : Int) st =
          if (st.E.getD d []).indexOf b + 2 = (st.E.getD d []).length then .outOfRange
          else .ok ⟨r.1, r.2, st.reductionPairs, st.calls + 1⟩) := by
  obtain ⟨hp, ht1, ht2⟩ := ReduceChainComplexWhile_top d hd h31 fuel
    { E := E, bd := bd, reductionPairs := true, calls := 0 } rfl hE hbd
  refine ⟨fun st hst => ?_, ht1, ht2, fun st hstE hstbd => ?_⟩
  · obtain ⟨p1, p2, -⟩ := hp st hst
    exact ⟨p1, p2⟩
  · rcases ReduceChainComplexBody_top d st hstE hd hstbd with
      ⟨st1, hbody, e1, e2, e3, -, -, e6⟩ | ⟨a, b, bd1, r, hpair, -, hf, hr, -, hbody⟩
    · exact Or.inl ⟨st1, hbody, e1, e2, e3, e6⟩
    · exact Or.inr ⟨a, b, bd1, r, hpair, hf, hr, hbody⟩

theorem ReduceChainComplex_no_pair_left_witness :
    2 ≤ 2 ∧ unitSquareE.length = 2 + 1 ∧ 2 < 2 ^ 31 ∧ 2 ≤ unitSquareBd.length ∧
    ∃ st, ReduceChainComplex 2 unitSquareE unitSquareBd = .ok st ∧
      (∀ a b, ¬ UnitPair st.E st.bd 2 a b) ∧
      ReductionRun 2
        { E := unitSquareE, bd := unitSquareBd, reductionPairs := true, calls := 0 } st := by
  obtain ⟨hp, -, ht, -⟩ := ReduceChainComplex_no_pair_left unitSquareE unitSquareBd 2 2
    (by decide) (by decide) (by decide) (by decide)
  obtain ⟨st, hst⟩ := ht (by decide) (by decide)
  exact ⟨by decide, by decide, by decide, by decide, st, hst, hp st hst⟩

end CubeSystem
